import Mathlib

/-!
# bitsery: the decoding core (`include/bitsery/adapter_reader.h`)

A shallow embedding of `AdapterReader` (the byte reader) and of
`AdapterReaderBitPackingWrapper` (the bit-packing reader), followed by the
properties proved about them.

Conventions of the embedding.

* An integral value of `SIZE` bytes is the natural number of its bit pattern,
  below `2 ^ (8 * SIZE)`; a signed `T` is read through its unsigned
  counterpart, as the code does with `reinterpret_cast<UT &>`.
* A mutable object is passed in and returned: a member function of the reader
  takes the reader and returns the new reader, next to the value it wrote
  through its reference argument.
* Arithmetic in a fixed-width unsigned type is arithmetic on `Nat` followed by
  `% 2 ^ width`.  The counters `bitsLeft` and `m_scratchBits` are `size_t`
  values that stay far below `2 ^ 64`; their subtractions are proved never to
  go below zero, so truncated subtraction on `Nat` is the machine result.
* `details/adapter_common.h` and the input adapters are not part of the
  sources at hand; what the reader needs from them is modelled from the
  specification and marked so.
-/

namespace Bitsery

/-- Modelled from the spec: the enumeration `ReaderError` (declared outside the
sources at hand): no error, data exhausted/overrun, invalid data content,
invalid reference/pointer, data-size overflow. -/
inductive ReaderError
  | NoError
  | Exhausted
  | InvalidData
  | InvalidPointer
  | SizeOverflow
  deriving DecidableEq, Repr

/-- Byte order of a multi-byte value. -/
inductive Endianness
  | LittleEndian
  | BigEndian
  deriving DecidableEq, Repr

/-- One raw byte of the source. -/
abbrev Byte := Fin 256

/-- Modelled from the spec: the abstract readable source (the input adapter,
declared outside the sources at hand).  It holds the byte storage, the read
cursor, the end of valid data (which may be smaller than the capacity) and the
recorded failure kind. -/
structure Source where
  data : List Byte
  readPos : Nat
  readEndPos : Nat
  err : ReaderError
  deriving DecidableEq, Repr

/-- First offset that is not valid data: the end of valid data, and never
beyond the storage itself. -/
def Source.validEnd (s : Source) : Nat := min s.readEndPos s.data.length

/-- Number of valid bytes from the cursor on. -/
def Source.remaining (s : Source) : Nat := s.validEnd - s.readPos

/-- Modelled from the spec: `error(kind)` of the source.  The spec recommends
that the first recorded error wins: a later error does not overwrite it. -/
def Source.error (s : Source) (e : ReaderError) : Source :=
  if s.err = ReaderError.NoError then { s with err := e } else s

/-- Modelled from the spec: `read(buffer_pointer, byte_count)` of the source:
copies `byte_count` raw bytes from the cursor and advances the cursor; on
insufficient remaining data it records the exhausted/overrun error instead of
reading past the end.  The spec does not say what the destination holds after
a failed read; here it holds zero bytes and the cursor stays. -/
def Source.read (s : Source) (n : Nat) : Source × List Byte :=
  if n ≤ s.remaining then
    ({ s with readPos := s.readPos + n }, (s.data.drop s.readPos).take n)
  else
    (s.error ReaderError.Exhausted, List.replicate n 0)

/-- Modelled from the spec: `currentReadPos(pos)` of the source sets the byte
offset cursor. -/
def Source.currentReadPos (s : Source) (pos : Nat) : Source :=
  { s with readPos := pos }

/-- Modelled from the spec: `currentReadEndPos(pos)` of the source sets the offset
that marks the end of valid data. -/
def Source.currentReadEndPos (s : Source) (pos : Nat) : Source :=
  { s with readEndPos := pos }

/-- Modelled from the spec: `isCompletedSuccessfully()` of the source: no
error has been recorded. -/
def Source.isCompletedSuccessfully (s : Source) : Bool :=
  decide (s.err = ReaderError.NoError)

/-- Little-endian value of a byte sequence: the first byte is the least
significant. -/
def fromLE : List Byte → Nat
  | [] => 0
  | b :: bs => b.val + 256 * fromLE bs

/-- The `n` low-order bytes of `x`, least significant first. -/
def toLE : Nat → Nat → List Byte
  | 0, _ => []
  | n + 1, x => ⟨x % 256, Nat.mod_lt x (by decide)⟩ :: toLE n (x / 256)

/-- The integer a host of byte order `sys` sees in an object whose storage
holds the bytes `raw` (what `read` leaves behind the `reinterpret_cast`). -/
def load (sys : Endianness) (raw : List Byte) : Nat :=
  match sys with
  | Endianness.LittleEndian => fromLE raw
  | Endianness.BigEndian => fromLE raw.reverse

/-- The `size` bytes of `v` in the byte order `order`, as they lie on the wire
or in memory. -/
def store (order : Endianness) (size v : Nat) : List Byte :=
  match order with
  | Endianness.LittleEndian => toLE size v
  | Endianness.BigEndian => (toLE size v).reverse

/-- Modelled from the spec: `details::swap` (declared outside the sources at
hand) reverses the byte order of a `size`-byte integer. -/
def swap (size x : Nat) : Nat := fromLE (toLE size x).reverse

/-- Compile-time configuration of the byte reader: `Config::NetworkEndianness`
and the result of `details::getSystemEndianness()`. -/
structure Config where
  networkEndianness : Endianness
  systemEndianness : Endianness
  deriving DecidableEq, Repr

/-- Splits a raw buffer into `count` consecutive objects of `size` bytes. -/
def chunk (size : Nat) : Nat → List Byte → List (List Byte)
  | 0, _ => []
  | k + 1, bs => bs.take size :: chunk size k (bs.drop size)

namespace AdapterReader

/-- Embeds both overloads of `_swapDataBits`: each element is swapped when the
network and the system byte order differ, and nothing happens otherwise. -/
def swapDataBits (cfg : Config) (size : Nat) (vs : List Nat) : List Nat :=
  if cfg.networkEndianness ≠ cfg.systemEndianness then vs.map (swap size) else vs

/-- Embeds `directRead`: one `read` of `sizeof(T) * count` bytes, then the
conditional swap of each element. -/
def directRead (cfg : Config) (size count : Nat) (s : Source) : Source × List Nat :=
  ((s.read (size * count)).1,
    swapDataBits cfg size
      ((chunk size count (s.read (size * count)).2).map (load cfg.systemEndianness)))

/-- Embeds `AdapterReader::readBytes<SIZE, T>`. -/
def readBytes (cfg : Config) (size : Nat) (s : Source) : Source × Nat :=
  ((directRead cfg size 1 s).1, (directRead cfg size 1 s).2.headD 0)

/-- Embeds `AdapterReader::readBuffer<SIZE, T>`. -/
def readBuffer (cfg : Config) (size count : Nat) (s : Source) : Source × List Nat :=
  directRead cfg size count s

/-- Runs `readBytes<SIZE, T>` `count` times in a row and collects the values. -/
def readBytesSeq (cfg : Config) (size : Nat) : Nat → Source → Source × List Nat
  | 0, s => (s, [])
  | k + 1, s =>
    ((readBytesSeq cfg size k (readBytes cfg size s).1).1,
      (readBytes cfg size s).2 :: (readBytesSeq cfg size k (readBytes cfg size s).1).2)

/-- Embeds `AdapterReader::align`, which does nothing. -/
def align (s : Source) : Source := s

/-- Embeds `AdapterReader::currentReadPos(size_t)`. -/
def currentReadPos (s : Source) (pos : Nat) : Source := s.currentReadPos pos

/-- Embeds `AdapterReader::error(ReaderError)`. -/
def error (s : Source) (e : ReaderError) : Source := s.error e

end AdapterReader

/-- Compile-time configuration of the bit-packing reader: that of the wrapped
byte reader, `sizeof(UnsignedValue)` and the bit width of `ScratchType`.
Modelled from the spec: `details::ScratchType` (declared outside the sources at
hand) is at least twice as wide as the underlying word. -/
structure BitConfig extends Config where
  wordBytes : Nat
  scratchWidth : Nat
  wordBytes_pos : 0 < wordBytes
  scratch_wide : 2 * (8 * wordBytes) ≤ scratchWidth

/-- The constant `details::BitsSize<UnsignedValue>::value`. -/
def BitConfig.wordBits (cfg : BitConfig) : Nat := 8 * cfg.wordBytes

/-- State of `AdapterReaderBitPackingWrapper`: the wrapped reader (which is
its source) and the two members `m_scratch` and `m_scratchBits`. -/
structure BitReader where
  wrapped : Source
  m_scratch : Nat
  m_scratchBits : Nat
  deriving DecidableEq, Repr

namespace BitReader

/-- A freshly constructed bit-packing reader over a source. -/
def fresh (s : Source) : BitReader :=
  { wrapped := s, m_scratch := 0, m_scratchBits := 0 }

/-- Embeds the body of `if (m_scratchBits < bits)` in `readBitsInternal`: one
word is read through the wrapped reader and or-ed in above the valid bits. -/
def refill (cfg : BitConfig) (r : BitReader) : BitReader :=
  { wrapped := (AdapterReader.readBytes cfg.toConfig cfg.wordBytes r.wrapped).1,
    m_scratch :=
      (r.m_scratch |||
        ((AdapterReader.readBytes cfg.toConfig cfg.wordBytes r.wrapped).2 <<< r.m_scratchBits))
        % 2 ^ cfg.scratchWidth,
    m_scratchBits := r.m_scratchBits + cfg.wordBits }

/-- The reader in the middle of a loop iteration, after the conditional
refill and before the bits are taken out. -/
def afterRefill (cfg : BitConfig) (r : BitReader) (bits : Nat) : BitReader :=
  if r.m_scratchBits < bits then r.refill cfg else r

/-- Embeds `m_scratch >>= bits; m_scratchBits -= bits`. -/
def consume (r : BitReader) (bits : Nat) : BitReader :=
  { r with m_scratch := r.m_scratch >>> bits, m_scratchBits := r.m_scratchBits - bits }

/-- Embeds the `while (bitsLeft > 0)` loop of `readBitsInternal` for a result
type `T` of `tw` bits.  The first argument bounds the number of iterations; it
is started at `bitsLeft`, which is enough since every iteration takes at least
one bit (see `readBitsLoop_unfold`). -/
def readBitsLoop (cfg : BitConfig) (tw size : Nat) :
    Nat → BitReader → Nat → Nat → BitReader × Nat
  | 0, r, _, res => (r, res)
  | fuel + 1, r, bitsLeft, res =>
    if 0 < bitsLeft then
      readBitsLoop cfg tw size fuel
        ((r.afterRefill cfg (min bitsLeft cfg.wordBits)).consume (min bitsLeft cfg.wordBits))
        (bitsLeft - min bitsLeft cfg.wordBits)
        ((res |||
          ((((r.afterRefill cfg (min bitsLeft cfg.wordBits)).m_scratch &&&
              ((1 <<< min bitsLeft cfg.wordBits) - 1)) % 2 ^ tw) <<< (size - bitsLeft))
            % 2 ^ tw) % 2 ^ tw)
    else (r, res)

/-- Embeds `readBitsInternal<T>(v, size)`; the second component is `v`. -/
def readBitsInternal (cfg : BitConfig) (tw : Nat) (r : BitReader) (size : Nat) :
    BitReader × Nat :=
  readBitsLoop cfg tw size size r size 0

/-- Embeds `AdapterReaderBitPackingWrapper::readBits<T>(v, bitsCount)` for an
unsigned `T` of `tw` bits. -/
def readBits (cfg : BitConfig) (tw : Nat) (r : BitReader) (bitsCount : Nat) :
    BitReader × Nat :=
  readBitsInternal cfg tw r bitsCount

/-- Embeds `AdapterReaderBitPackingWrapper::error(ReaderError)`. -/
def error (r : BitReader) (e : ReaderError) : BitReader :=
  { r with wrapped := AdapterReader.error r.wrapped e }

/-- Embeds `AdapterReaderBitPackingWrapper::align`; `tmp` is a `ScratchType`. -/
def align (cfg : BitConfig) (r : BitReader) : BitReader :=
  if r.m_scratchBits ≠ 0 then
    if (readBitsInternal cfg cfg.scratchWidth r r.m_scratchBits).2 ≠ 0 then
      (readBitsInternal cfg cfg.scratchWidth r r.m_scratchBits).1.error ReaderError.InvalidData
    else (readBitsInternal cfg cfg.scratchWidth r r.m_scratchBits).1
  else r

/-- Embeds the destructor, whose body is `align()`. -/
def destroy (cfg : BitConfig) (r : BitReader) : BitReader := align cfg r

/-- Embeds `AdapterReaderBitPackingWrapper::readBytes<SIZE, T>`;
`details::BitsSize<T>::value` is `8 * SIZE`. -/
def readBytes (cfg : BitConfig) (size : Nat) (r : BitReader) : BitReader × Nat :=
  if r.m_scratchBits = 0 then
    ({ r with wrapped := (AdapterReader.readBytes cfg.toConfig size r.wrapped).1 },
      (AdapterReader.readBytes cfg.toConfig size r.wrapped).2)
  else readBits cfg (8 * size) r (8 * size)

/-- Embeds the `for` loop of `readBuffer`: one `readBits` per element. -/
def readBufferLoop (cfg : BitConfig) (size : Nat) : Nat → BitReader → BitReader × List Nat
  | 0, r => (r, [])
  | k + 1, r =>
    ((readBufferLoop cfg size k (readBits cfg (8 * size) r (8 * size)).1).1,
      (readBits cfg (8 * size) r (8 * size)).2 ::
        (readBufferLoop cfg size k (readBits cfg (8 * size) r (8 * size)).1).2)

/-- Embeds `AdapterReaderBitPackingWrapper::readBuffer<SIZE, T>`. -/
def readBuffer (cfg : BitConfig) (size count : Nat) (r : BitReader) : BitReader × List Nat :=
  if r.m_scratchBits = 0 then
    ({ r with wrapped := (AdapterReader.readBuffer cfg.toConfig size count r.wrapped).1 },
      (AdapterReader.readBuffer cfg.toConfig size count r.wrapped).2)
  else readBufferLoop cfg size count r

/-- Runs `AdapterReaderBitPackingWrapper::readBytes<SIZE, T>` `count` times in a
row and collects the values. -/
def readBytesSeq (cfg : BitConfig) (size : Nat) : Nat → BitReader → BitReader × List Nat
  | 0, r => (r, [])
  | k + 1, r =>
    ((readBytesSeq cfg size k (readBytes cfg size r).1).1,
      (readBytes cfg size r).2 :: (readBytesSeq cfg size k (readBytes cfg size r).1).2)

/-- Embeds `AdapterReaderBitPackingWrapper::currentReadPos(size_t)`. -/
def currentReadPos (cfg : BitConfig) (r : BitReader) (pos : Nat) : BitReader :=
  { align cfg r with wrapped := AdapterReader.currentReadPos (align cfg r).wrapped pos }

end BitReader

/-- The values of `count` consecutive words laid out in a byte sequence, each
decoded in the network byte order. -/
def wordValues (cfg : BitConfig) : Nat → List Byte → List Nat
  | 0, _ => []
  | k + 1, bs =>
    load cfg.networkEndianness (bs.take cfg.wordBytes) :: wordValues cfg k (bs.drop cfg.wordBytes)

/-- The whole words of valid data that lie from the cursor on. -/
def Source.words (cfg : BitConfig) (s : Source) : List Nat :=
  wordValues cfg (s.remaining / cfg.wordBytes) (s.data.drop s.readPos)

/-- A sequence of `w`-bit words as one number: word `i` supplies the bits
`[i * w, (i + 1) * w)`, least significant first. -/
def streamNat (w : Nat) : List Nat → Nat
  | [] => 0
  | x :: xs => x + 2 ^ w * streamNat w xs

/-- The bits a reader has still to deliver, as one number: the valid bits of the
scratch followed by the words not yet pulled from the source. -/
def BitReader.stream (cfg : BitConfig) (r : BitReader) : Nat :=
  r.m_scratch + 2 ^ r.m_scratchBits * streamNat cfg.wordBits (r.wrapped.words cfg)

/-- All whole words of the valid data of a source, from offset zero on. -/
def Source.allWords (cfg : BitConfig) (s : Source) : List Nat :=
  wordValues cfg (s.validEnd / cfg.wordBytes) s.data

/-- Bit `j` of the bit sequence in which word `i` supplies the bits
`[i * W, (i + 1) * W)`, least significant bit first. -/
def streamBit (cfg : BitConfig) (ws : List Nat) (j : Nat) : Nat :=
  (ws.getD (j / cfg.wordBits) 0 / 2 ^ (j % cfg.wordBits)) % 2

/-- The reference value of a bit read: the sum over `k < n` of bit `p + k` of
the sequence times `2 ^ k`. -/
def refBits (cfg : BitConfig) (ws : List Nat) (p n : Nat) : Nat :=
  ((List.range n).map (fun k => streamBit cfg ws (p + k) * 2 ^ k)).sum

/-- The pending bits of a reader: the `m_scratchBits` low bits of `m_scratch`,
which is a value of `ScratchType`. -/
def BitReader.pending (cfg : BitConfig) (r : BitReader) : Nat :=
  r.m_scratch % 2 ^ r.m_scratchBits % 2 ^ cfg.scratchWidth

/-- Fields `(bitsCount, v)` packed least significant bit first, one right after
the other, as one number. -/
def packNat : List (Nat × Nat) → Nat
  | [] => 0
  | f :: fs => f.2 + 2 ^ f.1 * packNat fs

/-- Total number of bits of a list of fields. -/
def packBits (fs : List (Nat × Nat)) : Nat := (fs.map Prod.fst).sum

/-- The bytes of the packed fields; the last, partial byte is padded with
zero bits. -/
def packBytes (fs : List (Nat × Nat)) : List Byte :=
  toLE ((packBits fs + 7) / 8) (packNat fs)

/-- Calls `readBits<T>` once for every bit count of the list, in order, and
collects the values. -/
def BitReader.readFields (cfg : BitConfig) (tw : Nat) :
    List Nat → BitReader → BitReader × List Nat
  | [], r => (r, [])
  | n :: ns, r =>
    ((readFields cfg tw ns (BitReader.readBits cfg tw r n).1).1,
      (BitReader.readBits cfg tw r n).2 ::
        (readFields cfg tw ns (BitReader.readBits cfg tw r n).1).2)

/-- The points inside the loop of `readBitsInternal`: for every iteration the
reader right after the conditional refill, the number `bits` that is then
subtracted, and the reader at the end of the iteration. -/
def BitReader.readBitsPoints (cfg : BitConfig) :
    Nat → BitReader → Nat → List (BitReader × Nat × BitReader)
  | 0, _, _ => []
  | fuel + 1, r, bitsLeft =>
    if 0 < bitsLeft then
      (r.afterRefill cfg (min bitsLeft cfg.wordBits), min bitsLeft cfg.wordBits,
          (r.afterRefill cfg (min bitsLeft cfg.wordBits)).consume (min bitsLeft cfg.wordBits)) ::
        readBitsPoints cfg fuel
          ((r.afterRefill cfg (min bitsLeft cfg.wordBits)).consume (min bitsLeft cfg.wordBits))
          (bitsLeft - min bitsLeft cfg.wordBits)
    else []

/-- A call of one of the public operations of the bit-packing reader. -/
inductive Op
  | readBytes (size : Nat)
  | readBuffer (size count : Nat)
  | readBits (tw bitsCount : Nat)
  | align
  | currentReadPos (pos : Nat)
  deriving DecidableEq, Repr

/-- The reader after one call. -/
def BitReader.run (cfg : BitConfig) (r : BitReader) : Op → BitReader
  | Op.readBytes size => (BitReader.readBytes cfg size r).1
  | Op.readBuffer size count => (BitReader.readBuffer cfg size count r).1
  | Op.readBits tw bitsCount => (BitReader.readBits cfg tw r bitsCount).1
  | Op.align => BitReader.align cfg r
  | Op.currentReadPos pos => BitReader.currentReadPos cfg r pos

/-- The reader after a sequence of calls. -/
def BitReader.runAll (cfg : BitConfig) (r : BitReader) (ops : List Op) : BitReader :=
  ops.foldl (BitReader.run cfg) r

/-- Two sources that cannot be told apart by reads inside the valid data: same
cursor, same end of valid data, same recorded error and the same valid bytes. -/
def Source.agree (a b : Source) : Prop :=
  a.readPos = b.readPos ∧ a.validEnd = b.validEnd ∧ a.err = b.err
    ∧ a.data.take a.validEnd = b.data.take b.validEnd

instance (a b : Source) : Decidable (Source.agree a b) := by
  unfold Source.agree
  infer_instance

/-- Two readers with the same scratch over sources that agree. -/
def BitReader.agree (a b : BitReader) : Prop :=
  a.m_scratch = b.m_scratch ∧ a.m_scratchBits = b.m_scratchBits
    ∧ Source.agree a.wrapped b.wrapped

instance (a b : BitReader) : Decidable (BitReader.agree a b) := by
  unfold BitReader.agree
  infer_instance

/-- A bit-packing configuration with one-byte words and a 16-bit scratch, on a
little-endian wire read by a big-endian host. -/
def byteWordConfig : BitConfig :=
  { networkEndianness := Endianness.LittleEndian,
    systemEndianness := Endianness.BigEndian,
    wordBytes := 1,
    scratchWidth := 16,
    wordBytes_pos := by decide,
    scratch_wide := by decide }

/-- A three-byte source whose first byte has been pulled. -/
def sampleSource : Source :=
  { data := [0xAB, 0xCD, 0xEF], readPos := 1, readEndPos := 3, err := ReaderError.NoError }

/-- A reader over `sampleSource` that has delivered three bits of the first
byte and holds its five other bits. -/
def sampleReader : BitReader :=
  { wrapped := sampleSource, m_scratch := 0x15, m_scratchBits := 5 }

/-- A reader like `sampleReader` whose pending bits are all zero. -/
def paddedReader : BitReader :=
  { wrapped := sampleSource, m_scratch := 0, m_scratchBits := 5 }

/-- A call of one of the public operations of the byte reader (`readBits` of the
byte reader does not compile, so it is no call). -/
inductive ByteOp
  | readBytes (size : Nat)
  | readBuffer (size count : Nat)
  | align
  | currentReadPos (pos : Nat)
  deriving DecidableEq, Repr

/-- The source of the byte reader after one call. -/
def AdapterReader.run (cfg : Config) (s : Source) : ByteOp → Source
  | ByteOp.readBytes size => (AdapterReader.readBytes cfg size s).1
  | ByteOp.readBuffer size count => (AdapterReader.readBuffer cfg size count s).1
  | ByteOp.align => AdapterReader.align s
  | ByteOp.currentReadPos pos => AdapterReader.currentReadPos s pos

/-- The source of the byte reader after a sequence of calls. -/
def AdapterReader.runAll (cfg : Config) (s : Source) (ops : List ByteOp) : Source :=
  ops.foldl (AdapterReader.run cfg) s

/-- The number of words the loop of `readBitsInternal` asks of the wrapped
reader: one `readBytes` of one word for every iteration that finds fewer than
`bits` bits in the scratch. -/
def BitReader.readBitsRefills (cfg : BitConfig) : Nat → BitReader → Nat → Nat
  | 0, _, _ => 0
  | fuel + 1, r, bitsLeft =>
    if 0 < bitsLeft then
      (if r.m_scratchBits < min bitsLeft cfg.wordBits then 1 else 0) +
        readBitsRefills cfg fuel
          ((r.afterRefill cfg (min bitsLeft cfg.wordBits)).consume (min bitsLeft cfg.wordBits))
          (bitsLeft - min bitsLeft cfg.wordBits)
    else 0

/-- A bit-packing configuration with four-byte words and a 64-bit scratch, on a
big-endian wire read by a little-endian host. -/
def longWordConfig : BitConfig :=
  { networkEndianness := Endianness.BigEndian,
    systemEndianness := Endianness.LittleEndian,
    wordBytes := 4,
    scratchWidth := 64,
    wordBytes_pos := by decide,
    scratch_wide := by decide }

/-- A source of five bytes, none of them read yet. -/
def fiveByteSource : Source :=
  { data := [0xAB, 0xCD, 0xEF, 0x01, 0x23], readPos := 0, readEndPos := 5,
    err := ReaderError.NoError }

/-- A source without data. -/
def emptySource : Source :=
  { data := [], readPos := 0, readEndPos := 0, err := ReaderError.NoError }

/-- How the recorded error can change over reads of the source: it stays, or,
where none was recorded, it becomes the exhausted error that `read` records. -/
def errAfterReads (before after : ReaderError) : Prop :=
  after = before ∨ (before = ReaderError.NoError ∧ after = ReaderError.Exhausted)

instance (a b : ReaderError) : Decidable (errAfterReads a b) := by
  unfold errAfterReads
  infer_instance

/-- The configuration with another network and another system byte order, and
otherwise the same. -/
def BitConfig.withOrder (cfg : BitConfig) (net sys : Endianness) : BitConfig :=
  { cfg with networkEndianness := net, systemEndianness := sys }

/-- A source of twelve bytes, none of them read yet. -/
def twelveByteSource : Source :=
  { data := [0x01, 0x02, 0x03, 0x04, 0x05, 0x06, 0x07, 0x08, 0x09, 0x0A, 0x0B, 0x0D],
    readPos := 0, readEndPos := 12, err := ReaderError.NoError }

/-- Embeds the body of the `while (bitsLeft > 0)` loop of `readBitsInternal` as
one step on the loop state `(reader, bitsLeft, res)`: the conditional refill, the
bits taken into `res`, and the three updates `m_scratch >>= bits`,
`m_scratchBits -= bits`, `bitsLeft -= bits`. -/
def BitReader.loopBody (cfg : BitConfig) (tw size : Nat) (st : BitReader × Nat × Nat) :
    BitReader × Nat × Nat :=
  ((st.1.afterRefill cfg (min st.2.1 cfg.wordBits)).consume (min st.2.1 cfg.wordBits),
    st.2.1 - min st.2.1 cfg.wordBits,
    (st.2.2 |||
      ((((st.1.afterRefill cfg (min st.2.1 cfg.wordBits)).m_scratch &&&
          ((1 <<< min st.2.1 cfg.wordBits) - 1)) % 2 ^ tw) <<< (size - st.2.1))
        % 2 ^ tw) % 2 ^ tw)

/-! ## Lemmas -/

theorem toLE_length (n x : Nat) : (toLE n x).length = n := by
  induction n generalizing x with
  | zero => rfl
  | succ n ih => simp [toLE, ih]

theorem fromLE_lt (bs : List Byte) : fromLE bs < 256 ^ bs.length := by
  induction bs with
  | nil => simp [fromLE]
  | cons b bs ih =>
    have hb := b.isLt
    simp only [fromLE, List.length_cons, pow_succ]
    omega

theorem fromLE_toLE (n x : Nat) : fromLE (toLE n x) = x % 256 ^ n := by
  induction n generalizing x with
  | zero => simp [toLE, fromLE, Nat.mod_one]
  | succ n ih =>
    simp only [toLE, fromLE, ih, pow_succ]
    rw [Nat.mul_comm (256 ^ n) 256, Nat.mod_mul]

theorem toLE_fromLE (bs : List Byte) : toLE bs.length (fromLE bs) = bs := by
  induction bs with
  | nil => rfl
  | cons b bs ih =>
    have hb := b.isLt
    have h1 : (b.val + 256 * fromLE bs) % 256 = b.val := by omega
    have h2 : (b.val + 256 * fromLE bs) / 256 = fromLE bs := by omega
    simp only [List.length_cons, toLE, fromLE, h2, ih]
    congr 1
    exact Fin.ext h1

theorem toLE_fromLE_of_length (n : Nat) (bs : List Byte) (h : bs.length = n) :
    toLE n (fromLE bs) = bs := by
  subst h
  exact toLE_fromLE bs

theorem pow_256_eq (n : Nat) : 256 ^ n = 2 ^ (8 * n) := by
  rw [pow_mul]; norm_num

theorem load_length_swap (net sys : Endianness) (size : Nat) (raw : List Byte)
    (h : raw.length = size) :
    (if net ≠ sys then swap size (load sys raw) else load sys raw) = load net raw := by
  cases net <;> cases sys <;>
    simp [load, swap, toLE_fromLE_of_length, h]

theorem read_length (s : Source) (n : Nat) : (s.read n).2.length = n := by
  unfold Source.read
  split
  · rename_i h
    simp only [List.length_take, List.length_drop]
    unfold Source.remaining Source.validEnd at h
    omega
  · simp

theorem read_ok (s : Source) (n : Nat) (h : n ≤ s.remaining) :
    s.read n = ({ s with readPos := s.readPos + n }, (s.data.drop s.readPos).take n) := by
  simp [Source.read, h]

theorem read_fail (s : Source) (n : Nat) (h : ¬ n ≤ s.remaining) :
    s.read n = (s.error ReaderError.Exhausted, List.replicate n 0) := by
  simp [Source.read, h]

theorem chunk_map_load_swap (cfg : Config) (size count : Nat) (raw : List Byte)
    (h : raw.length = size * count) :
    AdapterReader.swapDataBits cfg size ((chunk size count raw).map (load cfg.systemEndianness))
      = (chunk size count raw).map (load cfg.networkEndianness) := by
  induction count generalizing raw with
  | zero => simp [chunk, AdapterReader.swapDataBits]
  | succ k ih =>
    have hlen : (raw.take size).length = size := by
      simp only [List.length_take]; rw [h, Nat.mul_succ]; omega
    have hrest : (raw.drop size).length = size * k := by
      simp only [List.length_drop]; rw [h, Nat.mul_succ]; omega
    have ih2 := ih (raw.drop size) hrest
    have hs := load_length_swap cfg.networkEndianness cfg.systemEndianness size
      (raw.take size) hlen
    unfold AdapterReader.swapDataBits at ih2 ⊢
    by_cases hne : cfg.networkEndianness ≠ cfg.systemEndianness
    · rw [if_pos hne] at ih2 hs ⊢
      simp only [chunk, List.map_cons, hs, ih2]
    · rw [if_neg hne] at ih2 hs ⊢
      simp only [chunk, List.map_cons, hs, ih2]

theorem directRead_eq (cfg : Config) (size count : Nat) (s : Source) :
    AdapterReader.directRead cfg size count s =
      ((s.read (size * count)).1,
        (chunk size count (s.read (size * count)).2).map (load cfg.networkEndianness)) := by
  unfold AdapterReader.directRead
  rw [chunk_map_load_swap cfg size count _ (read_length s _)]

theorem chunk_one (size : Nat) (raw : List Byte) (h : raw.length = size) :
    chunk size 1 raw = [raw] := by
  simp [chunk, ← h]

theorem readBytes_eq_load (cfg : Config) (size : Nat) (s : Source) :
    AdapterReader.readBytes cfg size s =
      ((s.read size).1, load cfg.networkEndianness (s.read size).2) := by
  unfold AdapterReader.readBytes
  rw [directRead_eq]
  simp only [Nat.mul_one]
  rw [chunk_one size _ (read_length s size)]
  rfl

theorem load_store (order : Endianness) (size v : Nat) (hv : v < 2 ^ (8 * size)) :
    load order (store order size v) = v := by
  cases order <;> simp [load, store, fromLE_toLE, pow_256_eq, Nat.mod_eq_of_lt hv]

theorem swap_lt (size x : Nat) : swap size x < 2 ^ (8 * size) := by
  have h := fromLE_lt (toLE size x).reverse
  simpa [swap, toLE_length, pow_256_eq] using h

theorem toLE_swap (size x : Nat) : toLE size (swap size x) = (toLE size x).reverse := by
  unfold swap
  exact toLE_fromLE_of_length size _ (by simp [toLE_length])

theorem readBytes_raw (cfg : Config) (size : Nat) (s : Source) (hrem : size ≤ s.remaining) :
    (AdapterReader.readBytes cfg size s).2 =
      (if cfg.networkEndianness ≠ cfg.systemEndianness
        then swap size (load cfg.systemEndianness ((s.data.drop s.readPos).take size))
        else load cfg.systemEndianness ((s.data.drop s.readPos).take size)) := by
  have hl : ((s.data.drop s.readPos).take size).length = size := by
    have := read_length s size
    rwa [read_ok s size hrem] at this
  simp only [AdapterReader.readBytes, AdapterReader.directRead, Nat.mul_one, read_ok s size hrem,
    chunk_one size _ hl, List.map_cons, List.map_nil, AdapterReader.swapDataBits]
  split <;> rfl

theorem readBuffer_zero (cfg : Config) (size : Nat) (s : Source) :
    AdapterReader.readBuffer cfg size 0 s = (s, []) := by
  unfold AdapterReader.readBuffer
  rw [directRead_eq]
  simp [Source.read, chunk]

theorem remaining_advance (s : Source) (n : Nat) :
    Source.remaining { s with readPos := s.readPos + n } = s.remaining - n := by
  simp only [Source.remaining, Source.validEnd]; omega

theorem readBuffer_seq (cfg : Config) (size count : Nat) (s : Source)
    (hrem : size * count ≤ s.remaining) :
    AdapterReader.readBuffer cfg size count s = AdapterReader.readBytesSeq cfg size count s
      ∧ (AdapterReader.readBuffer cfg size count s).2
        = (List.range count).map (fun i =>
            load cfg.networkEndianness ((s.data.drop (s.readPos + i * size)).take size)) := by
  induction count generalizing s with
  | zero => simp [readBuffer_zero, AdapterReader.readBytesSeq]
  | succ k ih =>
    have h1 : size ≤ s.remaining := by rw [Nat.mul_succ] at hrem; omega
    have h2 : size * k ≤ Source.remaining { s with readPos := s.readPos + size } := by
      rw [remaining_advance, Nat.mul_succ] at *; omega
    obtain ⟨ihA, ihB⟩ := ih { s with readPos := s.readPos + size } h2
    have hb : AdapterReader.readBytes cfg size s =
        ({ s with readPos := s.readPos + size },
          load cfg.networkEndianness ((s.data.drop s.readPos).take size)) := by
      rw [readBytes_eq_load, read_ok s size h1]
    have hk : AdapterReader.readBuffer cfg size (k + 1) s =
        ((AdapterReader.readBuffer cfg size k { s with readPos := s.readPos + size }).1,
          load cfg.networkEndianness ((s.data.drop s.readPos).take size) ::
            (AdapterReader.readBuffer cfg size k { s with readPos := s.readPos + size }).2) := by
      unfold AdapterReader.readBuffer
      rw [directRead_eq, directRead_eq, read_ok s _ hrem, read_ok _ _ h2]
      simp only [chunk, List.map_cons, List.take_take, List.drop_take, List.drop_drop]
      have e1 : min size (size * (k + 1)) = size := by rw [Nat.mul_succ]; omega
      have e2 : size * (k + 1) - size = size * k := by rw [Nat.mul_succ]; omega
      have e3 : s.readPos + size * (k + 1) = s.readPos + size + size * k := by
        rw [Nat.mul_succ]; omega
      simp only [e1, e2, e3, Nat.add_comm size s.readPos]
    refine ⟨?_, ?_⟩
    · rw [hk, AdapterReader.readBytesSeq, hb, ihA]
    · rw [hk]
      simp only [ihB, List.range_succ_eq_map, List.map_cons, List.map_map, Nat.zero_mul,
        Nat.add_zero]
      congr 1
      apply List.map_congr_left
      intro i _
      simp only [Function.comp, Nat.succ_mul]
      congr 3
      omega

namespace BitReader

theorem wordBits_pos (cfg : BitConfig) : 0 < cfg.wordBits := by
  have := cfg.wordBytes_pos
  unfold BitConfig.wordBits; omega

theorem readBitsLoop_done (cfg : BitConfig) (tw size fuel : Nat) (r : BitReader) (res : Nat) :
    readBitsLoop cfg tw size fuel r 0 res = (r, res) := by
  cases fuel <;> simp [readBitsLoop]

theorem readBitsLoop_succ (cfg : BitConfig) (tw size fuel : Nat) (r : BitReader)
    (bitsLeft res : Nat) (h : 0 < bitsLeft) :
    readBitsLoop cfg tw size (fuel + 1) r bitsLeft res =
      readBitsLoop cfg tw size fuel
        ((r.afterRefill cfg (min bitsLeft cfg.wordBits)).consume (min bitsLeft cfg.wordBits))
        (bitsLeft - min bitsLeft cfg.wordBits)
        ((res |||
          ((((r.afterRefill cfg (min bitsLeft cfg.wordBits)).m_scratch &&&
              ((1 <<< min bitsLeft cfg.wordBits) - 1)) % 2 ^ tw) <<< (size - bitsLeft))
            % 2 ^ tw) % 2 ^ tw) := by
  simp [readBitsLoop, h]

theorem readBitsLoop_fuel (cfg : BitConfig) (tw size : Nat) (fuel : Nat) :
    ∀ (extra : Nat) (r : BitReader) (bitsLeft res : Nat), bitsLeft ≤ fuel →
      readBitsLoop cfg tw size (fuel + extra) r bitsLeft res
        = readBitsLoop cfg tw size fuel r bitsLeft res := by
  induction fuel with
  | zero =>
    intro extra r bitsLeft res h
    have h0 : bitsLeft = 0 := by omega
    subst h0
    simp [readBitsLoop_done]
  | succ f ih =>
    intro extra r bitsLeft res h
    by_cases hb : 0 < bitsLeft
    · have hW := wordBits_pos cfg
      rw [show f + 1 + extra = (f + extra) + 1 by omega, readBitsLoop_succ _ _ _ _ _ _ _ hb,
        readBitsLoop_succ _ _ _ _ _ _ _ hb]
      apply ih
      omega
    · have h0 : bitsLeft = 0 := by omega
      subst h0
      simp [readBitsLoop_done]

/-- The loop equation of `while (bitsLeft > 0)`. -/
theorem readBitsLoop_unfold (cfg : BitConfig) (tw size : Nat) (r : BitReader)
    (bitsLeft res : Nat) :
    readBitsLoop cfg tw size bitsLeft r bitsLeft res =
      if 0 < bitsLeft then
        readBitsLoop cfg tw size (bitsLeft - min bitsLeft cfg.wordBits)
          ((r.afterRefill cfg (min bitsLeft cfg.wordBits)).consume (min bitsLeft cfg.wordBits))
          (bitsLeft - min bitsLeft cfg.wordBits)
          ((res |||
            ((((r.afterRefill cfg (min bitsLeft cfg.wordBits)).m_scratch &&&
                ((1 <<< min bitsLeft cfg.wordBits) - 1)) % 2 ^ tw) <<< (size - bitsLeft))
              % 2 ^ tw) % 2 ^ tw)
      else (r, res) := by
  have hW := wordBits_pos cfg
  by_cases hb : 0 < bitsLeft
  · rw [if_pos hb]
    obtain ⟨k, rfl⟩ : ∃ k, bitsLeft = k + 1 := ⟨bitsLeft - 1, by omega⟩
    rw [readBitsLoop_succ _ _ _ _ _ _ _ hb]
    rw [← readBitsLoop_fuel cfg tw size (k + 1 - min (k + 1) cfg.wordBits)
      (min (k + 1) cfg.wordBits - 1) _ _ _ (le_refl _)]
    have hk : k = (k + 1 - min (k + 1) cfg.wordBits) + (min (k + 1) cfg.wordBits - 1) := by omega
    rw [← hk]
  · have h0 : bitsLeft = 0 := by omega
    subst h0
    simp [readBitsLoop_done]

theorem afterRefill_scratchBits (cfg : BitConfig) (r : BitReader) (bits : Nat) :
    (r.afterRefill cfg bits).m_scratchBits
      = if r.m_scratchBits < bits then r.m_scratchBits + cfg.wordBits else r.m_scratchBits := by
  unfold afterRefill
  split <;> simp [refill]

/-- Inside an iteration: after the conditional refill the scratch holds at least
the `bits` that are taken, and fewer than two words. -/
theorem afterRefill_bounds (cfg : BitConfig) (r : BitReader) (bitsLeft : Nat)
    (h : r.m_scratchBits < cfg.wordBits) :
    min bitsLeft cfg.wordBits ≤ (r.afterRefill cfg (min bitsLeft cfg.wordBits)).m_scratchBits
      ∧ (r.afterRefill cfg (min bitsLeft cfg.wordBits)).m_scratchBits < 2 * cfg.wordBits
      ∧ ((r.afterRefill cfg (min bitsLeft cfg.wordBits)).consume
          (min bitsLeft cfg.wordBits)).m_scratchBits < cfg.wordBits := by
  rw [consume, afterRefill_scratchBits]
  simp only
  split <;> omega

theorem readBitsLoop_scratchBits_lt (cfg : BitConfig) (tw size fuel : Nat) :
    ∀ (r : BitReader) (bitsLeft res : Nat), r.m_scratchBits < cfg.wordBits →
      (readBitsLoop cfg tw size fuel r bitsLeft res).1.m_scratchBits < cfg.wordBits := by
  induction fuel with
  | zero => intro r bitsLeft res h; simpa [readBitsLoop] using h
  | succ f ih =>
    intro r bitsLeft res h
    by_cases hb : 0 < bitsLeft
    · rw [readBitsLoop_succ _ _ _ _ _ _ _ hb]
      exact ih _ _ _ (afterRefill_bounds cfg r bitsLeft h).2.2
    · have h0 : bitsLeft = 0 := by omega
      subst h0
      simpa [readBitsLoop_done] using h

end BitReader

theorem mask_eq_mod (x bits : Nat) : x &&& ((1 <<< bits) - 1) = x % 2 ^ bits := by
  rw [Nat.one_shiftLeft, Nat.and_pow_two_sub_one_eq_mod]

theorem or_shiftLeft_eq_add (a w k : Nat) (ha : a < 2 ^ k) :
    a ||| (w <<< k) = a + 2 ^ k * w := by
  rw [Nat.shiftLeft_eq, Nat.or_comm, Nat.mul_comm w, ← Nat.mul_add_lt_is_or ha, Nat.add_comm]

theorem refill_value (a w k W SW : Nat) (ha : a < 2 ^ k) (hw : w < 2 ^ W) (h : k + W ≤ SW) :
    (a ||| (w <<< k)) % 2 ^ SW = a + 2 ^ k * w := by
  rw [or_shiftLeft_eq_add a w k ha]
  apply Nat.mod_eq_of_lt
  have h1 : a + 2 ^ k * w < 2 ^ k * 2 ^ W := by
    have : 2 ^ k * (w + 1) ≤ 2 ^ k * 2 ^ W := Nat.mul_le_mul_left _ hw
    rw [Nat.mul_add, Nat.mul_one] at this
    omega
  rw [← Nat.pow_add] at h1
  exact lt_of_lt_of_le h1 (Nat.pow_le_pow_right (by decide) h)

theorem take_step (S tw c bits : Nat) :
    ((S % 2 ^ c % 2 ^ tw) ||| ((((S / 2 ^ c) % 2 ^ bits) % 2 ^ tw) <<< c) % 2 ^ tw) % 2 ^ tw
      = S % 2 ^ (c + bits) % 2 ^ tw := by
  apply Nat.eq_of_testBit_eq
  intro i
  simp only [Nat.testBit_mod_two_pow, Nat.testBit_or, Nat.testBit_shiftLeft,
    ← Nat.shiftRight_eq_div_pow, Nat.testBit_shiftRight]
  by_cases h1 : i < tw <;> by_cases h2 : i < c <;> by_cases h3 : i < c + bits <;>
    simp [h1, h2, h3] <;> try omega
  have e1 : c + (i - c) = i := by omega
  have e2 : c ≤ i := by omega
  have e3 : i - c < tw := by omega
  have e4 : i - c < bits := by omega
  simp [e1, e2, e3, e4]

theorem mod_of_add_mul (a R k b : Nat) (h : b ≤ k) :
    (a + 2 ^ k * R) % 2 ^ b = a % 2 ^ b := by
  obtain ⟨d, rfl⟩ : ∃ d, k = b + d := ⟨k - b, by omega⟩
  rw [Nat.pow_add, Nat.mul_assoc, Nat.add_mul_mod_self_left]

theorem div_of_add_mul (a R k b : Nat) (h : b ≤ k) :
    (a + 2 ^ k * R) / 2 ^ b = a / 2 ^ b + 2 ^ (k - b) * R := by
  obtain ⟨d, rfl⟩ : ∃ d, k = b + d := ⟨k - b, by omega⟩
  rw [Nat.pow_add, Nat.mul_assoc, Nat.add_mul_div_left _ _ (Nat.pow_pos (by decide))]
  simp

theorem div_lt_pow_sub (a k b : Nat) (ha : a < 2 ^ k) (h : b ≤ k) : a / 2 ^ b < 2 ^ (k - b) := by
  obtain ⟨d, rfl⟩ : ∃ d, k = b + d := ⟨k - b, by omega⟩
  rw [Nat.div_lt_iff_lt_mul (Nat.pow_pos (by decide))]
  simpa [Nat.pow_add, Nat.mul_comm] using ha

theorem load_lt (order : Endianness) (bs : List Byte) : load order bs < 256 ^ bs.length := by
  cases order
  · exact fromLE_lt bs
  · simpa [load] using fromLE_lt bs.reverse

theorem wordValues_lt (cfg : BitConfig) (k : Nat) :
    ∀ (bs : List Byte), ∀ w ∈ wordValues cfg k bs, w < 2 ^ cfg.wordBits := by
  induction k with
  | zero => intro bs w h; simp [wordValues] at h
  | succ k ih =>
    intro bs w h
    simp only [wordValues, List.mem_cons] at h
    rcases h with h | h
    · subst h
      have h1 := load_lt cfg.networkEndianness (bs.take cfg.wordBytes)
      have h2 : 256 ^ (bs.take cfg.wordBytes).length ≤ 256 ^ cfg.wordBytes :=
        Nat.pow_le_pow_right (by decide) (by simp)
      rw [pow_256_eq cfg.wordBytes] at h2
      exact lt_of_lt_of_le h1 h2
    · exact ih _ w h

theorem wordValues_length (cfg : BitConfig) (k : Nat) (bs : List Byte) :
    (wordValues cfg k bs).length = k := by
  induction k generalizing bs with
  | zero => rfl
  | succ k ih => simp [wordValues, ih]

theorem words_length (cfg : BitConfig) (s : Source) :
    (s.words cfg).length = s.remaining / cfg.wordBytes := by
  simp [Source.words, wordValues_length]

theorem words_error (cfg : BitConfig) (s : Source) (e : ReaderError) :
    (s.error e).words cfg = s.words cfg := by
  unfold Source.error
  split <;> rfl

theorem load_zeros (order : Endianness) (n : Nat) :
    load order (List.replicate n (0 : Byte)) = 0 := by
  have h : ∀ n, fromLE (List.replicate n (0 : Byte)) = 0 := by
    intro n
    induction n with
    | zero => rfl
    | succ n ih => simp [List.replicate_succ, fromLE, ih]
  cases order <;> simp [load, h]

/-- A word read that the source can serve: the next word comes out and the
cursor moves on by one word. -/
theorem readWord_ok (cfg : BitConfig) (s : Source) (h : cfg.wordBytes ≤ s.remaining) :
    ∃ w, s.words cfg
        = w :: Source.words cfg { s with readPos := s.readPos + cfg.wordBytes }
      ∧ AdapterReader.readBytes cfg.toConfig cfg.wordBytes s
        = ({ s with readPos := s.readPos + cfg.wordBytes }, w) := by
  have hp := cfg.wordBytes_pos
  refine ⟨load cfg.networkEndianness ((s.data.drop s.readPos).take cfg.wordBytes), ?_, ?_⟩
  · have hk : s.remaining / cfg.wordBytes = (s.remaining - cfg.wordBytes) / cfg.wordBytes + 1 := by
      rw [← Nat.sub_add_cancel h, Nat.add_div_right _ hp, Nat.add_sub_cancel]
    unfold Source.words
    rw [hk, wordValues, remaining_advance, List.drop_drop]
  · rw [readBytes_eq_load, read_ok s _ h]

/-- A word read that the source cannot serve: the error is recorded and the
value is zero. -/
theorem readWord_fail (cfg : BitConfig) (s : Source) (h : ¬ cfg.wordBytes ≤ s.remaining) :
    s.words cfg = []
      ∧ AdapterReader.readBytes cfg.toConfig cfg.wordBytes s
        = (s.error ReaderError.Exhausted, 0) := by
  constructor
  · have : s.remaining / cfg.wordBytes = 0 := Nat.div_eq_of_lt (by omega)
    simp [Source.words, this, wordValues]
  · rw [readBytes_eq_load, read_fail s _ h, load_zeros]

namespace BitReader

theorem words_pos_of_lt (cfg : BitConfig) (s : Source) (h : 0 < (s.words cfg).length) :
    cfg.wordBytes ≤ s.remaining := by
  rw [words_length] at h
  by_contra hc
  have : s.remaining / cfg.wordBytes = 0 := Nat.div_eq_of_lt (by omega)
  omega

/-- The conditional refill does not change the bits still to be delivered.  -/
theorem afterRefill_stream (cfg : BitConfig) (r : BitReader) (bits : Nat)
    (hbits : bits ≤ cfg.wordBits)
    (hs : r.m_scratch < 2 ^ r.m_scratchBits)
    (hav : bits ≤ r.m_scratchBits + cfg.wordBits * (r.wrapped.words cfg).length) :
    (r.afterRefill cfg bits).stream cfg = r.stream cfg
      ∧ (r.afterRefill cfg bits).m_scratch < 2 ^ (r.afterRefill cfg bits).m_scratchBits
      ∧ bits ≤ (r.afterRefill cfg bits).m_scratchBits
      ∧ (r.afterRefill cfg bits).wrapped.err = r.wrapped.err
      ∧ (r.afterRefill cfg bits).wrapped.data = r.wrapped.data
      ∧ (r.afterRefill cfg bits).wrapped.readEndPos = r.wrapped.readEndPos
      ∧ (r.afterRefill cfg bits).m_scratchBits
          + cfg.wordBits * ((r.afterRefill cfg bits).wrapped.words cfg).length
        = r.m_scratchBits + cfg.wordBits * (r.wrapped.words cfg).length
      ∧ (r.afterRefill cfg bits).wrapped.readPos
          + cfg.wordBytes * ((r.afterRefill cfg bits).wrapped.words cfg).length
        = r.wrapped.readPos + cfg.wordBytes * (r.wrapped.words cfg).length
      ∧ ((r.afterRefill cfg bits).wrapped.words cfg).length ≤ (r.wrapped.words cfg).length := by
  unfold afterRefill
  by_cases hlt : r.m_scratchBits < bits
  · rw [if_pos hlt]
    have hlen : 0 < (r.wrapped.words cfg).length := by
      by_contra hc
      have h0 : (r.wrapped.words cfg).length = 0 := by omega
      rw [h0] at hav
      omega
    obtain ⟨w, hw, hrd⟩ := readWord_ok cfg r.wrapped (words_pos_of_lt cfg _ hlen)
    have hwlt : w < 2 ^ cfg.wordBits := by
      apply wordValues_lt cfg _ _ w
      show w ∈ r.wrapped.words cfg
      rw [hw]; exact List.mem_cons_self _ _
    have hsw := cfg.scratch_wide
    have hfit : r.m_scratchBits + cfg.wordBits ≤ cfg.scratchWidth := by
      unfold BitConfig.wordBits at *; omega
    have hval := refill_value r.m_scratch w r.m_scratchBits cfg.wordBits cfg.scratchWidth
      hs hwlt hfit
    simp only [refill, hrd, hval, stream, hw, streamNat, List.length_cons]
    refine ⟨?_, ?_, by omega, trivial, trivial, trivial, ?_, ?_, by omega⟩
    · rw [Nat.pow_add]; ring
    · have : 2 ^ r.m_scratchBits * (w + 1) ≤ 2 ^ r.m_scratchBits * 2 ^ cfg.wordBits :=
        Nat.mul_le_mul_left _ hwlt
      rw [Nat.pow_add]
      rw [Nat.mul_add, Nat.mul_one] at this
      omega
    · rw [Nat.mul_succ]; omega
    · rw [Nat.mul_succ]; omega
  · rw [if_neg hlt]
    exact ⟨rfl, hs, by omega, rfl, rfl, rfl, rfl, rfl, le_refl _⟩

/-- One iteration of the loop in terms of the bits still to be delivered: the
`bits` low bits are taken out and the rest stays. -/
theorem step_stream (cfg : BitConfig) (r : BitReader) (bits : Nat)
    (hbits : bits ≤ cfg.wordBits)
    (hs : r.m_scratch < 2 ^ r.m_scratchBits)
    (hav : bits ≤ r.m_scratchBits + cfg.wordBits * (r.wrapped.words cfg).length) :
    (r.afterRefill cfg bits).m_scratch % 2 ^ bits = r.stream cfg % 2 ^ bits
      ∧ ((r.afterRefill cfg bits).consume bits).stream cfg = r.stream cfg / 2 ^ bits
      ∧ ((r.afterRefill cfg bits).consume bits).m_scratch
          < 2 ^ ((r.afterRefill cfg bits).consume bits).m_scratchBits
      ∧ ((r.afterRefill cfg bits).consume bits).wrapped.err = r.wrapped.err
      ∧ ((r.afterRefill cfg bits).consume bits).wrapped.data = r.wrapped.data
      ∧ ((r.afterRefill cfg bits).consume bits).wrapped.readEndPos = r.wrapped.readEndPos
      ∧ ((r.afterRefill cfg bits).consume bits).m_scratchBits
          + cfg.wordBits * (((r.afterRefill cfg bits).consume bits).wrapped.words cfg).length
          + bits
        = r.m_scratchBits + cfg.wordBits * (r.wrapped.words cfg).length
      ∧ ((r.afterRefill cfg bits).consume bits).wrapped.readPos
          + cfg.wordBytes * (((r.afterRefill cfg bits).consume bits).wrapped.words cfg).length
        = r.wrapped.readPos + cfg.wordBytes * (r.wrapped.words cfg).length
      ∧ (((r.afterRefill cfg bits).consume bits).wrapped.words cfg).length
        ≤ (r.wrapped.words cfg).length := by
  obtain ⟨h1, h2, h3, h4, h5, h6, h7, h8, h9⟩ := afterRefill_stream cfg r bits hbits hs hav
  generalize r.afterRefill cfg bits = r1 at *
  refine ⟨?_, ?_, ?_, h4, h5, h6, ?_, h8, h9⟩
  · rw [← h1, stream, mod_of_add_mul _ _ _ _ h3]
  · rw [← h1]
    simp only [stream, consume, Nat.shiftRight_eq_div_pow]
    rw [div_of_add_mul _ _ _ _ h3]
  · simp only [consume, Nat.shiftRight_eq_div_pow]
    exact div_lt_pow_sub _ _ _ h2 h3
  · simp only [consume]
    omega

theorem readBitsLoop_stream (cfg : BitConfig) (tw size fuel : Nat) :
    ∀ (r : BitReader) (bitsLeft res S : Nat), bitsLeft ≤ fuel → bitsLeft ≤ size →
      r.stream cfg = S / 2 ^ (size - bitsLeft) →
      r.m_scratch < 2 ^ r.m_scratchBits →
      bitsLeft ≤ r.m_scratchBits + cfg.wordBits * (r.wrapped.words cfg).length →
      res = S % 2 ^ (size - bitsLeft) % 2 ^ tw →
      (readBitsLoop cfg tw size fuel r bitsLeft res).2 = S % 2 ^ size % 2 ^ tw
        ∧ (readBitsLoop cfg tw size fuel r bitsLeft res).1.stream cfg = S / 2 ^ size
        ∧ (readBitsLoop cfg tw size fuel r bitsLeft res).1.m_scratch
            < 2 ^ (readBitsLoop cfg tw size fuel r bitsLeft res).1.m_scratchBits
        ∧ (readBitsLoop cfg tw size fuel r bitsLeft res).1.wrapped.err = r.wrapped.err
        ∧ (readBitsLoop cfg tw size fuel r bitsLeft res).1.wrapped.data = r.wrapped.data
        ∧ (readBitsLoop cfg tw size fuel r bitsLeft res).1.wrapped.readEndPos
            = r.wrapped.readEndPos
        ∧ (readBitsLoop cfg tw size fuel r bitsLeft res).1.m_scratchBits
            + cfg.wordBits
              * ((readBitsLoop cfg tw size fuel r bitsLeft res).1.wrapped.words cfg).length
            + bitsLeft
          = r.m_scratchBits + cfg.wordBits * (r.wrapped.words cfg).length
        ∧ (readBitsLoop cfg tw size fuel r bitsLeft res).1.wrapped.readPos
            + cfg.wordBytes
              * ((readBitsLoop cfg tw size fuel r bitsLeft res).1.wrapped.words cfg).length
          = r.wrapped.readPos + cfg.wordBytes * (r.wrapped.words cfg).length
        ∧ ((readBitsLoop cfg tw size fuel r bitsLeft res).1.wrapped.words cfg).length
          ≤ (r.wrapped.words cfg).length := by
  induction fuel with
  | zero =>
    intro r bitsLeft res S hf hsz hst hs hav hres
    have h0 : bitsLeft = 0 := by omega
    subst h0
    simp only [readBitsLoop, Nat.sub_zero, Nat.add_zero] at *
    exact ⟨hres, hst, hs, trivial, trivial, trivial, trivial, trivial, le_refl _⟩
  | succ f ih =>
    intro r bitsLeft res S hf hsz hst hs hav hres
    by_cases hb : 0 < bitsLeft
    · have hW := wordBits_pos cfg
      rw [readBitsLoop_succ _ _ _ _ _ _ _ hb]
      have hbits : min bitsLeft cfg.wordBits ≤ cfg.wordBits := Nat.min_le_right _ _
      have hbl : min bitsLeft cfg.wordBits ≤ bitsLeft := Nat.min_le_left _ _
      have hbp : 0 < min bitsLeft cfg.wordBits := by omega
      generalize min bitsLeft cfg.wordBits = bits at *
      obtain ⟨s1, s2, s3, s4, s5, s6, s7, s8, s9⟩ :=
        step_stream cfg r bits hbits hs (by omega)
      have hc : size - (bitsLeft - bits) = (size - bitsLeft) + bits := by omega
      have key := ih ((r.afterRefill cfg bits).consume bits) (bitsLeft - bits)
        ((res ||| ((((r.afterRefill cfg bits).m_scratch &&& ((1 <<< bits) - 1)) % 2 ^ tw)
          <<< (size - bitsLeft)) % 2 ^ tw) % 2 ^ tw) S
        (by omega) (by omega)
        (by rw [s2, hst, hc, Nat.pow_add, Nat.div_div_eq_div_mul])
        s3 (by omega)
        (by rw [mask_eq_mod, s1, hst, hres, hc, take_step])
      obtain ⟨k1, k2, k3, k4, k5, k6, k7, k8, k9⟩ := key
      refine ⟨k1, k2, k3, by rw [k4, s4], by rw [k5, s5], by rw [k6, s6], by omega, by omega,
        le_trans k9 s9⟩
    · have h0 : bitsLeft = 0 := by omega
      subst h0
      simp only [readBitsLoop_done, Nat.sub_zero, Nat.add_zero] at *
      exact ⟨hres, hst, hs, trivial, trivial, trivial, trivial, trivial, le_refl _⟩

/-- What `readBits` delivers and where it leaves the reader, when the scratch
holds no stray bit and the source holds enough whole words. -/
theorem readBits_stream (cfg : BitConfig) (tw : Nat) (r : BitReader) (n : Nat)
    (hs : r.m_scratch < 2 ^ r.m_scratchBits)
    (hav : n ≤ r.m_scratchBits + cfg.wordBits * (r.wrapped.words cfg).length) :
    (readBits cfg tw r n).2 = r.stream cfg % 2 ^ n % 2 ^ tw
      ∧ (readBits cfg tw r n).1.stream cfg = r.stream cfg / 2 ^ n
      ∧ (readBits cfg tw r n).1.m_scratch < 2 ^ (readBits cfg tw r n).1.m_scratchBits
      ∧ (readBits cfg tw r n).1.wrapped.err = r.wrapped.err
      ∧ (readBits cfg tw r n).1.wrapped.data = r.wrapped.data
      ∧ (readBits cfg tw r n).1.wrapped.readEndPos = r.wrapped.readEndPos
      ∧ (readBits cfg tw r n).1.m_scratchBits
          + cfg.wordBits * ((readBits cfg tw r n).1.wrapped.words cfg).length + n
        = r.m_scratchBits + cfg.wordBits * (r.wrapped.words cfg).length
      ∧ (readBits cfg tw r n).1.wrapped.readPos
          + cfg.wordBytes * ((readBits cfg tw r n).1.wrapped.words cfg).length
        = r.wrapped.readPos + cfg.wordBytes * (r.wrapped.words cfg).length
      ∧ ((readBits cfg tw r n).1.wrapped.words cfg).length ≤ (r.wrapped.words cfg).length := by
  unfold readBits readBitsInternal
  exact readBitsLoop_stream cfg tw n n r n 0 (r.stream cfg) (le_refl _) (le_refl _)
    (by simp) hs hav (by simp [Nat.mod_one])

theorem afterRefill_of_le (cfg : BitConfig) (r : BitReader) (bits : Nat)
    (h : bits ≤ r.m_scratchBits) : r.afterRefill cfg bits = r := by
  unfold afterRefill
  rw [if_neg (by omega)]

/-- A request that the scratch alone can serve pulls nothing from the source. -/
theorem readBitsLoop_noRefill (cfg : BitConfig) (tw size fuel : Nat) :
    ∀ (r : BitReader) (bitsLeft res S : Nat), bitsLeft ≤ fuel → bitsLeft ≤ size →
      bitsLeft ≤ r.m_scratchBits →
      r.m_scratch = S / 2 ^ (size - bitsLeft) →
      res = S % 2 ^ (size - bitsLeft) % 2 ^ tw →
      readBitsLoop cfg tw size fuel r bitsLeft res
        = ({ r with m_scratch := S / 2 ^ size, m_scratchBits := r.m_scratchBits - bitsLeft },
            S % 2 ^ size % 2 ^ tw) := by
  induction fuel with
  | zero =>
    intro r bitsLeft res S hf hsz hle hscr hres
    have h0 : bitsLeft = 0 := by omega
    subst h0
    simp only [readBitsLoop, Nat.sub_zero] at *
    rw [hres, ← hscr]
  | succ f ih =>
    intro r bitsLeft res S hf hsz hle hscr hres
    by_cases hb : 0 < bitsLeft
    · have hW := wordBits_pos cfg
      rw [readBitsLoop_succ _ _ _ _ _ _ _ hb]
      have hbl : min bitsLeft cfg.wordBits ≤ bitsLeft := Nat.min_le_left _ _
      have hbp : 0 < min bitsLeft cfg.wordBits := by omega
      generalize min bitsLeft cfg.wordBits = bits at *
      rw [afterRefill_of_le cfg r bits (by omega)]
      have hc : size - (bitsLeft - bits) = (size - bitsLeft) + bits := by omega
      rw [ih (r.consume bits) (bitsLeft - bits) _ S (by omega) (by omega)
        (by simp only [consume]; omega)
        (by simp only [consume, Nat.shiftRight_eq_div_pow]
            rw [hscr, hc, Nat.pow_add, Nat.div_div_eq_div_mul])
        (by rw [mask_eq_mod, hscr, hres, hc, take_step])]
      simp only [consume]
      congr 2
      omega
    · have h0 : bitsLeft = 0 := by omega
      subst h0
      simp only [readBitsLoop_done, Nat.sub_zero] at *
      rw [hres, ← hscr]

theorem readBitsInternal_noRefill (cfg : BitConfig) (tw : Nat) (r : BitReader) (size : Nat)
    (h : size ≤ r.m_scratchBits) :
    readBitsInternal cfg tw r size
      = ({ r with m_scratch := r.m_scratch / 2 ^ size,
                  m_scratchBits := r.m_scratchBits - size },
          r.m_scratch % 2 ^ size % 2 ^ tw) := by
  unfold readBitsInternal
  exact readBitsLoop_noRefill cfg tw size size r size 0 r.m_scratch (le_refl _) (le_refl _) h
    (by simp) (by simp [Nat.mod_one])

/-- What `align` does, in every state. -/
theorem align_eq (cfg : BitConfig) (r : BitReader) :
    align cfg r =
      if r.m_scratchBits ≠ 0 then
        if r.m_scratch % 2 ^ r.m_scratchBits % 2 ^ cfg.scratchWidth ≠ 0 then
          { wrapped := r.wrapped.error ReaderError.InvalidData,
            m_scratch := r.m_scratch / 2 ^ r.m_scratchBits, m_scratchBits := 0 }
        else
          { wrapped := r.wrapped,
            m_scratch := r.m_scratch / 2 ^ r.m_scratchBits, m_scratchBits := 0 }
      else r := by
  unfold align
  rw [readBitsInternal_noRefill cfg _ r _ (le_refl _)]
  simp only [Nat.sub_self, error, AdapterReader.error]

theorem mod_mod_pow_of_le (x a b : Nat) (h : a ≤ b) : x % 2 ^ a % 2 ^ b = x % 2 ^ a := by
  apply Nat.mod_eq_of_lt
  exact lt_of_lt_of_le (Nat.mod_lt _ (Nat.pow_pos (by decide))) (Nat.pow_le_pow_right (by decide) h)

theorem wordBits_le_scratchWidth (cfg : BitConfig) : cfg.wordBits ≤ cfg.scratchWidth := by
  have := cfg.scratch_wide
  unfold BitConfig.wordBits; omega

end BitReader

theorem streamNat_testBit (W : Nat) (hW : 0 < W) (ws : List Nat) (hws : ∀ w ∈ ws, w < 2 ^ W) :
    ∀ j, (streamNat W ws / 2 ^ j) % 2 = (ws.getD (j / W) 0 / 2 ^ (j % W)) % 2 := by
  induction ws with
  | nil => intro j; simp [streamNat]
  | cons w ws ih =>
    intro j
    have hw : w < 2 ^ W := hws w (List.mem_cons_self _ _)
    have ih2 := ih (fun x hx => hws x (List.mem_cons_of_mem _ hx))
    by_cases hj : j < W
    · have e1 : j / W = 0 := Nat.div_eq_of_lt hj
      have e2 : j % W = j := Nat.mod_eq_of_lt hj
      simp only [e1, e2, List.getD_cons_zero, streamNat]
      have := Nat.testBit_mul_pow_two_add (streamNat W ws) hw j
      simp only [Nat.testBit_to_div_mod, hj, if_true] at this
      rw [Nat.add_comm]
      have h2 : ∀ x : Nat, x % 2 = 0 ∨ x % 2 = 1 := fun x => Nat.mod_two_eq_zero_or_one x
      rcases h2 ((2 ^ W * streamNat W ws + w) / 2 ^ j) with a | a <;>
        rcases h2 (w / 2 ^ j) with b | b <;> simp_all
    · have hj2 : W ≤ j := by omega
      obtain ⟨d, rfl⟩ : ∃ d, j = W + d := ⟨j - W, by omega⟩
      have e1 : (W + d) / W = d / W + 1 := by
        rw [Nat.add_comm, Nat.add_div_right _ hW]
      have e2 : (W + d) % W = d % W := by simp
      simp only [e1, e2, List.getD_cons_succ, streamNat]
      rw [← ih2 d, Nat.pow_add, ← Nat.div_div_eq_div_mul]
      congr 1
      rw [Nat.add_comm, Nat.mul_comm, Nat.add_div_of_dvd_right (Dvd.intro_left _ rfl)]
      rw [Nat.mul_div_cancel _ (Nat.pow_pos (by decide)), Nat.div_eq_of_lt hw, Nat.add_zero]

theorem sum_bits_eq (x p n : Nat) :
    ((List.range n).map (fun k => (x / 2 ^ (p + k)) % 2 * 2 ^ k)).sum = x / 2 ^ p % 2 ^ n := by
  induction n with
  | zero => simp [Nat.mod_one]
  | succ n ih =>
    rw [List.range_succ, List.map_append, List.sum_append, ih]
    simp only [List.map_cons, List.map_nil, List.sum_cons, List.sum_nil, Nat.add_zero]
    rw [Nat.mod_pow_succ, Nat.pow_add, ← Nat.div_div_eq_div_mul, Nat.mul_comm]

theorem refBits_eq (cfg : BitConfig) (ws : List Nat) (hws : ∀ w ∈ ws, w < 2 ^ cfg.wordBits)
    (p n : Nat) : refBits cfg ws p n = streamNat cfg.wordBits ws / 2 ^ p % 2 ^ n := by
  unfold refBits streamBit
  rw [← sum_bits_eq]
  congr 1
  apply List.map_congr_left
  intro k _
  rw [streamNat_testBit cfg.wordBits (BitReader.wordBits_pos cfg) ws hws]

theorem streamNat_drop (W : Nat) (ws : List Nat) (hws : ∀ w ∈ ws, w < 2 ^ W) (c : Nat) :
    streamNat W (ws.drop c) = streamNat W ws / 2 ^ (c * W) := by
  induction c generalizing ws with
  | zero => simp
  | succ c ih =>
    cases ws with
    | nil => simp [streamNat]
    | cons w ws =>
      have hw : w < 2 ^ W := hws w (List.mem_cons_self _ _)
      simp only [List.drop_succ_cons, streamNat]
      rw [ih ws (fun x hx => hws x (List.mem_cons_of_mem _ hx)), Nat.succ_mul, Nat.pow_add,
        Nat.mul_comm (2 ^ (c * W)), ← Nat.div_div_eq_div_mul]
      congr 1
      rw [Nat.add_comm, Nat.mul_comm, Nat.add_div_of_dvd_right (Dvd.intro_left _ rfl)]
      rw [Nat.mul_div_cancel _ (Nat.pow_pos (by decide)), Nat.div_eq_of_lt hw, Nat.add_zero]

theorem wordValues_drop (cfg : BitConfig) (c : Nat) :
    ∀ (k : Nat) (bs : List Byte),
      (wordValues cfg k bs).drop c = wordValues cfg (k - c) (bs.drop (c * cfg.wordBytes)) := by
  induction c with
  | zero => intro k bs; simp
  | succ c ih =>
    intro k bs
    cases k with
    | zero => simp [wordValues]
    | succ k =>
      simp only [wordValues, List.drop_succ_cons, ih, Nat.succ_sub_succ, List.drop_drop]
      congr 2
      rw [Nat.succ_mul]; omega

theorem sub_mul_div_word (e c b : Nat) (hb : 0 < b) : (e - c * b) / b = e / b - c := by
  by_cases h : b * c ≤ e
  · rw [Nat.mul_comm c b, Nat.sub_mul_div e b c h]
  · have h1 : e - c * b = 0 := by rw [Nat.mul_comm c b]; omega
    have h2 : e / b < c := by
      rw [Nat.div_lt_iff_lt_mul hb, Nat.mul_comm c b]; omega
    rw [h1, Nat.zero_div]; omega

theorem words_eq_drop (cfg : BitConfig) (s : Source) (c : Nat)
    (h : s.readPos = c * cfg.wordBytes) :
    s.words cfg = (s.allWords cfg).drop c := by
  unfold Source.words Source.allWords Source.remaining
  rw [wordValues_drop, h, sub_mul_div_word _ _ _ cfg.wordBytes_pos]

namespace BitReader

theorem allWords_lt (cfg : BitConfig) (s : Source) :
    ∀ w ∈ s.allWords cfg, w < 2 ^ cfg.wordBits :=
  wordValues_lt cfg _ _

theorem allWords_congr (cfg : BitConfig) (a b : Source) (h1 : a.data = b.data)
    (h2 : a.readEndPos = b.readEndPos) : a.allWords cfg = b.allWords cfg := by
  unfold Source.allWords Source.validEnd
  rw [h1, h2]

/-- The reader seen against the bit sequence of its source: the cursor is at
word `c`, and the scratch holds the bits from the logical position up to the
cursor. -/
theorem stream_eq_of_position (cfg : BitConfig) (r : BitReader) (c : Nat)
    (hpos : r.wrapped.readPos = c * cfg.wordBytes)
    (hsb : r.m_scratchBits ≤ c * cfg.wordBits)
    (hscr : r.m_scratch = streamNat cfg.wordBits (r.wrapped.allWords cfg)
        / 2 ^ (c * cfg.wordBits - r.m_scratchBits) % 2 ^ r.m_scratchBits) :
    r.stream cfg = streamNat cfg.wordBits (r.wrapped.allWords cfg)
        / 2 ^ (c * cfg.wordBits - r.m_scratchBits)
      ∧ r.m_scratch < 2 ^ r.m_scratchBits := by
  constructor
  · unfold stream
    rw [words_eq_drop cfg r.wrapped c hpos, streamNat_drop _ _ (allWords_lt cfg _)]
    have e : c * cfg.wordBits = (c * cfg.wordBits - r.m_scratchBits) + r.m_scratchBits := by omega
    conv_lhs => rw [hscr]; rw [e]
    rw [Nat.add_sub_cancel, Nat.pow_add, ← Nat.div_div_eq_div_mul, Nat.mod_add_div]
  · rw [hscr]
    exact Nat.mod_lt _ (Nat.pow_pos (by decide))

theorem cursor_mul (c L L2 W : Nat) (h : L2 ≤ L) :
    (c + (L - L2)) * W = c * W + W * L - W * L2 := by
  have := Nat.mul_le_mul_left W h
  rw [Nat.add_mul, Nat.sub_mul, Nat.mul_comm L W, Nat.mul_comm L2 W]
  omega

theorem scratch_of_stream (a R k : Nat) (ha : a < 2 ^ k) : (a + 2 ^ k * R) % 2 ^ k = a := by
  rw [Nat.add_mul_mod_self_left, Nat.mod_eq_of_lt ha]

theorem packNat_lt (fs : List (Nat × Nat)) (h : ∀ f ∈ fs, f.2 < 2 ^ f.1) :
    packNat fs < 2 ^ packBits fs := by
  induction fs with
  | nil => simp [packNat, packBits]
  | cons f fs ih =>
    have hf := h f (List.mem_cons_self _ _)
    have ih2 := ih (fun x hx => h x (List.mem_cons_of_mem _ hx))
    simp only [packNat, packBits, List.map_cons, List.sum_cons, Nat.pow_add] at *
    have : 2 ^ f.1 * (packNat fs + 1) ≤ 2 ^ f.1 * 2 ^ (List.map Prod.fst fs).sum :=
      Nat.mul_le_mul_left _ ih2
    rw [Nat.mul_add, Nat.mul_one] at this
    omega

theorem wordValues_bytes (cfg : BitConfig) (hW : cfg.wordBytes = 1) (bs : List Byte) :
    streamNat cfg.wordBits (wordValues cfg bs.length bs) = fromLE bs := by
  have h8 : cfg.wordBits = 8 := by unfold BitConfig.wordBits; omega
  induction bs with
  | nil => rfl
  | cons b bs ih =>
    simp only [List.length_cons, wordValues, streamNat, hW, List.take_succ_cons, List.take_zero,
      List.drop_succ_cons, List.drop_zero, fromLE]
    rw [ih, h8]
    cases cfg.networkEndianness <;> simp [load, fromLE]

theorem stream_fresh_bytes (cfg : BitConfig) (hW : cfg.wordBytes = 1) (bs : List Byte) :
    (fresh ⟨bs, 0, bs.length, ReaderError.NoError⟩).stream cfg = fromLE bs
      ∧ ((fresh ⟨bs, 0, bs.length, ReaderError.NoError⟩).wrapped.words cfg).length
        = bs.length := by
  have e : Source.words cfg ⟨bs, 0, bs.length, ReaderError.NoError⟩
      = wordValues cfg bs.length bs := by
    simp [Source.words, Source.remaining, Source.validEnd, hW]
  constructor
  · simp only [stream, fresh, e, wordValues_bytes cfg hW]
    simp
  · simp only [fresh, e, wordValues_length]

theorem stream_zero_scratch (cfg : BitConfig) (r : BitReader) (h : r.stream cfg = 0) :
    r.m_scratch = 0 := by
  unfold stream at h
  omega

theorem readFields_stream (cfg : BitConfig) (tw : Nat) (fs : List (Nat × Nat)) :
    ∀ (r : BitReader), (∀ f ∈ fs, f.1 ≤ tw ∧ f.2 < 2 ^ f.1) →
      r.stream cfg = packNat fs → r.m_scratch < 2 ^ r.m_scratchBits →
      packBits fs ≤ r.m_scratchBits + cfg.wordBits * (r.wrapped.words cfg).length →
      (readFields cfg tw (fs.map Prod.fst) r).2 = fs.map Prod.snd
        ∧ (readFields cfg tw (fs.map Prod.fst) r).1.stream cfg = 0
        ∧ (readFields cfg tw (fs.map Prod.fst) r).1.wrapped.err = r.wrapped.err := by
  induction fs with
  | nil =>
    intro r _ hst _ _
    simpa [readFields, packNat] using hst
  | cons f fs ih =>
    intro r hf hst hs hav
    obtain ⟨hf1, hf2⟩ := hf f (List.mem_cons_self _ _)
    have hav2 : f.1 ≤ r.m_scratchBits + cfg.wordBits * (r.wrapped.words cfg).length := by
      simp only [packBits, List.map_cons, List.sum_cons] at hav
      omega
    obtain ⟨k1, k2, k3, k4, _, _, k7, _, _⟩ := readBits_stream cfg tw r f.1 hs hav2
    have hdiv : r.stream cfg / 2 ^ f.1 = packNat fs := by
      rw [hst, packNat, Nat.add_comm,
        Nat.mul_add_div (Nat.pow_pos (by decide)), Nat.div_eq_of_lt hf2, Nat.add_zero]
    have hmod : r.stream cfg % 2 ^ f.1 = f.2 := by
      rw [hst, packNat, Nat.add_mul_mod_self_left, Nat.mod_eq_of_lt hf2]
    obtain ⟨i1, i2, i3⟩ := ih (readBits cfg tw r f.1).1
      (fun x hx => hf x (List.mem_cons_of_mem _ hx)) (by rw [k2, hdiv]) k3
      (by simp only [packBits, List.map_cons, List.sum_cons] at hav ⊢; omega)
    simp only [List.map_cons, readFields]
    refine ⟨?_, i2, by rw [i3, k4]⟩
    rw [i1, k1, hmod, Nat.mod_eq_of_lt]
    exact lt_of_lt_of_le hf2 (Nat.pow_le_pow_right (by decide) hf1)

theorem align_err_of_scratch_zero (cfg : BitConfig) (r : BitReader) (h : r.m_scratch = 0) :
    (align cfg r).wrapped.err = r.wrapped.err := by
  rw [align_eq, h]
  simp only [Nat.zero_mod, ne_eq, not_true_eq_false, if_false]
  split <;> rfl

theorem packBytes_length (fs : List (Nat × Nat)) :
    (packBytes fs).length = (packBits fs + 7) / 8 := by
  simp [packBytes, toLE_length]

theorem fromLE_packBytes (fs : List (Nat × Nat)) (h : ∀ f ∈ fs, f.2 < 2 ^ f.1) :
    fromLE (packBytes fs) = packNat fs := by
  unfold packBytes
  rw [fromLE_toLE, pow_256_eq]
  apply Nat.mod_eq_of_lt
  exact lt_of_lt_of_le (packNat_lt fs h) (Nat.pow_le_pow_right (by decide) (by omega))

theorem error_of_err (s : Source) (e : ReaderError) (h : s.err ≠ ReaderError.NoError) :
    s.error e = s := by
  simp [Source.error, h]

theorem error_of_noError (s : Source) (e : ReaderError) (h : s.err = ReaderError.NoError) :
    s.error e = { s with err := e } := by
  simp [Source.error, h]

theorem remaining_error (s : Source) (e : ReaderError) : (s.error e).remaining = s.remaining := by
  unfold Source.error
  split <;> rfl

/-- Once an error is recorded and no whole word is left, the loop leaves the
source alone. -/
theorem readBitsLoop_frozen (cfg : BitConfig) (tw size fuel : Nat) :
    ∀ (r : BitReader) (bitsLeft res : Nat), ¬ cfg.wordBytes ≤ r.wrapped.remaining →
      r.wrapped.err ≠ ReaderError.NoError →
      (readBitsLoop cfg tw size fuel r bitsLeft res).1.wrapped = r.wrapped := by
  induction fuel with
  | zero => intro r bitsLeft res _ _; rfl
  | succ f ih =>
    intro r bitsLeft res h1 h2
    by_cases hb : 0 < bitsLeft
    · rw [readBitsLoop_succ _ _ _ _ _ _ _ hb]
      have hw : ((r.afterRefill cfg (min bitsLeft cfg.wordBits)).consume
          (min bitsLeft cfg.wordBits)).wrapped = r.wrapped := by
        unfold afterRefill
        split
        · simp only [consume, refill, (readWord_fail cfg r.wrapped h1).2,
            error_of_err _ _ h2]
        · rfl
      rw [ih _ _ _ (by rw [hw]; exact h1) (by rw [hw]; exact h2), hw]
    · have h0 : bitsLeft = 0 := by omega
      subst h0
      simp [readBitsLoop_done]

/-- A request for more bits than the scratch and the whole words left can
supply ends with the exhausted error recorded, after all whole words have been
pulled and none beyond. -/
theorem readBitsLoop_exhausted (cfg : BitConfig) (tw size fuel : Nat) :
    ∀ (r : BitReader) (bitsLeft res : Nat), bitsLeft ≤ fuel →
      r.wrapped.err = ReaderError.NoError →
      r.m_scratchBits + cfg.wordBits * (r.wrapped.words cfg).length < bitsLeft →
      (readBitsLoop cfg tw size fuel r bitsLeft res).1.wrapped
        = { r.wrapped with
            readPos := r.wrapped.readPos + cfg.wordBytes * (r.wrapped.words cfg).length,
            err := ReaderError.Exhausted } := by
  induction fuel with
  | zero => intro r bitsLeft res hf _ hlt; omega
  | succ f ih =>
    intro r bitsLeft res hf herr hlt
    have hb : 0 < bitsLeft := by omega
    have hW := wordBits_pos cfg
    rw [readBitsLoop_succ _ _ _ _ _ _ _ hb]
    have hbits : min bitsLeft cfg.wordBits ≤ cfg.wordBits := Nat.min_le_right _ _
    have hbl : min bitsLeft cfg.wordBits ≤ bitsLeft := Nat.min_le_left _ _
    have hbp : 0 < min bitsLeft cfg.wordBits := by omega
    generalize min bitsLeft cfg.wordBits = bits at *
    by_cases hlt2 : r.m_scratchBits < bits
    · by_cases hrem : cfg.wordBytes ≤ r.wrapped.remaining
      · obtain ⟨w, hw, hrd⟩ := readWord_ok cfg r.wrapped hrem
        have hr1 : (r.afterRefill cfg bits).consume bits =
            { wrapped := { r.wrapped with readPos := r.wrapped.readPos + cfg.wordBytes },
              m_scratch := ((r.m_scratch ||| (w <<< r.m_scratchBits)) % 2 ^ cfg.scratchWidth)
                >>> bits,
              m_scratchBits := r.m_scratchBits + cfg.wordBits - bits } := by
          simp only [afterRefill, if_pos hlt2, refill, consume, hrd]
        rw [hr1, ih _ _ _ (by omega) (by exact herr)
          (by simp only; rw [hw, List.length_cons, Nat.mul_succ] at hlt; omega)]
        simp only [hw, List.length_cons, Nat.mul_succ]
        congr 1
        omega
      · obtain ⟨hw, hrd⟩ := readWord_fail cfg r.wrapped hrem
        have hr1 : ((r.afterRefill cfg bits).consume bits).wrapped =
            { r.wrapped with err := ReaderError.Exhausted } := by
          simp only [afterRefill, if_pos hlt2, refill, consume, hrd,
            error_of_noError _ _ herr]
        rw [readBitsLoop_frozen _ _ _ _ _ _ _ (by rw [hr1]; exact hrem)
          (by rw [hr1]; simp), hr1, hw]
        simp
    · have hr1 : (r.afterRefill cfg bits).consume bits = r.consume bits := by
        rw [afterRefill_of_le cfg r bits (by omega)]
      rw [hr1, ih _ _ _ (by omega) (by exact herr) (by simp only [consume]; omega)]
      rfl

theorem take_drop_of_take (l : List Byte) (p n e : Nat) (h : n ≤ e - p) :
    ((l.take e).drop p).take n = (l.drop p).take n := by
  rw [List.drop_take, List.take_take]
  congr 1
  omega

theorem read_agree (a b : Source) (n : Nat) (h : Source.agree a b) :
    (a.read n).2 = (b.read n).2 ∧ Source.agree (a.read n).1 (b.read n).1 := by
  obtain ⟨h1, h2, h3, h4⟩ := h
  have hrem : a.remaining = b.remaining := by
    unfold Source.remaining; rw [h1, h2]
  by_cases hn : n ≤ a.remaining
  · rw [read_ok a n hn, read_ok b n (hrem ▸ hn)]
    have ha : n ≤ a.validEnd - a.readPos := hn
    have hb : n ≤ b.validEnd - b.readPos := by rw [← h1, ← h2]; exact ha
    refine ⟨?_, ?_, ?_, h3, ?_⟩
    · rw [← take_drop_of_take a.data _ _ _ ha, ← take_drop_of_take b.data _ _ _ hb, h4, h1]
    · simp only [h1]
    · exact h2
    · exact h4
  · rw [read_fail a n hn, read_fail b n (hrem ▸ hn)]
    refine ⟨rfl, ?_⟩
    unfold Source.error
    rw [← h3]
    split
    · exact ⟨h1, h2, rfl, h4⟩
    · exact ⟨h1, h2, h3, h4⟩

theorem readBytes_agree (cfg : Config) (size : Nat) (a b : Source) (h : Source.agree a b) :
    (AdapterReader.readBytes cfg size a).2 = (AdapterReader.readBytes cfg size b).2
      ∧ Source.agree (AdapterReader.readBytes cfg size a).1
          (AdapterReader.readBytes cfg size b).1 := by
  rw [readBytes_eq_load, readBytes_eq_load]
  obtain ⟨h1, h2⟩ := read_agree a b size h
  exact ⟨by simp only [h1], h2⟩

theorem afterRefill_agree (cfg : BitConfig) (a b : BitReader) (bits : Nat) (h : agree a b) :
    agree (a.afterRefill cfg bits) (b.afterRefill cfg bits) := by
  obtain ⟨h1, h2, h3⟩ := h
  obtain ⟨k1, k2⟩ := readBytes_agree cfg.toConfig cfg.wordBytes a.wrapped b.wrapped h3
  unfold afterRefill
  rw [h2]
  split
  · exact ⟨by simp only [refill, h1, h2, k1], by simp only [refill, h2], k2⟩
  · exact ⟨h1, h2, h3⟩

theorem readBitsLoop_agree (cfg : BitConfig) (tw size fuel : Nat) :
    ∀ (a b : BitReader) (bitsLeft res : Nat), agree a b →
      (readBitsLoop cfg tw size fuel a bitsLeft res).2
          = (readBitsLoop cfg tw size fuel b bitsLeft res).2
        ∧ agree (readBitsLoop cfg tw size fuel a bitsLeft res).1
            (readBitsLoop cfg tw size fuel b bitsLeft res).1 := by
  induction fuel with
  | zero => intro a b bitsLeft res h; exact ⟨rfl, h⟩
  | succ f ih =>
    intro a b bitsLeft res h
    by_cases hb : 0 < bitsLeft
    · rw [readBitsLoop_succ _ _ _ _ _ _ _ hb, readBitsLoop_succ _ _ _ _ _ _ _ hb]
      obtain ⟨k1, k2, k3⟩ := afterRefill_agree cfg a b (min bitsLeft cfg.wordBits) h
      rw [k1]
      exact ih _ _ _ _ ⟨by simp only [consume, k1], by simp only [consume, k2], k3⟩
    · have h0 : bitsLeft = 0 := by omega
      subst h0
      rw [readBitsLoop_done, readBitsLoop_done]
      exact ⟨rfl, h⟩

/-- Reading a whole number of words leaves the number of pending bits as it
was. -/
theorem readBitsLoop_words_scratchBits (cfg : BitConfig) (tw size fuel : Nat) :
    ∀ (k : Nat) (r : BitReader) (res : Nat), cfg.wordBits * k ≤ fuel →
      r.m_scratchBits < cfg.wordBits →
      (readBitsLoop cfg tw size fuel r (cfg.wordBits * k) res).1.m_scratchBits
        = r.m_scratchBits := by
  induction fuel with
  | zero => intro k r res _ _; rfl
  | succ f ih =>
    intro k r res hf hsb
    have hW := wordBits_pos cfg
    cases k with
    | zero => simp [readBitsLoop_done]
    | succ j =>
      have hb : 0 < cfg.wordBits * (j + 1) := Nat.mul_pos hW (by omega)
      have hmin : min (cfg.wordBits * (j + 1)) cfg.wordBits = cfg.wordBits := by
        rw [Nat.mul_succ]; omega
      have hsub : cfg.wordBits * (j + 1) - cfg.wordBits = cfg.wordBits * j := by
        rw [Nat.mul_succ]; omega
      rw [readBitsLoop_succ _ _ _ _ _ _ _ hb, hmin, hsub]
      have h1 : ((r.afterRefill cfg cfg.wordBits).consume cfg.wordBits).m_scratchBits
          = r.m_scratchBits := by
        simp only [consume, afterRefill_scratchBits, if_pos hsb]
        omega
      rw [ih j _ _ (by rw [Nat.mul_succ] at hf; omega) (by rw [h1]; exact hsb), h1]

theorem readBits_bytes_scratchBits (cfg : BitConfig) (hW : cfg.wordBytes = 1) (tw size : Nat)
    (r : BitReader) (hsb : r.m_scratchBits < 8) :
    (readBits cfg tw r (8 * size)).1.m_scratchBits = r.m_scratchBits := by
  have h8 : cfg.wordBits = 8 := by unfold BitConfig.wordBits; omega
  unfold readBits readBitsInternal
  have := readBitsLoop_words_scratchBits cfg tw (8 * size) (8 * size) size r 0
    (by rw [h8]) (by rw [h8]; exact hsb)
  rw [h8] at this
  exact this

theorem readBufferLoop_eq_readBytesSeq (cfg : BitConfig) (hW : cfg.wordBytes = 1)
    (size count : Nat) :
    ∀ (r : BitReader), r.m_scratchBits ≠ 0 → r.m_scratchBits < 8 →
      readBufferLoop cfg size count r = readBytesSeq cfg size count r := by
  induction count with
  | zero => intro r _ _; rfl
  | succ k ih =>
    intro r h0 h8
    have hb : readBytes cfg size r = readBits cfg (8 * size) r (8 * size) := by
      simp [readBytes, h0]
    have hk := readBits_bytes_scratchBits cfg hW (8 * size) size r h8
    rw [readBufferLoop, readBytesSeq, hb, ih _ (by rw [hk]; exact h0) (by rw [hk]; exact h8)]

theorem readBytesSeq_aligned (cfg : BitConfig) (size count : Nat) :
    ∀ (r : BitReader), r.m_scratchBits = 0 →
      readBytesSeq cfg size count r =
        ({ r with wrapped := (AdapterReader.readBytesSeq cfg.toConfig size count r.wrapped).1 },
          (AdapterReader.readBytesSeq cfg.toConfig size count r.wrapped).2) := by
  induction count with
  | zero => intro r _; rfl
  | succ k ih =>
    intro r h0
    have hb : readBytes cfg size r =
        ({ r with wrapped := (AdapterReader.readBytes cfg.toConfig size r.wrapped).1 },
          (AdapterReader.readBytes cfg.toConfig size r.wrapped).2) := by
      simp [readBytes, h0]
    rw [readBytesSeq, hb, ih _ (by simpa using h0)]
    rfl

theorem readBits_scratchBits_lt (cfg : BitConfig) (tw : Nat) (r : BitReader) (n : Nat)
    (h : r.m_scratchBits < cfg.wordBits) :
    (readBits cfg tw r n).1.m_scratchBits < cfg.wordBits :=
  readBitsLoop_scratchBits_lt cfg tw n n r n 0 h

theorem readBytes_scratchBits_lt (cfg : BitConfig) (size : Nat) (r : BitReader)
    (h : r.m_scratchBits < cfg.wordBits) :
    (readBytes cfg size r).1.m_scratchBits < cfg.wordBits := by
  unfold readBytes
  split
  · exact h
  · exact readBits_scratchBits_lt cfg _ r _ h

theorem readBufferLoop_scratchBits_lt (cfg : BitConfig) (size count : Nat) :
    ∀ (r : BitReader), r.m_scratchBits < cfg.wordBits →
      (readBufferLoop cfg size count r).1.m_scratchBits < cfg.wordBits := by
  induction count with
  | zero => intro r h; exact h
  | succ k ih =>
    intro r h
    rw [readBufferLoop]
    exact ih _ (readBits_scratchBits_lt cfg _ r _ h)

theorem readBuffer_scratchBits_lt (cfg : BitConfig) (size count : Nat) (r : BitReader)
    (h : r.m_scratchBits < cfg.wordBits) :
    (readBuffer cfg size count r).1.m_scratchBits < cfg.wordBits := by
  unfold readBuffer
  split
  · exact h
  · exact readBufferLoop_scratchBits_lt cfg size count r h

theorem align_scratchBits (cfg : BitConfig) (r : BitReader) :
    (align cfg r).m_scratchBits = 0 := by
  rw [align_eq]
  by_cases h : r.m_scratchBits = 0
  · simp [h]
  · rw [if_pos h]
    split <;> rfl

theorem run_scratchBits_lt (cfg : BitConfig) (r : BitReader) (op : Op)
    (h : r.m_scratchBits < cfg.wordBits) : (r.run cfg op).m_scratchBits < cfg.wordBits := by
  have hW := wordBits_pos cfg
  cases op with
  | readBytes size => exact readBytes_scratchBits_lt cfg size r h
  | readBuffer size count => exact readBuffer_scratchBits_lt cfg size count r h
  | readBits tw bitsCount => exact readBits_scratchBits_lt cfg tw r bitsCount h
  | align => simp only [run, align_scratchBits]; exact hW
  | currentReadPos pos => simp only [run, currentReadPos, align_scratchBits]; exact hW

theorem runAll_scratchBits_lt (cfg : BitConfig) (ops : List Op) :
    ∀ (r : BitReader), r.m_scratchBits < cfg.wordBits →
      (r.runAll cfg ops).m_scratchBits < cfg.wordBits := by
  induction ops with
  | nil => intro r h; exact h
  | cons op ops ih =>
    intro r h
    simp only [runAll, List.foldl_cons]
    exact ih _ (run_scratchBits_lt cfg r op h)

theorem readBitsPoints_bounds (cfg : BitConfig) (fuel : Nat) :
    ∀ (r : BitReader) (bitsLeft : Nat), r.m_scratchBits < cfg.wordBits →
      ∀ pt ∈ readBitsPoints cfg fuel r bitsLeft,
        pt.2.1 ≤ pt.1.m_scratchBits ∧ pt.1.m_scratchBits < 2 * cfg.wordBits
          ∧ pt.2.2.m_scratchBits < cfg.wordBits := by
  induction fuel with
  | zero => intro r bitsLeft _ pt hpt; simp [readBitsPoints] at hpt
  | succ f ih =>
    intro r bitsLeft h pt hpt
    by_cases hb : 0 < bitsLeft
    · simp only [readBitsPoints, if_pos hb, List.mem_cons] at hpt
      have hbd := afterRefill_bounds cfg r bitsLeft h
      rcases hpt with hpt | hpt
      · subst hpt
        exact hbd
      · exact ih _ _ hbd.2.2 pt hpt
    · simp [readBitsPoints, hb] at hpt

/-- The points listed by `readBitsPoints` are those the loop goes through: the
reader the loop ends with is the last of them. -/
theorem readBitsLoop_reader_eq_last (cfg : BitConfig) (tw size fuel : Nat) :
    ∀ (r : BitReader) (bitsLeft res : Nat),
      (readBitsLoop cfg tw size fuel r bitsLeft res).1
        = ((readBitsPoints cfg fuel r bitsLeft).map (fun pt => pt.2.2)).getLastD r := by
  induction fuel with
  | zero => intro r bitsLeft res; rfl
  | succ f ih =>
    intro r bitsLeft res
    by_cases hb : 0 < bitsLeft
    · rw [readBitsLoop_succ _ _ _ _ _ _ _ hb]
      simp only [readBitsPoints, if_pos hb, List.map_cons, List.getLastD_cons]
      exact ih _ _ _
    · have h0 : bitsLeft = 0 := by omega
      subst h0
      simp [readBitsLoop_done, readBitsPoints]

theorem pending_of_scratchBits_zero (cfg : BitConfig) (r : BitReader)
    (h : r.m_scratchBits = 0) : r.pending cfg = 0 := by
  simp [pending, h, Nat.mod_one]

theorem pending_of_lt (cfg : BitConfig) (r : BitReader) (h : r.m_scratchBits < cfg.wordBits) :
    r.pending cfg = r.m_scratch % 2 ^ r.m_scratchBits := by
  have := wordBits_le_scratchWidth cfg
  exact mod_mod_pow_of_le _ _ _ (by omega)

/-- The source after `align`, in every state: the invalid-data error is handed
to the source exactly when the pending bits are not all zero. -/
theorem align_wrapped (cfg : BitConfig) (r : BitReader) :
    (align cfg r).wrapped =
      if r.pending cfg ≠ 0 then r.wrapped.error ReaderError.InvalidData else r.wrapped := by
  rw [align_eq]
  by_cases h : r.m_scratchBits = 0
  · simp [h, pending_of_scratchBits_zero cfg r h]
  · rw [if_pos h]
    unfold pending
    split <;> rfl

theorem error_err_iff (s : Source) (h : s.err = ReaderError.NoError) (p : Prop) [Decidable p] :
    (if p then s.error ReaderError.InvalidData else s).err = ReaderError.InvalidData ↔ p := by
  by_cases hp : p
  · simp [hp, Source.error, h]
  · simp [hp, h]

theorem align_wrapped_err (cfg : BitConfig) (r : BitReader)
    (h : r.wrapped.err = ReaderError.NoError) :
    (align cfg r).wrapped.err = ReaderError.InvalidData ↔ r.pending cfg ≠ 0 := by
  rw [align_wrapped]
  exact error_err_iff r.wrapped h _

theorem readBits_exhausted_aux (cfg : BitConfig) (tw : Nat) (r : BitReader) (n : Nat)
    (herr : r.wrapped.err = ReaderError.NoError)
    (hn : r.m_scratchBits + cfg.wordBits * (r.wrapped.remaining / cfg.wordBytes) < n) :
    (readBits cfg tw r n).1.wrapped
      = { r.wrapped with
          readPos := r.wrapped.readPos + cfg.wordBytes * (r.wrapped.remaining / cfg.wordBytes),
          err := ReaderError.Exhausted } := by
  unfold readBits readBitsInternal
  rw [readBitsLoop_exhausted cfg tw n n r n 0 (le_refl _) herr (by rw [words_length]; exact hn),
    words_length]

theorem readBits_agree (cfg : BitConfig) (tw : Nat) (a b : BitReader) (n : Nat)
    (h : agree a b) :
    (readBits cfg tw a n).2 = (readBits cfg tw b n).2
      ∧ agree (readBits cfg tw a n).1 (readBits cfg tw b n).1 :=
  readBitsLoop_agree cfg tw n n a b n 0 h


theorem words_lt (cfg : BitConfig) (s : Source) : ∀ w ∈ s.words cfg, w < 2 ^ cfg.wordBits :=
  wordValues_lt cfg _ _

theorem words_advance (cfg : BitConfig) (s : Source) (w : Nat) (rest : List Nat)
    (h : s.words cfg = w :: rest) :
    Source.words cfg { s with readPos := s.readPos + cfg.wordBytes } = rest := by
  have hlen : 0 < (s.words cfg).length := by rw [h]; simp
  obtain ⟨w2, hw, _⟩ := readWord_ok cfg s (words_pos_of_lt cfg s hlen)
  rw [hw] at h
  exact (List.cons.inj h).2

theorem source_eq_of_fields (a b : Source) (h1 : a.data = b.data) (h2 : a.readPos = b.readPos)
    (h3 : a.readEndPos = b.readEndPos) (h4 : a.err = b.err) : a = b := by
  cases a; cases b; simp_all

theorem split_low (a x k : Nat) (ha : a < 2 ^ k) :
    (a + 2 ^ k * x) % 2 ^ (k + 1) = a + 2 ^ k * (x % 2)
      ∧ (a + 2 ^ k * x) / 2 ^ (k + 1) = x / 2 := by
  have hpos : 0 < 2 ^ k := Nat.pow_pos (by decide)
  have hx : x = 2 * (x / 2) + x % 2 := (Nat.div_add_mod x 2).symm
  have e : a + 2 ^ k * x = (a + 2 ^ k * (x % 2)) + 2 ^ (k + 1) * (x / 2) := by
    conv_lhs => rw [hx]
    rw [Nat.pow_succ]; ring
  have hlt : a + 2 ^ k * (x % 2) < 2 ^ (k + 1) := by
    have h2 : x % 2 < 2 := Nat.mod_lt _ (by decide)
    have h3 : 2 ^ k * (x % 2) ≤ 2 ^ k * 1 := Nat.mul_le_mul_left _ (by omega)
    rw [Nat.pow_succ]; omega
  constructor
  · rw [e, Nat.add_mul_mod_self_left, Nat.mod_eq_of_lt hlt]
  · rw [e, Nat.add_mul_div_left _ _ (Nat.pow_pos (by decide)), Nat.div_eq_of_lt hlt,
      Nat.zero_add]

theorem three_words (d W s : Nat) (hW : 0 < W) (hs : s < W) (h : W * d = s + (2 * W + 1)) :
    d = 3 ∧ s = W - 1 := by
  have h1 : 2 < d := by
    by_contra hc
    have : W * d ≤ W * 2 := Nat.mul_le_mul_left _ (by omega)
    omega
  have h2 : d < 4 := by
    by_contra hc
    have : W * 4 ≤ W * d := Nat.mul_le_mul_left _ (by omega)
    omega
  have h3 : d = 3 := by omega
  subst h3
  exact ⟨rfl, by omega⟩


/-- A reader is determined by the bits it has still to deliver, the number of
bits it holds and can still pull, and its source apart from the cursor. -/
theorem reader_eq_of_stream (cfg : BitConfig) (a b : BitReader)
    (ha : a.m_scratchBits < cfg.wordBits) (hb : b.m_scratchBits < cfg.wordBits)
    (hst : a.stream cfg = b.stream cfg)
    (hacc : a.m_scratchBits + cfg.wordBits * (a.wrapped.words cfg).length
      = b.m_scratchBits + cfg.wordBits * (b.wrapped.words cfg).length)
    (hpos : a.wrapped.readPos + cfg.wordBytes * (a.wrapped.words cfg).length
      = b.wrapped.readPos + cfg.wordBytes * (b.wrapped.words cfg).length)
    (hdata : a.wrapped.data = b.wrapped.data)
    (hend : a.wrapped.readEndPos = b.wrapped.readEndPos)
    (herr : a.wrapped.err = b.wrapped.err) : a = b := by
  have hW := wordBits_pos cfg
  have hlen : (a.wrapped.words cfg).length = (b.wrapped.words cfg).length := by
    have e1 := Nat.add_mul_div_left a.m_scratchBits (a.wrapped.words cfg).length hW
    have e2 := Nat.add_mul_div_left b.m_scratchBits (b.wrapped.words cfg).length hW
    rw [Nat.div_eq_of_lt ha, Nat.zero_add] at e1
    rw [Nat.div_eq_of_lt hb, Nat.zero_add] at e2
    rw [← e1, ← e2, hacc]
  rw [hlen] at hacc hpos
  have hsb : a.m_scratchBits = b.m_scratchBits := by omega
  have hp : a.wrapped.readPos = b.wrapped.readPos := by omega
  have hw : a.wrapped = b.wrapped := source_eq_of_fields _ _ hdata hp hend herr
  have hscr : a.m_scratch = b.m_scratch := by
    simp only [stream, hw, hsb] at hst
    omega
  cases a; cases b; simp_all


theorem error_fields (s : Source) (e : ReaderError) :
    (s.error e).data = s.data ∧ (s.error e).readPos = s.readPos
      ∧ (s.error e).readEndPos = s.readEndPos := by
  unfold Source.error
  split <;> exact ⟨rfl, rfl, rfl⟩

theorem error_err_cases (s : Source) (e : ReaderError) :
    (s.error e).err = s.err ∨ (s.err = ReaderError.NoError ∧ (s.error e).err = e) := by
  unfold Source.error
  split
  · rename_i h; exact Or.inr ⟨h, rfl⟩
  · exact Or.inl rfl

/-- The value of a word read is a word, served or not. -/
theorem readWord_lt (cfg : BitConfig) (s : Source) :
    (AdapterReader.readBytes cfg.toConfig cfg.wordBytes s).2 < 2 ^ cfg.wordBits := by
  rw [readBytes_eq_load]
  have h := load_lt cfg.networkEndianness (s.read cfg.wordBytes).2
  rw [read_length, pow_256_eq] at h
  exact h

/-- A refill in a state that satisfies the invariant loses and corrupts no bit:
the shifted word fits in two words, and the new scratch is the old one with the
word on top of its valid bits. -/
theorem refill_exact (cfg : BitConfig) (q : BitReader)
    (hsb : q.m_scratchBits < cfg.wordBits) (hs : q.m_scratch < 2 ^ q.m_scratchBits) :
    (AdapterReader.readBytes cfg.toConfig cfg.wordBytes q.wrapped).2 <<< q.m_scratchBits
        < 2 ^ (2 * cfg.wordBits)
      ∧ (q.refill cfg).m_scratch
        = q.m_scratch
          + (AdapterReader.readBytes cfg.toConfig cfg.wordBytes q.wrapped).2 <<< q.m_scratchBits
      ∧ (q.refill cfg).m_scratch % 2 ^ q.m_scratchBits = q.m_scratch
      ∧ (q.refill cfg).m_scratch >>> q.m_scratchBits
        = (AdapterReader.readBytes cfg.toConfig cfg.wordBytes q.wrapped).2
      ∧ (q.refill cfg).m_scratch < 2 ^ (q.refill cfg).m_scratchBits := by
  have hw := readWord_lt cfg q.wrapped
  have hsw := cfg.scratch_wide
  have hfit : q.m_scratchBits + cfg.wordBits ≤ cfg.scratchWidth := by
    unfold BitConfig.wordBits at *; omega
  have hval := refill_value q.m_scratch _ q.m_scratchBits cfg.wordBits cfg.scratchWidth
    hs hw hfit
  have hrm : (q.refill cfg).m_scratch = q.m_scratch + 2 ^ q.m_scratchBits
      * (AdapterReader.readBytes cfg.toConfig cfg.wordBytes q.wrapped).2 := hval
  have hrs : (q.refill cfg).m_scratchBits = q.m_scratchBits + cfg.wordBits := rfl
  rw [hrm, hrs]
  generalize (AdapterReader.readBytes cfg.toConfig cfg.wordBytes q.wrapped).2 = w at *
  have hpos : 0 < 2 ^ q.m_scratchBits := Nat.pow_pos (by decide)
  have hmul : 2 ^ q.m_scratchBits * (w + 1) ≤ 2 ^ q.m_scratchBits * 2 ^ cfg.wordBits :=
    Nat.mul_le_mul_left _ hw
  rw [Nat.mul_add, Nat.mul_one, ← Nat.pow_add] at hmul
  have hle : 2 ^ (q.m_scratchBits + cfg.wordBits) ≤ 2 ^ (2 * cfg.wordBits) :=
    Nat.pow_le_pow_right (by decide) (by omega)
  simp only [Nat.shiftLeft_eq, Nat.shiftRight_eq_div_pow]
  rw [Nat.mul_comm w]
  refine ⟨by omega, rfl, ?_, ?_, by omega⟩
  · rw [Nat.add_mul_mod_self_left, Nat.mod_eq_of_lt hs]
  · rw [Nat.add_mul_div_left _ _ hpos, Nat.div_eq_of_lt hs, Nat.zero_add]

/-- One iteration keeps the invariant: fewer than one word pending, and no bit
of the scratch set above the pending ones. -/
theorem step_invariant (cfg : BitConfig) (q : BitReader) (bits : Nat)
    (hbits : bits ≤ cfg.wordBits)
    (hsb : q.m_scratchBits < cfg.wordBits) (hs : q.m_scratch < 2 ^ q.m_scratchBits) :
    (q.afterRefill cfg bits).m_scratch < 2 ^ (q.afterRefill cfg bits).m_scratchBits
      ∧ bits ≤ (q.afterRefill cfg bits).m_scratchBits
      ∧ ((q.afterRefill cfg bits).consume bits).m_scratchBits < cfg.wordBits
      ∧ ((q.afterRefill cfg bits).consume bits).m_scratch
        < 2 ^ ((q.afterRefill cfg bits).consume bits).m_scratchBits := by
  have h1 : (q.afterRefill cfg bits).m_scratch < 2 ^ (q.afterRefill cfg bits).m_scratchBits := by
    unfold afterRefill
    split
    · exact (refill_exact cfg q hsb hs).2.2.2.2
    · exact hs
  have h2 := afterRefill_scratchBits cfg q bits
  have h3 : bits ≤ (q.afterRefill cfg bits).m_scratchBits := by
    rw [h2]; split <;> omega
  refine ⟨h1, h3, ?_, ?_⟩
  · simp only [consume, h2]; split <;> omega
  · simp only [consume, Nat.shiftRight_eq_div_pow]
    exact div_lt_pow_sub _ _ _ h1 h3

theorem readBitsLoop_invariant (cfg : BitConfig) (tw size fuel : Nat) :
    ∀ (r : BitReader) (bitsLeft res : Nat), r.m_scratchBits < cfg.wordBits →
      r.m_scratch < 2 ^ r.m_scratchBits →
      (readBitsLoop cfg tw size fuel r bitsLeft res).1.m_scratch
        < 2 ^ (readBitsLoop cfg tw size fuel r bitsLeft res).1.m_scratchBits := by
  induction fuel with
  | zero => intro r bitsLeft res _ hs; exact hs
  | succ f ih =>
    intro r bitsLeft res hsb hs
    by_cases hb : 0 < bitsLeft
    · rw [readBitsLoop_succ _ _ _ _ _ _ _ hb]
      obtain ⟨_, _, s3, s4⟩ := step_invariant cfg r (min bitsLeft cfg.wordBits)
        (Nat.min_le_right _ _) hsb hs
      exact ih _ _ _ s3 s4
    · have h0 : bitsLeft = 0 := by omega
      subst h0
      rw [readBitsLoop_done]
      exact hs

theorem readBits_invariant (cfg : BitConfig) (tw : Nat) (r : BitReader) (n : Nat)
    (hsb : r.m_scratchBits < cfg.wordBits) (hs : r.m_scratch < 2 ^ r.m_scratchBits) :
    (readBits cfg tw r n).1.m_scratch < 2 ^ (readBits cfg tw r n).1.m_scratchBits :=
  readBitsLoop_invariant cfg tw n n r n 0 hsb hs

theorem readBytes_invariant (cfg : BitConfig) (size : Nat) (r : BitReader)
    (hsb : r.m_scratchBits < cfg.wordBits) (hs : r.m_scratch < 2 ^ r.m_scratchBits) :
    (readBytes cfg size r).1.m_scratch < 2 ^ (readBytes cfg size r).1.m_scratchBits := by
  unfold readBytes
  split
  · exact hs
  · exact readBits_invariant cfg _ r _ hsb hs

theorem readBufferLoop_invariant (cfg : BitConfig) (size count : Nat) :
    ∀ (r : BitReader), r.m_scratchBits < cfg.wordBits → r.m_scratch < 2 ^ r.m_scratchBits →
      (readBufferLoop cfg size count r).1.m_scratch
        < 2 ^ (readBufferLoop cfg size count r).1.m_scratchBits := by
  induction count with
  | zero => intro r _ hs; exact hs
  | succ k ih =>
    intro r hsb hs
    rw [readBufferLoop]
    exact ih _ (readBits_scratchBits_lt cfg _ r _ hsb) (readBits_invariant cfg _ r _ hsb hs)

theorem readBuffer_invariant (cfg : BitConfig) (size count : Nat) (r : BitReader)
    (hsb : r.m_scratchBits < cfg.wordBits) (hs : r.m_scratch < 2 ^ r.m_scratchBits) :
    (readBuffer cfg size count r).1.m_scratch
      < 2 ^ (readBuffer cfg size count r).1.m_scratchBits := by
  unfold readBuffer
  split
  · exact hs
  · exact readBufferLoop_invariant cfg size count r hsb hs

/-- With no stray bit in the scratch, `align` leaves the scratch empty. -/
theorem align_scratch (cfg : BitConfig) (r : BitReader)
    (hs : r.m_scratch < 2 ^ r.m_scratchBits) : (align cfg r).m_scratch = 0 := by
  rw [align_eq]
  by_cases h : r.m_scratchBits = 0
  · rw [if_neg (by simpa using h)]
    rw [h] at hs
    simpa using hs
  · rw [if_pos h]
    split <;> exact Nat.div_eq_of_lt hs

theorem run_invariant (cfg : BitConfig) (r : BitReader) (op : Op)
    (hsb : r.m_scratchBits < cfg.wordBits) (hs : r.m_scratch < 2 ^ r.m_scratchBits) :
    (r.run cfg op).m_scratch < 2 ^ (r.run cfg op).m_scratchBits := by
  cases op with
  | readBytes size => exact readBytes_invariant cfg size r hsb hs
  | readBuffer size count => exact readBuffer_invariant cfg size count r hsb hs
  | readBits tw bitsCount => exact readBits_invariant cfg tw r bitsCount hsb hs
  | align => simp only [run, align_scratch cfg r hs]; exact Nat.pow_pos (by decide)
  | currentReadPos pos =>
    simp only [run, currentReadPos, align_scratch cfg r hs]; exact Nat.pow_pos (by decide)

theorem runAll_invariant (cfg : BitConfig) (ops : List Op) :
    ∀ (r : BitReader), r.m_scratchBits < cfg.wordBits → r.m_scratch < 2 ^ r.m_scratchBits →
      (r.runAll cfg ops).m_scratchBits < cfg.wordBits
        ∧ (r.runAll cfg ops).m_scratch < 2 ^ (r.runAll cfg ops).m_scratchBits := by
  induction ops with
  | nil => intro r hsb hs; exact ⟨hsb, hs⟩
  | cons op ops ih =>
    intro r hsb hs
    simp only [runAll, List.foldl_cons]
    exact ih _ (run_scratchBits_lt cfg r op hsb) (run_invariant cfg r op hsb hs)

/-- Every iteration of the loop starts from a reader that satisfies the
invariant, when the loop itself does. -/
theorem readBitsPoints_heads (cfg : BitConfig) (fuel : Nat) :
    ∀ (r : BitReader) (bitsLeft : Nat), r.m_scratchBits < cfg.wordBits →
      r.m_scratch < 2 ^ r.m_scratchBits →
      ∀ pt ∈ readBitsPoints cfg fuel r bitsLeft,
        ∃ q : BitReader, q.m_scratchBits < cfg.wordBits ∧ q.m_scratch < 2 ^ q.m_scratchBits
          ∧ pt.2.1 ≤ cfg.wordBits
          ∧ pt.1 = q.afterRefill cfg pt.2.1 ∧ pt.2.2 = pt.1.consume pt.2.1 := by
  induction fuel with
  | zero => intro r bitsLeft _ _ pt hpt; simp [readBitsPoints] at hpt
  | succ f ih =>
    intro r bitsLeft hsb hs pt hpt
    by_cases hb : 0 < bitsLeft
    · simp only [readBitsPoints, if_pos hb, List.mem_cons] at hpt
      rcases hpt with hpt | hpt
      · subst hpt
        exact ⟨r, hsb, hs, Nat.min_le_right _ _, rfl, rfl⟩
      · obtain ⟨_, _, s3, s4⟩ := step_invariant cfg r (min bitsLeft cfg.wordBits)
          (Nat.min_le_right _ _) hsb hs
        exact ih _ _ s3 s4 pt hpt
    · simp [readBitsPoints, hb] at hpt


theorem readBitsRefills_succ (cfg : BitConfig) (fuel : Nat) (r : BitReader) (bitsLeft : Nat)
    (h : 0 < bitsLeft) :
    readBitsRefills cfg (fuel + 1) r bitsLeft =
      (if r.m_scratchBits < min bitsLeft cfg.wordBits then 1 else 0) +
        readBitsRefills cfg fuel
          ((r.afterRefill cfg (min bitsLeft cfg.wordBits)).consume (min bitsLeft cfg.wordBits))
          (bitsLeft - min bitsLeft cfg.wordBits) := by
  simp [readBitsRefills, h]

theorem readBitsRefills_done (cfg : BitConfig) (fuel : Nat) (r : BitReader) :
    readBitsRefills cfg fuel r 0 = 0 := by
  cases fuel <;> simp [readBitsRefills]

/-- Bit accounting of the loop, whatever the source holds: the bits delivered
and those left pending are the bits that were pending plus one word for every
refill. -/
theorem readBitsLoop_refills (cfg : BitConfig) (tw size fuel : Nat) :
    ∀ (r : BitReader) (bitsLeft res : Nat), bitsLeft ≤ fuel →
      (readBitsLoop cfg tw size fuel r bitsLeft res).1.m_scratchBits + bitsLeft
        = r.m_scratchBits + cfg.wordBits * readBitsRefills cfg fuel r bitsLeft := by
  induction fuel with
  | zero =>
    intro r bitsLeft res hf
    have h0 : bitsLeft = 0 := by omega
    subst h0
    simp [readBitsLoop, readBitsRefills]
  | succ f ih =>
    intro r bitsLeft res hf
    by_cases hb : 0 < bitsLeft
    · have hW := wordBits_pos cfg
      rw [readBitsLoop_succ _ _ _ _ _ _ _ hb, readBitsRefills_succ _ _ _ _ hb]
      have hbl : min bitsLeft cfg.wordBits ≤ bitsLeft := Nat.min_le_left _ _
      have hbw : min bitsLeft cfg.wordBits ≤ cfg.wordBits := Nat.min_le_right _ _
      have hbp : 0 < min bitsLeft cfg.wordBits := by omega
      generalize min bitsLeft cfg.wordBits = bits at *
      have key := ih ((r.afterRefill cfg bits).consume bits) (bitsLeft - bits)
        ((res ||| ((((r.afterRefill cfg bits).m_scratch &&& ((1 <<< bits) - 1)) % 2 ^ tw)
          <<< (size - bitsLeft)) % 2 ^ tw) % 2 ^ tw) (by omega)
      have hsb : ((r.afterRefill cfg bits).consume bits).m_scratchBits
          = (if r.m_scratchBits < bits then r.m_scratchBits + cfg.wordBits
              else r.m_scratchBits) - bits := by
        simp only [consume, afterRefill_scratchBits]
      rw [hsb] at key
      rw [Nat.mul_add]
      by_cases hlt : r.m_scratchBits < bits
      · rw [if_pos hlt] at key ⊢
        omega
      · rw [if_neg hlt] at key ⊢
        omega
    · have h0 : bitsLeft = 0 := by omega
      subst h0
      simp [readBitsLoop_done, readBitsRefills_done]

theorem ceil_unique (W k m t : Nat) (hW : 0 < W) (ht : t < W) (h : W * k = m + t) :
    k = (m + W - 1) / W := by
  have e : m + W - 1 = (W - 1 - t) + W * k := by omega
  rw [e, Nat.add_mul_div_left _ _ hW, Nat.div_eq_of_lt (by omega), Nat.zero_add]

/-- The number of words asked of the wrapped reader, in every state that holds
fewer than one word: none when the scratch holds the request, else the number
of words that cover the missing bits. -/
theorem readBitsRefills_eq (cfg : BitConfig) (r : BitReader) (n : Nat)
    (hsb : r.m_scratchBits < cfg.wordBits) :
    readBitsRefills cfg n r n = (n - r.m_scratchBits + cfg.wordBits - 1) / cfg.wordBits := by
  have hW := wordBits_pos cfg
  have hacc := readBitsLoop_refills cfg 0 n n r n 0 (le_refl _)
  have hlt := readBitsLoop_scratchBits_lt cfg 0 n n r n 0 hsb
  generalize (readBitsLoop cfg 0 n n r n 0).1.m_scratchBits = sb2 at *
  generalize readBitsRefills cfg n r n = k at *
  by_cases hn : n ≤ r.m_scratchBits
  · have hk : k = 0 := by
      by_contra hc
      have : cfg.wordBits * 1 ≤ cfg.wordBits * k := Nat.mul_le_mul_left _ (by omega)
      omega
    rw [hk, show n - r.m_scratchBits = 0 by omega, Nat.zero_add,
      Nat.div_eq_of_lt (by omega)]
  · exact ceil_unique cfg.wordBits k (n - r.m_scratchBits) sb2 hW hlt (by omega)

/-- When the scratch and the whole words left can supply the request, every
refill is served: the source ends with its cursor moved by one word for each
refill and is otherwise as it was. -/
theorem readBitsLoop_served (cfg : BitConfig) (tw size fuel : Nat) :
    ∀ (r : BitReader) (bitsLeft res : Nat), bitsLeft ≤ fuel →
      bitsLeft ≤ r.m_scratchBits + cfg.wordBits * (r.wrapped.words cfg).length →
      (readBitsLoop cfg tw size fuel r bitsLeft res).1.wrapped
        = { r.wrapped with
            readPos := r.wrapped.readPos
              + cfg.wordBytes * readBitsRefills cfg fuel r bitsLeft } := by
  induction fuel with
  | zero => intro r bitsLeft res _ _; rfl
  | succ f ih =>
    intro r bitsLeft res hf hav
    by_cases hb : 0 < bitsLeft
    · have hW := wordBits_pos cfg
      rw [readBitsLoop_succ _ _ _ _ _ _ _ hb, readBitsRefills_succ _ _ _ _ hb]
      have hbl : min bitsLeft cfg.wordBits ≤ bitsLeft := Nat.min_le_left _ _
      have hbw : min bitsLeft cfg.wordBits ≤ cfg.wordBits := Nat.min_le_right _ _
      have hbp : 0 < min bitsLeft cfg.wordBits := by omega
      generalize min bitsLeft cfg.wordBits = bits at *
      by_cases hlt : r.m_scratchBits < bits
      · have hlen : 0 < (r.wrapped.words cfg).length := by
          by_contra hc
          have h0 : (r.wrapped.words cfg).length = 0 := by omega
          rw [h0] at hav
          omega
        obtain ⟨w, hw, hrd⟩ := readWord_ok cfg r.wrapped (words_pos_of_lt cfg _ hlen)
        have hr1 : (r.afterRefill cfg bits).consume bits =
            { wrapped := { r.wrapped with readPos := r.wrapped.readPos + cfg.wordBytes },
              m_scratch := ((r.m_scratch ||| (w <<< r.m_scratchBits)) % 2 ^ cfg.scratchWidth)
                >>> bits,
              m_scratchBits := r.m_scratchBits + cfg.wordBits - bits } := by
          simp only [afterRefill, if_pos hlt, refill, consume, hrd]
        rw [hr1, ih _ _ _ (by omega)
          (by simp only; rw [hw, List.length_cons, Nat.mul_succ] at hav; omega)]
        rw [if_pos hlt, Nat.mul_add, Nat.mul_one]
        simp only [Source.mk.injEq, true_and, and_true]
        omega
      · have hr1 : (r.afterRefill cfg bits).consume bits = r.consume bits := by
          rw [afterRefill_of_le cfg r bits (by omega)]
        rw [hr1, ih _ _ _ (by omega) (by simp only [consume]; omega), if_neg hlt, Nat.zero_add]
        rfl
    · have h0 : bitsLeft = 0 := by omega
      subst h0
      simp [readBitsLoop_done, readBitsRefills_done]

theorem readBitsPoints_succ (cfg : BitConfig) (fuel : Nat) (r : BitReader) (bitsLeft : Nat)
    (h : 0 < bitsLeft) :
    readBitsPoints cfg (fuel + 1) r bitsLeft =
      (r.afterRefill cfg (min bitsLeft cfg.wordBits), min bitsLeft cfg.wordBits,
          (r.afterRefill cfg (min bitsLeft cfg.wordBits)).consume (min bitsLeft cfg.wordBits)) ::
        readBitsPoints cfg fuel
          ((r.afterRefill cfg (min bitsLeft cfg.wordBits)).consume (min bitsLeft cfg.wordBits))
          (bitsLeft - min bitsLeft cfg.wordBits) := by
  simp [readBitsPoints, h]

theorem readBitsPoints_done (cfg : BitConfig) (fuel : Nat) (r : BitReader) :
    readBitsPoints cfg fuel r 0 = [] := by
  cases fuel <;> simp [readBitsPoints]

theorem ceil_step (b W : Nat) (hW : 0 < W) (hb : 0 < b) :
    1 + (b - min b W + W - 1) / W = (b + W - 1) / W := by
  by_cases h : b ≤ W
  · rw [Nat.min_eq_left h, Nat.sub_self, Nat.zero_add, Nat.div_eq_of_lt (by omega)]
    have e : b + W - 1 = (b - 1) + W * 1 := by omega
    rw [e, Nat.add_mul_div_left _ _ hW, Nat.div_eq_of_lt (by omega)]
  · rw [Nat.min_eq_right (by omega)]
    have e : b + W - 1 = (b - W + W - 1) + W * 1 := by omega
    rw [e, Nat.add_mul_div_left _ _ hW, Nat.add_comm]

/-- The loop runs the number of iterations that cover `bitsLeft` with steps of
at most one word, and each iteration takes between one bit and one word. -/
theorem readBitsPoints_length (cfg : BitConfig) (fuel : Nat) :
    ∀ (r : BitReader) (bitsLeft : Nat), bitsLeft ≤ fuel →
      (readBitsPoints cfg fuel r bitsLeft).length
          = (bitsLeft + cfg.wordBits - 1) / cfg.wordBits
        ∧ ((readBitsPoints cfg fuel r bitsLeft).map (fun pt => pt.2.1)).sum = bitsLeft
        ∧ ∀ pt ∈ readBitsPoints cfg fuel r bitsLeft, 1 ≤ pt.2.1 ∧ pt.2.1 ≤ cfg.wordBits := by
  induction fuel with
  | zero =>
    intro r bitsLeft hf
    have hW := wordBits_pos cfg
    have h0 : bitsLeft = 0 := by omega
    subst h0
    simp only [readBitsPoints, List.length_nil, List.map_nil, List.sum_nil, Nat.zero_add]
    exact ⟨(Nat.div_eq_of_lt (by omega)).symm, trivial, fun _ h => by simp at h⟩
  | succ f ih =>
    intro r bitsLeft hf
    have hW := wordBits_pos cfg
    by_cases hb : 0 < bitsLeft
    · rw [readBitsPoints_succ _ _ _ _ hb]
      have hbl : min bitsLeft cfg.wordBits ≤ bitsLeft := Nat.min_le_left _ _
      have hbw : min bitsLeft cfg.wordBits ≤ cfg.wordBits := Nat.min_le_right _ _
      have hbp : 0 < min bitsLeft cfg.wordBits := by omega
      obtain ⟨i1, i2, i3⟩ := ih
        ((r.afterRefill cfg (min bitsLeft cfg.wordBits)).consume (min bitsLeft cfg.wordBits))
        (bitsLeft - min bitsLeft cfg.wordBits) (by omega)
      refine ⟨?_, ?_, ?_⟩
      · rw [List.length_cons, i1, Nat.add_comm _ 1, ceil_step _ _ hW hb]
      · simp only [List.map_cons, List.sum_cons, i2]
        omega
      · intro pt hpt
        rcases List.mem_cons.mp hpt with h | h
        · subst h
          exact ⟨hbp, hbw⟩
        · exact i3 pt h
    · have h0 : bitsLeft = 0 := by omega
      subst h0
      rw [readBitsPoints_done]
      simp only [List.length_nil, List.map_nil, List.sum_nil, Nat.zero_add]
      exact ⟨(Nat.div_eq_of_lt (by omega)).symm, trivial, fun _ h => by simp at h⟩

theorem readBitsPoints_fuel (cfg : BitConfig) (fuel : Nat) :
    ∀ (extra : Nat) (r : BitReader) (bitsLeft : Nat), bitsLeft ≤ fuel →
      readBitsPoints cfg (fuel + extra) r bitsLeft = readBitsPoints cfg fuel r bitsLeft := by
  induction fuel with
  | zero =>
    intro extra r bitsLeft h
    have h0 : bitsLeft = 0 := by omega
    subst h0
    rw [readBitsPoints_done, readBitsPoints_done]
  | succ f ih =>
    intro extra r bitsLeft h
    by_cases hb : 0 < bitsLeft
    · have hW := wordBits_pos cfg
      rw [show f + 1 + extra = (f + extra) + 1 by omega, readBitsPoints_succ _ _ _ _ hb,
        readBitsPoints_succ _ _ _ _ hb, ih _ _ _ (by omega)]
    · have h0 : bitsLeft = 0 := by omega
      subst h0
      rw [readBitsPoints_done, readBitsPoints_done]


theorem errAfterReads_refl (a : ReaderError) : errAfterReads a a := Or.inl rfl

theorem errAfterReads_trans (a b c : ReaderError) (h1 : errAfterReads a b)
    (h2 : errAfterReads b c) : errAfterReads a c := by
  unfold errAfterReads at *
  rcases h1 with h1 | ⟨h1, h1b⟩
  · rw [h1] at h2; exact h2
  · rcases h2 with h2 | ⟨h2, _⟩
    · exact Or.inr ⟨h1, by rw [h2, h1b]⟩
    · rw [h1b] at h2; cases h2

theorem read_err (s : Source) (n : Nat) : errAfterReads s.err (s.read n).1.err := by
  unfold Source.read
  split
  · exact Or.inl rfl
  · exact error_err_cases s ReaderError.Exhausted

theorem byteReadBytes_err (cfg : Config) (size : Nat) (s : Source) :
    errAfterReads s.err (AdapterReader.readBytes cfg size s).1.err := by
  rw [readBytes_eq_load]
  exact read_err s size

theorem byteReadBuffer_err (cfg : Config) (size count : Nat) (s : Source) :
    errAfterReads s.err (AdapterReader.readBuffer cfg size count s).1.err := by
  unfold AdapterReader.readBuffer
  rw [directRead_eq]
  exact read_err s _

theorem step_err (cfg : BitConfig) (r : BitReader) (bits : Nat) :
    errAfterReads r.wrapped.err ((r.afterRefill cfg bits).consume bits).wrapped.err := by
  unfold afterRefill
  split
  · exact byteReadBytes_err cfg.toConfig cfg.wordBytes r.wrapped
  · exact errAfterReads_refl _

theorem readBitsLoop_err (cfg : BitConfig) (tw size fuel : Nat) :
    ∀ (r : BitReader) (bitsLeft res : Nat),
      errAfterReads r.wrapped.err (readBitsLoop cfg tw size fuel r bitsLeft res).1.wrapped.err := by
  induction fuel with
  | zero => intro r bitsLeft res; exact errAfterReads_refl _
  | succ f ih =>
    intro r bitsLeft res
    by_cases hb : 0 < bitsLeft
    · rw [readBitsLoop_succ _ _ _ _ _ _ _ hb]
      exact errAfterReads_trans _ _ _ (step_err cfg r _) (ih _ _ _)
    · have h0 : bitsLeft = 0 := by omega
      subst h0
      rw [readBitsLoop_done]
      exact errAfterReads_refl _

theorem readBits_err (cfg : BitConfig) (tw : Nat) (r : BitReader) (n : Nat) :
    errAfterReads r.wrapped.err (readBits cfg tw r n).1.wrapped.err :=
  readBitsLoop_err cfg tw n n r n 0

theorem readBytes_err (cfg : BitConfig) (size : Nat) (r : BitReader) :
    errAfterReads r.wrapped.err (readBytes cfg size r).1.wrapped.err := by
  unfold readBytes
  split
  · exact byteReadBytes_err cfg.toConfig size r.wrapped
  · exact readBits_err cfg _ r _

theorem readBufferLoop_err (cfg : BitConfig) (size count : Nat) :
    ∀ (r : BitReader),
      errAfterReads r.wrapped.err (readBufferLoop cfg size count r).1.wrapped.err := by
  induction count with
  | zero => intro r; exact errAfterReads_refl _
  | succ k ih =>
    intro r
    rw [readBufferLoop]
    exact errAfterReads_trans _ _ _ (readBits_err cfg _ r _) (ih _)

theorem readBuffer_err (cfg : BitConfig) (size count : Nat) (r : BitReader) :
    errAfterReads r.wrapped.err (readBuffer cfg size count r).1.wrapped.err := by
  unfold readBuffer
  split
  · exact byteReadBuffer_err cfg.toConfig size count r.wrapped
  · exact readBufferLoop_err cfg size count r

/-- The only thing `align` does to the recorded error is to record invalid data
where no error was recorded. -/
theorem align_err (cfg : BitConfig) (r : BitReader) :
    (align cfg r).wrapped.err = r.wrapped.err
      ∨ (r.wrapped.err = ReaderError.NoError
        ∧ (align cfg r).wrapped.err = ReaderError.InvalidData) := by
  rw [align_wrapped]
  split
  · exact error_err_cases r.wrapped ReaderError.InvalidData
  · exact Or.inl rfl

/-- What one call of the bit-packing reader can do to the recorded error. -/
theorem run_err (cfg : BitConfig) (r : BitReader) (op : Op) :
    errAfterReads r.wrapped.err (r.run cfg op).wrapped.err
      ∨ (r.wrapped.err = ReaderError.NoError
        ∧ (op = Op.align ∨ ∃ pos, op = Op.currentReadPos pos)
        ∧ (r.run cfg op).wrapped.err = ReaderError.InvalidData) := by
  cases op with
  | readBytes size => exact Or.inl (readBytes_err cfg size r)
  | readBuffer size count => exact Or.inl (readBuffer_err cfg size count r)
  | readBits tw bitsCount => exact Or.inl (readBits_err cfg tw r bitsCount)
  | align =>
    rcases align_err cfg r with h | ⟨h1, h2⟩
    · exact Or.inl (Or.inl h)
    · exact Or.inr ⟨h1, Or.inl rfl, h2⟩
  | currentReadPos pos =>
    rcases align_err cfg r with h | ⟨h1, h2⟩
    · exact Or.inl (Or.inl h)
    · exact Or.inr ⟨h1, Or.inr ⟨pos, rfl⟩, h2⟩

theorem run_sticky (cfg : BitConfig) (r : BitReader) (op : Op)
    (h : r.wrapped.err ≠ ReaderError.NoError) :
    (r.run cfg op).wrapped.err = r.wrapped.err := by
  rcases run_err cfg r op with (h1 | ⟨h1, _⟩) | ⟨h1, _⟩
  · exact h1
  · exact absurd h1 h
  · exact absurd h1 h

theorem runAll_sticky (cfg : BitConfig) (ops : List Op) :
    ∀ (r : BitReader), r.wrapped.err ≠ ReaderError.NoError →
      (r.runAll cfg ops).wrapped.err = r.wrapped.err := by
  induction ops with
  | nil => intro r _; rfl
  | cons op ops ih =>
    intro r h
    simp only [runAll, List.foldl_cons]
    have h1 := run_sticky cfg r op h
    have h2 := ih (r.run cfg op) (by rw [h1]; exact h)
    simp only [runAll] at h2
    rw [h2, h1]

theorem runAll_append (cfg : BitConfig) (r : BitReader) (ops1 ops2 : List Op) :
    r.runAll cfg (ops1 ++ ops2) = (r.runAll cfg ops1).runAll cfg ops2 := by
  simp [runAll, List.foldl_append]

end BitReader

theorem byteRun_err (cfg : Config) (s : Source) (op : ByteOp) :
    errAfterReads s.err (AdapterReader.run cfg s op).err := by
  cases op with
  | readBytes size => exact BitReader.byteReadBytes_err cfg size s
  | readBuffer size count => exact BitReader.byteReadBuffer_err cfg size count s
  | align => exact Or.inl rfl
  | currentReadPos pos => exact Or.inl rfl

theorem byteRun_sticky (cfg : Config) (s : Source) (op : ByteOp)
    (h : s.err ≠ ReaderError.NoError) : (AdapterReader.run cfg s op).err = s.err := by
  rcases byteRun_err cfg s op with h1 | ⟨h1, _⟩
  · exact h1
  · exact absurd h1 h

theorem byteRunAll_sticky (cfg : Config) (ops : List ByteOp) :
    ∀ (s : Source), s.err ≠ ReaderError.NoError →
      (AdapterReader.runAll cfg s ops).err = s.err := by
  induction ops with
  | nil => intro s _; rfl
  | cons op ops ih =>
    intro s h
    simp only [AdapterReader.runAll, List.foldl_cons]
    have h1 := byteRun_sticky cfg s op h
    have h2 := ih (AdapterReader.run cfg s op) (by rw [h1]; exact h)
    simp only [AdapterReader.runAll] at h2
    rw [h2, h1]

theorem byteRunAll_append (cfg : Config) (s : Source) (ops1 ops2 : List ByteOp) :
    AdapterReader.runAll cfg s (ops1 ++ ops2)
      = AdapterReader.runAll cfg (AdapterReader.runAll cfg s ops1) ops2 := by
  simp [AdapterReader.runAll, List.foldl_append]

namespace BitReader

theorem load_of_length_one (o1 o2 : Endianness) (bs : List Byte) (h : bs.length = 1) :
    load o1 bs = load o2 bs := by
  obtain ⟨b, rfl⟩ := List.length_eq_one.mp h
  cases o1 <;> cases o2 <;> rfl

theorem fromLE_take_mod (bs : List Byte) (k : Nat) :
    fromLE bs % 256 ^ k = fromLE (bs.take k) := by
  induction k generalizing bs with
  | zero => simp [fromLE, Nat.mod_one]
  | succ k ih =>
    cases bs with
    | nil => simp [fromLE]
    | cons b bs =>
      have hb := b.isLt
      simp only [List.take_succ_cons, fromLE, ← ih bs]
      rw [Nat.pow_succ, Nat.mul_comm (256 ^ k) 256, Nat.mod_mul, Nat.add_mul_mod_self_left,
        Nat.mod_eq_of_lt hb, Nat.add_mul_div_left _ _ (by decide), Nat.div_eq_of_lt hb,
        Nat.zero_add]

theorem streamNat_wordValues_take (cfg : BitConfig) (hW : cfg.wordBytes = 1) (k : Nat) :
    ∀ (bs : List Byte), streamNat cfg.wordBits (wordValues cfg k bs) = fromLE (bs.take k) := by
  have h8 : cfg.wordBits = 8 := by unfold BitConfig.wordBits; omega
  induction k with
  | zero => intro bs; rfl
  | succ k ih =>
    intro bs
    cases bs with
    | nil =>
      simp only [wordValues, streamNat, List.take_nil, List.drop_nil, ih, fromLE]
      cases cfg.networkEndianness <;> simp [load, fromLE]
    | cons b bs =>
      have ih8 := ih bs
      rw [h8] at ih8
      simp only [wordValues, streamNat, hW, List.take_succ_cons, List.take_zero,
        List.drop_succ_cons, List.drop_zero, fromLE, h8, ih8]
      cases cfg.networkEndianness <;> simp [load, fromLE]

/-- With one-byte words the bits still to be delivered are the pending bits
followed by the valid bytes from the cursor on, least significant bit first,
whatever the byte orders. -/
theorem stream_bytes (cfg : BitConfig) (hW : cfg.wordBytes = 1) (r : BitReader) :
    r.stream cfg = r.m_scratch + 2 ^ r.m_scratchBits
      * fromLE ((r.wrapped.data.drop r.wrapped.readPos).take r.wrapped.remaining) := by
  unfold stream Source.words
  rw [streamNat_wordValues_take cfg hW, hW, Nat.div_one]

theorem words_length_bytes (cfg : BitConfig) (hW : cfg.wordBytes = 1) (s : Source) :
    (s.words cfg).length = s.remaining := by
  rw [words_length, hW, Nat.div_one]

theorem mod_add_mul_congr (a k x y M : Nat) (h : x % M = y % M) :
    (a + k * x) % M = (a + k * y) % M := by
  rw [Nat.add_mod, Nat.mul_mod, h, ← Nat.mul_mod, ← Nat.add_mod]

/-- The value `readBits` delivers for whole bytes over one-byte words, in terms
of the raw bytes of the source. -/
theorem readBits_bytes_value (cfg : BitConfig) (hW : cfg.wordBytes = 1) (tw size : Nat)
    (r : BitReader) (hs : r.m_scratch < 2 ^ r.m_scratchBits) (htw : 8 * size ≤ tw)
    (hsb : r.m_scratchBits < 8) (hdata : size ≤ r.wrapped.remaining) :
    (readBits cfg tw r (8 * size)).2
      = (r.m_scratch + 2 ^ r.m_scratchBits
          * fromLE ((r.wrapped.data.drop r.wrapped.readPos).take size)) % 2 ^ (8 * size) := by
  have h8 : cfg.wordBits = 8 := by unfold BitConfig.wordBits; omega
  have hav : 8 * size ≤ r.m_scratchBits + cfg.wordBits * (r.wrapped.words cfg).length := by
    rw [h8, words_length_bytes cfg hW]; omega
  rw [(readBits_stream cfg tw r (8 * size) hs hav).1, mod_mod_pow_of_le _ _ _ htw,
    stream_bytes cfg hW]
  apply mod_add_mul_congr
  have e1 := fromLE_take_mod ((r.wrapped.data.drop r.wrapped.readPos).take r.wrapped.remaining) size
  have e2 := fromLE_take_mod ((r.wrapped.data.drop r.wrapped.readPos).take size) size
  rw [List.take_take, Nat.min_eq_left hdata] at e1
  rw [List.take_take, Nat.min_self] at e2
  rw [← pow_256_eq, e1, e2]

theorem refill_withOrder (cfg : BitConfig) (hW : cfg.wordBytes = 1) (net sys : Endianness)
    (r : BitReader) : r.refill (cfg.withOrder net sys) = r.refill cfg := by
  have hv : (AdapterReader.readBytes (cfg.withOrder net sys).toConfig
        (cfg.withOrder net sys).wordBytes r.wrapped)
      = (AdapterReader.readBytes cfg.toConfig cfg.wordBytes r.wrapped) := by
    rw [readBytes_eq_load, readBytes_eq_load]
    have hl : (r.wrapped.read cfg.wordBytes).2.length = 1 := by rw [read_length, hW]
    show ((r.wrapped.read cfg.wordBytes).1, load net (r.wrapped.read cfg.wordBytes).2) = _
    rw [load_of_length_one net cfg.networkEndianness _ hl]
  unfold refill
  rw [hv]
  rfl

theorem readBitsLoop_withOrder (cfg : BitConfig) (hW : cfg.wordBytes = 1)
    (net sys : Endianness) (tw size fuel : Nat) :
    ∀ (r : BitReader) (bitsLeft res : Nat),
      readBitsLoop (cfg.withOrder net sys) tw size fuel r bitsLeft res
        = readBitsLoop cfg tw size fuel r bitsLeft res := by
  induction fuel with
  | zero => intro r bitsLeft res; rfl
  | succ f ih =>
    intro r bitsLeft res
    have ha : ∀ bits, r.afterRefill (cfg.withOrder net sys) bits = r.afterRefill cfg bits := by
      intro bits
      unfold afterRefill
      rw [refill_withOrder cfg hW]
    have hwb : (cfg.withOrder net sys).wordBits = cfg.wordBits := rfl
    simp only [readBitsLoop, hwb, ha, ih]

end BitReader

namespace BitReader

theorem ceil_zero (W : Nat) (hW : 0 < W) : (0 + W - 1) / W = 0 := by
  rw [Nat.zero_add]
  exact Nat.div_eq_of_lt (by omega)

theorem ceil_pos (b W : Nat) (hW : 0 < W) (h : 0 < (b + W - 1) / W) : 0 < b := by
  by_contra hc
  have h0 : b = 0 := by omega
  rw [h0, ceil_zero W hW] at h
  omega

/-- The loop is its body iterated: with enough fuel it returns the reader and
the result of the loop state reached by running the body `ceil(bitsLeft / W)`
times, and in that state no bits are left. -/
theorem readBitsLoop_eq_iterate (cfg : BitConfig) (tw size fuel : Nat) :
    ∀ (st : BitReader × Nat × Nat), st.2.1 ≤ fuel →
      readBitsLoop cfg tw size fuel st.1 st.2.1 st.2.2
          = ((Nat.iterate (loopBody cfg tw size)
                ((st.2.1 + cfg.wordBits - 1) / cfg.wordBits) st).1,
              (Nat.iterate (loopBody cfg tw size)
                ((st.2.1 + cfg.wordBits - 1) / cfg.wordBits) st).2.2)
        ∧ (Nat.iterate (loopBody cfg tw size)
            ((st.2.1 + cfg.wordBits - 1) / cfg.wordBits) st).2.1 = 0 := by
  have hW := wordBits_pos cfg
  induction fuel with
  | zero =>
    intro st hf
    obtain ⟨r, bl, res⟩ := st
    have h0 : bl = 0 := by simpa using hf
    subst h0
    simp only [ceil_zero _ hW, Function.iterate_zero, id_eq, readBitsLoop, and_self]
  | succ f ih =>
    intro st hf
    obtain ⟨r, bl, res⟩ := st
    simp only at hf ⊢
    by_cases hb : 0 < bl
    · have hbl : min bl cfg.wordBits ≤ bl := Nat.min_le_left _ _
      have hbp : 0 < min bl cfg.wordBits := by omega
      rw [readBitsLoop_succ _ _ _ _ _ _ _ hb, ← ceil_step bl cfg.wordBits hW hb,
        Nat.add_comm 1, Function.iterate_succ_apply]
      exact ih (loopBody cfg tw size (r, bl, res)) (by simp only [loopBody]; omega)
    · have h0 : bl = 0 := by omega
      subst h0
      simp only [ceil_zero _ hW, Function.iterate_zero, id_eq, readBitsLoop_done, and_self]

/-- Before each of the first `ceil(bitsLeft / W)` iterations the test of the loop
holds: bits are left. -/
theorem iterate_bitsLeft_pos (cfg : BitConfig) (tw size : Nat) (k : Nat) :
    ∀ (st : BitReader × Nat × Nat), k < (st.2.1 + cfg.wordBits - 1) / cfg.wordBits →
      0 < (Nat.iterate (loopBody cfg tw size) k st).2.1 := by
  have hW := wordBits_pos cfg
  induction k with
  | zero =>
    intro st h
    exact ceil_pos st.2.1 _ hW (by omega)
  | succ k ih =>
    intro st h
    have hb : 0 < st.2.1 := ceil_pos _ _ hW (by omega)
    rw [Function.iterate_succ_apply]
    apply ih
    rw [← ceil_step st.2.1 cfg.wordBits hW hb] at h
    simp only [loopBody]
    omega

end BitReader

/-! ## The claims -/

section Claims

open BitReader

/-- C1: `readBits` equals the LSB-first bit-stream reference.  Let `B` be the bit
sequence of the whole words of the valid data (`Source.allWords`), let the cursor
stand at word `c`, and let the scratch hold exactly the bits
`[p, c * W)` of `B`, where `p = c * W - m_scratchBits` is the logical bit position.
Then for a result type of `tw` bits, every `n ≤ tw` with `p + n` no larger than the
number of bits of `B`, `readBits(v, n)` sets `v` to the sum over `k < n` of
`B[p + k] * 2 ^ k`, leaves the recorded error as it was, and ends at a word cursor
`c2` with logical position `c2 * W - m_scratchBits = p + n`, the scratch again
holding exactly the bits `[p + n, c2 * W)` of `B`. -/
theorem readBits_eq_reference (cfg : BitConfig) (tw : Nat) (r : BitReader) (n c : Nat)
    (hpos : r.wrapped.readPos = c * cfg.wordBytes)
    (hsb : r.m_scratchBits ≤ c * cfg.wordBits)
    (hscr : r.m_scratch = refBits cfg (r.wrapped.allWords cfg)
        (c * cfg.wordBits - r.m_scratchBits) r.m_scratchBits)
    (hn : n ≤ tw)
    (hfit : c * cfg.wordBits - r.m_scratchBits + n
        ≤ cfg.wordBits * (r.wrapped.allWords cfg).length) :
    (BitReader.readBits cfg tw r n).2
        = refBits cfg (r.wrapped.allWords cfg) (c * cfg.wordBits - r.m_scratchBits) n
      ∧ (BitReader.readBits cfg tw r n).1.wrapped.err = r.wrapped.err
      ∧ (BitReader.readBits cfg tw r n).1.wrapped.allWords cfg = r.wrapped.allWords cfg
      ∧ ∃ c2, (BitReader.readBits cfg tw r n).1.wrapped.readPos = c2 * cfg.wordBytes
          ∧ (BitReader.readBits cfg tw r n).1.m_scratchBits ≤ c2 * cfg.wordBits
          ∧ c2 * cfg.wordBits - (BitReader.readBits cfg tw r n).1.m_scratchBits
              = c * cfg.wordBits - r.m_scratchBits + n
          ∧ (BitReader.readBits cfg tw r n).1.m_scratch
              = refBits cfg (r.wrapped.allWords cfg)
                  (c * cfg.wordBits - r.m_scratchBits + n)
                  (BitReader.readBits cfg tw r n).1.m_scratchBits := by
  have hB := allWords_lt cfg r.wrapped
  rw [refBits_eq cfg _ hB] at hscr
  obtain ⟨hst, hs⟩ := stream_eq_of_position cfg r c hpos hsb hscr
  have hlen : (r.wrapped.words cfg).length = (r.wrapped.allWords cfg).length - c := by
    rw [words_eq_drop cfg r.wrapped c hpos, List.length_drop]
  have hav : n ≤ r.m_scratchBits + cfg.wordBits * (r.wrapped.words cfg).length := by
    rw [hlen, Nat.mul_sub, Nat.mul_comm cfg.wordBits c]
    omega
  obtain ⟨k1, k2, k3, k4, k5, k6, k7, k8, k9⟩ := readBits_stream cfg tw r n hs hav
  generalize readBits cfg tw r n = out at *
  refine ⟨?_, k4, allWords_congr cfg _ _ k5 k6, ?_⟩
  · rw [k1, hst, refBits_eq cfg _ hB, mod_mod_pow_of_le _ _ _ hn]
  · refine ⟨c + ((r.wrapped.words cfg).length - (out.1.wrapped.words cfg).length), ?_, ?_, ?_, ?_⟩
    · rw [cursor_mul _ _ _ _ k9, ← hpos]
      have := Nat.mul_le_mul_left cfg.wordBytes k9
      omega
    · rw [cursor_mul _ _ _ _ k9]
      have := Nat.mul_le_mul_left cfg.wordBits k9
      omega
    · rw [cursor_mul _ _ _ _ k9]
      have := Nat.mul_le_mul_left cfg.wordBits k9
      omega
    · rw [refBits_eq cfg _ hB, Nat.pow_add, ← Nat.div_div_eq_div_mul, ← hst, ← k2]
      unfold stream
      rw [scratch_of_stream _ _ _ k3]

/-- Witness of C1: ten bits read at bit position 3 of the bytes `AB CD EF`. -/
theorem readBits_eq_reference_witness :
    sampleReader.wrapped.readPos = 1 * byteWordConfig.wordBytes
      ∧ sampleReader.m_scratch = refBits byteWordConfig
          (sampleReader.wrapped.allWords byteWordConfig) 3 5
      ∧ (BitReader.readBits byteWordConfig 16 sampleReader 10).2 = 437
      ∧ (BitReader.readBits byteWordConfig 16 sampleReader 10).1.wrapped.err
          = ReaderError.NoError :=
  ⟨by decide, by decide,
    (readBits_eq_reference byteWordConfig 16 sampleReader 10 1 (by decide) (by decide)
      (by decide) (by decide) (by decide)).1.trans (by decide),
    (readBits_eq_reference byteWordConfig 16 sampleReader 10 1 (by decide) (by decide)
      (by decide) (by decide) (by decide)).2.1⟩

/-- C2: bit-packing round trip.  For every list of fields `(bitsCount, v)` with
`1 ≤ bitsCount ≤ 64` and `v < 2 ^ bitsCount`, packed least significant bit first
one right after the other, the last byte padded with zero bits (`packBytes`), a
freshly constructed bit-packing reader with one-byte words over those bytes that
calls `readBits` with a 64-bit result once per field, in order, returns every `v`,
and a following `align()` records no error. -/
theorem bitPacking_roundtrip (cfg : BitConfig) (hW : cfg.wordBytes = 1)
    (fs : List (Nat × Nat))
    (hfs : ∀ f ∈ fs, 1 ≤ f.1 ∧ f.1 ≤ 64 ∧ f.2 < 2 ^ f.1) :
    (BitReader.readFields cfg 64 (fs.map Prod.fst)
        (BitReader.fresh ⟨packBytes fs, 0, (packBytes fs).length, ReaderError.NoError⟩)).2
        = fs.map Prod.snd
      ∧ (BitReader.align cfg (BitReader.readFields cfg 64 (fs.map Prod.fst)
          (BitReader.fresh
            ⟨packBytes fs, 0, (packBytes fs).length, ReaderError.NoError⟩)).1).wrapped.err
        = ReaderError.NoError := by
  have h8 : cfg.wordBits = 8 := by unfold BitConfig.wordBits; omega
  obtain ⟨s1, s2⟩ := stream_fresh_bytes cfg hW (packBytes fs)
  have hv : ∀ f ∈ fs, f.2 < 2 ^ f.1 := fun f hf => (hfs f hf).2.2
  obtain ⟨r1, r2, r3⟩ := readFields_stream cfg 64 fs
    (fresh ⟨packBytes fs, 0, (packBytes fs).length, ReaderError.NoError⟩)
    (fun f hf => ⟨(hfs f hf).2.1, (hfs f hf).2.2⟩)
    (by rw [s1, fromLE_packBytes fs hv])
    (by simp [fresh])
    (by rw [s2, h8, packBytes_length]; simp only [fresh]; omega)
  refine ⟨r1, ?_⟩
  rw [align_err_of_scratch_zero cfg _ (stream_zero_scratch cfg _ r2), r3]
  rfl

/-- Witness of C2: the fields of 3, 13 and 1 bits holding 5, 4097 and 1. -/
theorem bitPacking_roundtrip_witness :
    packBytes [(3, 5), (13, 4097), (1, 1)] = [0x0D, 0x80, 0x01]
      ∧ (BitReader.readFields byteWordConfig 64 ([(3, 5), (13, 4097), (1, 1)].map Prod.fst)
          (BitReader.fresh ⟨packBytes [(3, 5), (13, 4097), (1, 1)], 0,
            (packBytes [(3, 5), (13, 4097), (1, 1)]).length, ReaderError.NoError⟩)).2
        = [5, 4097, 1] :=
  ⟨by decide,
    (bitPacking_roundtrip byteWordConfig (by decide) [(3, 5), (13, 4097), (1, 1)]
      (by decide)).1⟩

/-- C3: byte-level round trip for every endianness.  For every width `size` (among
them 1, 2, 4 and 8), every value `v` of that width, every network and every system
byte order: when the source holds, at the cursor and inside its valid data, the
`size` bytes of `v` in the network order, `AdapterReader::readBytes<SIZE>` yields
exactly `v` and moves the cursor by `size`; the system order has no influence. -/
theorem readBytes_roundtrip (cfg : Config) (size v : Nat) (s : Source)
    (hv : v < 2 ^ (8 * size)) (hrem : size ≤ s.remaining)
    (hdata : (s.data.drop s.readPos).take size = store cfg.networkEndianness size v) :
    (AdapterReader.readBytes cfg size s).2 = v
      ∧ (AdapterReader.readBytes cfg size s).1 = { s with readPos := s.readPos + size } := by
  rw [readBytes_eq_load, read_ok s size hrem]
  simp only [hdata, load_store _ _ _ hv, and_self]

/-- Witness of C3: a big-endian wire read on a little-endian host. -/
theorem readBytes_roundtrip_witness :
    store Endianness.BigEndian 4 0x12345678 = [0x12, 0x34, 0x56, 0x78]
      ∧ (AdapterReader.readBytes ⟨Endianness.BigEndian, Endianness.LittleEndian⟩ 4
          ⟨[0x12, 0x34, 0x56, 0x78], 0, 4, ReaderError.NoError⟩).2 = 0x12345678 :=
  ⟨by decide,
    (readBytes_roundtrip ⟨Endianness.BigEndian, Endianness.LittleEndian⟩ 4 0x12345678
      ⟨[0x12, 0x34, 0x56, 0x78], 0, 4, ReaderError.NoError⟩
      (by decide) (by decide) (by decide)).1⟩

/-- C4: conditional byte swap.  For `size` source bytes inside the valid data,
`AdapterReader::readBytes<SIZE, T>` returns the integer the host sees in those raw
bytes, unchanged, when the network order equals the system order; when the two
differ it returns the `size`-byte integer whose bytes are those of that integer in
reverse order; for `size = 1` the result is the raw byte in both cases. -/
theorem readBytes_conditional_swap (cfg : Config) (size : Nat) (s : Source)
    (hrem : size ≤ s.remaining) :
    (cfg.networkEndianness = cfg.systemEndianness →
        (AdapterReader.readBytes cfg size s).2
          = load cfg.systemEndianness ((s.data.drop s.readPos).take size))
      ∧ (cfg.networkEndianness ≠ cfg.systemEndianness →
        (AdapterReader.readBytes cfg size s).2 < 2 ^ (8 * size)
          ∧ toLE size (AdapterReader.readBytes cfg size s).2
            = (toLE size (load cfg.systemEndianness ((s.data.drop s.readPos).take size))).reverse)
      ∧ (size = 1 → ∃ b : Byte, (s.data.drop s.readPos).take size = [b]
          ∧ (AdapterReader.readBytes cfg size s).2 = b.val) := by
  have hl : ((s.data.drop s.readPos).take size).length = size := by
    have := read_length s size
    rwa [read_ok s size hrem] at this
  refine ⟨fun h => ?_, fun h => ?_, fun h => ?_⟩
  · rw [readBytes_raw cfg size s hrem]; simp [h]
  · rw [readBytes_raw cfg size s hrem, if_pos h]
    exact ⟨swap_lt _ _, toLE_swap _ _⟩
  · subst h
    obtain ⟨b, hb⟩ := List.length_eq_one.mp hl
    refine ⟨b, hb, ?_⟩
    rw [readBytes_eq_load, read_ok s 1 hrem]
    simp only [hb]
    cases cfg.networkEndianness <;> simp [load, fromLE]

/-- Witness of C4: four bytes whose reversal changes the value. -/
theorem readBytes_conditional_swap_witness :
    load Endianness.LittleEndian [0x12, 0x34, 0x56, 0x78] = 0x78563412
      ∧ toLE 4 (AdapterReader.readBytes ⟨Endianness.BigEndian, Endianness.LittleEndian⟩ 4
          ⟨[0x12, 0x34, 0x56, 0x78], 0, 4, ReaderError.NoError⟩).2
        = (toLE 4 (load Endianness.LittleEndian
            ((([0x12, 0x34, 0x56, 0x78] : List Byte).drop 0).take 4))).reverse :=
  ⟨by decide,
    ((readBytes_conditional_swap ⟨Endianness.BigEndian, Endianness.LittleEndian⟩ 4
      ⟨[0x12, 0x34, 0x56, 0x78], 0, 4, ReaderError.NoError⟩ (by decide)).2.1
        (by decide)).2⟩

/-- C5: alignment enforcement.  In every state with `m_scratchBits < W`, `align()`
hands the invalid-data error to the source if and only if `m_scratchBits > 0` and
the `m_scratchBits` pending low bits of the scratch are not all zero, and
otherwise leaves the source, hence the recorded error, exactly as it was; the
destructor does the same, its body being `align()`.  With no error recorded
before, the recorded error afterwards is invalid data exactly in that case. -/
theorem align_enforces_padding (cfg : BitConfig) (r : BitReader)
    (h : r.m_scratchBits < cfg.wordBits) :
    (BitReader.align cfg r).wrapped
        = (if 0 < r.m_scratchBits ∧ r.m_scratch % 2 ^ r.m_scratchBits ≠ 0
            then r.wrapped.error ReaderError.InvalidData else r.wrapped)
      ∧ BitReader.destroy cfg r = BitReader.align cfg r
      ∧ (r.wrapped.err = ReaderError.NoError →
          ((BitReader.align cfg r).wrapped.err = ReaderError.InvalidData
            ↔ 0 < r.m_scratchBits ∧ r.m_scratch % 2 ^ r.m_scratchBits ≠ 0)) := by
  have hp := BitReader.pending_of_lt cfg r h
  have hiff : r.pending cfg ≠ 0 ↔ 0 < r.m_scratchBits ∧ r.m_scratch % 2 ^ r.m_scratchBits ≠ 0 := by
    constructor
    · intro hne
      refine ⟨?_, by rw [← hp]; exact hne⟩
      by_contra h0
      exact hne (BitReader.pending_of_scratchBits_zero cfg r (by omega))
    · intro hc
      rw [hp]; exact hc.2
  refine ⟨?_, rfl, fun herr => ?_⟩
  · rw [BitReader.align_wrapped]
    by_cases hc : r.pending cfg ≠ 0
    · rw [if_pos hc, if_pos (hiff.mp hc)]
    · rw [if_neg hc, if_neg (fun hx => hc (hiff.mpr hx))]
  · rw [BitReader.align_wrapped_err cfg r herr]
    exact hiff

/-- Witness of C5: five pending bits `10101` are flagged, five zero bits are not. -/
theorem align_enforces_padding_witness :
    (BitReader.align byteWordConfig sampleReader).wrapped.err = ReaderError.InvalidData
      ∧ (BitReader.align byteWordConfig paddedReader).wrapped.err = ReaderError.NoError :=
  ⟨((align_enforces_padding byteWordConfig sampleReader (by decide)).2.2 (by decide)).mpr
      (by decide),
    by decide⟩

/-- C6: truncation is detected.  Over the source of the spec (a read of more bytes
than remain records the exhausted error and delivers nothing of the data), for
every reader state with no error recorded and every `n` greater than
`m_scratchBits + W * (number of whole words remaining)`, `readBits(v, n)` ends with
the exhausted error recorded; it has pulled exactly the whole words that remained,
so the cursor has not passed the end of valid data; and nothing it returns depends
on a byte beyond the end of valid data: over any source with the same cursor, end,
error and valid bytes it returns the same value and the same scratch. -/
theorem readBits_truncation_detected (cfg : BitConfig) (tw : Nat) (r : BitReader) (n : Nat)
    (herr : r.wrapped.err = ReaderError.NoError)
    (hn : r.m_scratchBits + cfg.wordBits * (r.wrapped.remaining / cfg.wordBytes) < n) :
    (BitReader.readBits cfg tw r n).1.wrapped.err = ReaderError.Exhausted
      ∧ (BitReader.readBits cfg tw r n).1.wrapped
        = { r.wrapped with
            readPos := r.wrapped.readPos
              + cfg.wordBytes * (r.wrapped.remaining / cfg.wordBytes),
            err := ReaderError.Exhausted }
      ∧ (BitReader.readBits cfg tw r n).1.wrapped.readPos
        ≤ max r.wrapped.readPos r.wrapped.validEnd
      ∧ ∀ r2 : BitReader, BitReader.agree r r2 →
          (BitReader.readBits cfg tw r n).2 = (BitReader.readBits cfg tw r2 n).2
            ∧ BitReader.agree (BitReader.readBits cfg tw r n).1
                (BitReader.readBits cfg tw r2 n).1 := by
  have hx := BitReader.readBits_exhausted_aux cfg tw r n herr hn
  refine ⟨by rw [hx], hx, ?_, fun r2 h2 => BitReader.readBits_agree cfg tw r r2 n h2⟩
  rw [hx]
  have h1 := Nat.mul_div_le r.wrapped.remaining cfg.wordBytes
  simp only [Source.remaining] at h1 ⊢
  omega

/-- Witness of C6: 22 bits asked of a reader that has 5 bits and two bytes left. -/
theorem readBits_truncation_detected_witness :
    (BitReader.readBits byteWordConfig 16 sampleReader 22).1.wrapped.err
        = ReaderError.Exhausted
      ∧ (BitReader.readBits byteWordConfig 16 sampleReader 22).1.wrapped.readPos = 3 :=
  ⟨(readBits_truncation_detected byteWordConfig 16 sampleReader 22 (by decide)
      (by decide)).1,
    by decide⟩

/-- C7: the buffer read of the byte reader equals sequential scalar reads.  For
every element size, every `count`, every pair of byte orders and every source that
holds at least `count * size` more valid bytes, `AdapterReader::readBuffer` yields
the same elements in the same order and the same final source (cursor and error)
as `count` successive `AdapterReader::readBytes`; element `i` is decoded from the
bytes `[i * size, (i + 1) * size)` after the cursor alone. -/
theorem readBuffer_eq_sequential_readBytes (cfg : Config) (size count : Nat) (s : Source)
    (hrem : size * count ≤ s.remaining) :
    AdapterReader.readBuffer cfg size count s = AdapterReader.readBytesSeq cfg size count s
      ∧ (AdapterReader.readBuffer cfg size count s).2
        = (List.range count).map (fun i =>
            load cfg.networkEndianness ((s.data.drop (s.readPos + i * size)).take size)) :=
  readBuffer_seq cfg size count s hrem

/-- Witness of C7: two 16-bit elements of a big-endian wire on a little-endian
host. -/
theorem readBuffer_eq_sequential_readBytes_witness :
    AdapterReader.readBuffer ⟨Endianness.BigEndian, Endianness.LittleEndian⟩ 2 2
        ⟨[0x12, 0x34, 0x56, 0x78, 0x9A], 0, 5, ReaderError.NoError⟩
      = AdapterReader.readBytesSeq ⟨Endianness.BigEndian, Endianness.LittleEndian⟩ 2 2
        ⟨[0x12, 0x34, 0x56, 0x78, 0x9A], 0, 5, ReaderError.NoError⟩
      ∧ (AdapterReader.readBuffer ⟨Endianness.BigEndian, Endianness.LittleEndian⟩ 2 2
        ⟨[0x12, 0x34, 0x56, 0x78, 0x9A], 0, 5, ReaderError.NoError⟩).2 = [0x1234, 0x5678] :=
  ⟨(readBuffer_eq_sequential_readBytes ⟨Endianness.BigEndian, Endianness.LittleEndian⟩ 2 2
      ⟨[0x12, 0x34, 0x56, 0x78, 0x9A], 0, 5, ReaderError.NoError⟩ (by decide)).1,
    by decide⟩

/-- C8: the buffer read of the bit-packing reader equals sequential scalar reads.
For one-byte words, every state with `m_scratchBits < 8` (empty or pending), every
element size, every `count` and every source holding at least `count * size` more
valid bytes, `AdapterReaderBitPackingWrapper::readBuffer` yields the same elements
and the same final reader (scratch, `m_scratchBits`, cursor and error) as `count`
successive `AdapterReaderBitPackingWrapper::readBytes`. -/
theorem bitPacking_readBuffer_eq_sequential (cfg : BitConfig) (hW : cfg.wordBytes = 1)
    (size count : Nat) (r : BitReader) (hsb : r.m_scratchBits < 8)
    (hdata : size * count ≤ r.wrapped.remaining) :
    BitReader.readBuffer cfg size count r = BitReader.readBytesSeq cfg size count r := by
  by_cases h0 : r.m_scratchBits = 0
  · rw [readBytesSeq_aligned cfg size count r h0,
      ← (readBuffer_seq cfg.toConfig size count r.wrapped hdata).1]
    simp [readBuffer, h0]
  · rw [← readBufferLoop_eq_readBytesSeq cfg hW size count r h0 hsb]
    simp [readBuffer, h0]

/-- Witness of C8: two bytes read with five bits pending. -/
theorem bitPacking_readBuffer_eq_sequential_witness :
    BitReader.readBuffer byteWordConfig 1 2 sampleReader
        = BitReader.readBytesSeq byteWordConfig 1 2 sampleReader
      ∧ (BitReader.readBuffer byteWordConfig 1 2 sampleReader).2 = [0xB5, 0xF9]
      ∧ (BitReader.readBuffer byteWordConfig 1 2 sampleReader).1.m_scratchBits = 5 :=
  ⟨bitPacking_readBuffer_eq_sequential byteWordConfig (by decide) 1 2 sampleReader
      (by decide) (by decide),
    by decide, by decide⟩

/-- C9: repositioning aligns first.  In every state and for every `pos`,
`currentReadPos(pos)` of the bit-packing reader is `align()` followed by setting the
cursor of the source to `pos`: afterwards `m_scratchBits = 0`, the cursor is `pos`,
and the invalid-data error has been handed to the source if and only if the bits
pending before the call were not all zero (with no error recorded before, the
recorded error afterwards is invalid data exactly in that case). -/
theorem currentReadPos_aligns_first (cfg : BitConfig) (r : BitReader) (pos : Nat) :
    BitReader.currentReadPos cfg r pos
        = { BitReader.align cfg r with
            wrapped := (BitReader.align cfg r).wrapped.currentReadPos pos }
      ∧ (BitReader.currentReadPos cfg r pos).m_scratchBits = 0
      ∧ (BitReader.currentReadPos cfg r pos).wrapped.readPos = pos
      ∧ (BitReader.currentReadPos cfg r pos).wrapped
        = (if r.pending cfg ≠ 0 then r.wrapped.error ReaderError.InvalidData
            else r.wrapped).currentReadPos pos
      ∧ (r.wrapped.err = ReaderError.NoError →
          ((BitReader.currentReadPos cfg r pos).wrapped.err = ReaderError.InvalidData
            ↔ r.pending cfg ≠ 0)) := by
  refine ⟨rfl, BitReader.align_scratchBits cfg r, rfl, ?_, fun herr => ?_⟩
  · simp only [BitReader.currentReadPos, AdapterReader.currentReadPos,
      BitReader.align_wrapped]
  · rw [← BitReader.align_wrapped_err cfg r herr]
    rfl

/-- Witness of C9: repositioning with the bits `10101` pending. -/
theorem currentReadPos_aligns_first_witness :
    (BitReader.currentReadPos byteWordConfig sampleReader 0).wrapped.err
        = ReaderError.InvalidData
      ∧ sampleReader.pending byteWordConfig = 0x15 :=
  ⟨((currentReadPos_aligns_first byteWordConfig sampleReader 0).2.2.2.2 (by decide)).mpr
      (by decide),
    by decide⟩

/-- C10: scratch-count invariant.  Starting from a freshly constructed bit-packing
reader, after any finite sequence of `readBytes`, `readBuffer`, `readBits`, `align`
and `currentReadPos(pos)` calls, `m_scratchBits < 2 * W`; and at every point inside
a `readBitsInternal` that starts there (whatever its size), right after the
conditional refill and at the end of the iteration, `m_scratchBits < 2 * W` again,
and the `bits` about to be subtracted are at most `m_scratchBits`, so that
`m_scratchBits -= bits` never goes below zero.  The points are those of the loop:
the reader `readBitsInternal` ends with is the last of them. -/
theorem scratchBits_invariant (cfg : BitConfig) (s : Source) (ops : List Op) :
    ((BitReader.fresh s).runAll cfg ops).m_scratchBits < 2 * cfg.wordBits
      ∧ (∀ (n : Nat),
          ∀ pt ∈ BitReader.readBitsPoints cfg n ((BitReader.fresh s).runAll cfg ops) n,
            pt.2.1 ≤ pt.1.m_scratchBits
              ∧ pt.1.m_scratchBits < 2 * cfg.wordBits
              ∧ pt.2.2.m_scratchBits < 2 * cfg.wordBits)
      ∧ ∀ (tw n : Nat),
          (BitReader.readBitsInternal cfg tw ((BitReader.fresh s).runAll cfg ops) n).1
            = ((BitReader.readBitsPoints cfg n ((BitReader.fresh s).runAll cfg ops) n).map
                (fun pt => pt.2.2)).getLastD ((BitReader.fresh s).runAll cfg ops) := by
  have hW := wordBits_pos cfg
  have h := runAll_scratchBits_lt cfg ops (BitReader.fresh s)
    (by simp only [BitReader.fresh]; exact hW)
  refine ⟨by omega, fun n pt hpt => ?_, fun tw n => ?_⟩
  · obtain ⟨h1, h2, h3⟩ := readBitsPoints_bounds cfg n _ n h pt hpt
    exact ⟨h1, h2, by omega⟩
  · exact readBitsLoop_reader_eq_last cfg tw n n _ n 0

/-- C11: cross-word accumulation.  For every word width `W` (among them 8 and 32), a
reader with `m_scratchBits = 0` and an empty scratch over a source that holds at
least three words `w0`, `w1`, `w2`, and a result type of at least `2 * W + 1` bits:
a single `readBits(v, 2 * W + 1)` returns `v = w0 + w1 * 2 ^ W + (w2 mod 2) * 2 ^ (2 * W)`,
pulls exactly three words (the cursor moves by three words and the source is
otherwise as it was), and leaves `m_scratchBits = W - 1` with `m_scratch = w2 / 2`. -/
theorem crossWord_accumulation (cfg : BitConfig) (tw : Nat) (r : BitReader)
    (w0 w1 w2 : Nat) (rest : List Nat)
    (hsb : r.m_scratchBits = 0) (hscr : r.m_scratch = 0)
    (hw : r.wrapped.words cfg = w0 :: w1 :: w2 :: rest)
    (htw : 2 * cfg.wordBits + 1 ≤ tw) :
    (BitReader.readBits cfg tw r (2 * cfg.wordBits + 1)).2
        = w0 + w1 * 2 ^ cfg.wordBits + (w2 % 2) * 2 ^ (2 * cfg.wordBits)
      ∧ (BitReader.readBits cfg tw r (2 * cfg.wordBits + 1)).1.wrapped
        = { r.wrapped with readPos := r.wrapped.readPos + 3 * cfg.wordBytes }
      ∧ (BitReader.readBits cfg tw r (2 * cfg.wordBits + 1)).1.wrapped.words cfg = rest
      ∧ (BitReader.readBits cfg tw r (2 * cfg.wordBits + 1)).1.m_scratchBits
        = cfg.wordBits - 1
      ∧ (BitReader.readBits cfg tw r (2 * cfg.wordBits + 1)).1.m_scratch = w2 / 2 := by
  have hW := wordBits_pos cfg
  have hwl := words_lt cfg r.wrapped
  rw [hw] at hwl
  have h0 : w0 < 2 ^ cfg.wordBits := hwl w0 (by simp)
  have h1 : w1 < 2 ^ cfg.wordBits := hwl w1 (by simp)
  have hs : r.m_scratch < 2 ^ r.m_scratchBits := by rw [hscr, hsb]; decide
  have hav : 2 * cfg.wordBits + 1
      ≤ r.m_scratchBits + cfg.wordBits * (r.wrapped.words cfg).length := by
    rw [hw, hsb]
    simp only [List.length_cons]
    have : cfg.wordBits * 3 ≤ cfg.wordBits * (rest.length + 1 + 1 + 1) :=
      Nat.mul_le_mul_left _ (by omega)
    omega
  obtain ⟨k1, k2, k3, k4, k5, k6, k7, k8, k9⟩ :=
    readBits_stream cfg tw r (2 * cfg.wordBits + 1) hs hav
  have k10 := readBits_scratchBits_lt cfg tw r (2 * cfg.wordBits + 1) (by rw [hsb]; exact hW)
  -- the bits still to be delivered, as a number
  have hst : r.stream cfg
      = (w0 + 2 ^ cfg.wordBits * w1)
        + 2 ^ (2 * cfg.wordBits) * (w2 + 2 ^ cfg.wordBits * streamNat cfg.wordBits rest) := by
    simp only [stream, hw, hscr, hsb, streamNat]
    rw [show 2 * cfg.wordBits = cfg.wordBits + cfg.wordBits by omega, Nat.pow_add]
    ring
  have hlow : w0 + 2 ^ cfg.wordBits * w1 < 2 ^ (2 * cfg.wordBits) := by
    have : 2 ^ cfg.wordBits * (w1 + 1) ≤ 2 ^ cfg.wordBits * 2 ^ cfg.wordBits :=
      Nat.mul_le_mul_left _ h1
    rw [show 2 * cfg.wordBits = cfg.wordBits + cfg.wordBits by omega, Nat.pow_add]
    rw [Nat.mul_add, Nat.mul_one] at this
    omega
  obtain ⟨hmod, hdiv⟩ := split_low _
    (w2 + 2 ^ cfg.wordBits * streamNat cfg.wordBits rest) _ hlow
  have heven : (w2 + 2 ^ cfg.wordBits * streamNat cfg.wordBits rest) % 2 = w2 % 2 := by
    obtain ⟨j, hj⟩ : ∃ j, cfg.wordBits = j + 1 := ⟨cfg.wordBits - 1, by omega⟩
    rw [hj, Nat.pow_succ, Nat.mul_comm (2 ^ j) 2, Nat.mul_assoc, Nat.add_mul_mod_self_left]
  have hhalf : (w2 + 2 ^ cfg.wordBits * streamNat cfg.wordBits rest) / 2
      = w2 / 2 + 2 ^ (cfg.wordBits - 1) * streamNat cfg.wordBits rest := by
    obtain ⟨j, hj⟩ : ∃ j, cfg.wordBits = j + 1 := ⟨cfg.wordBits - 1, by omega⟩
    rw [hj, Nat.pow_succ, Nat.mul_comm (2 ^ j) 2, Nat.mul_assoc,
      Nat.add_mul_div_left _ _ (by decide), Nat.add_sub_cancel]
  -- how many words were pulled
  generalize BitReader.readBits cfg tw r (2 * cfg.wordBits + 1) = out at *
  have hd : cfg.wordBits * ((r.wrapped.words cfg).length - (out.1.wrapped.words cfg).length)
      = out.1.m_scratchBits + (2 * cfg.wordBits + 1) := by
    rw [Nat.mul_sub]
    have := Nat.mul_le_mul_left cfg.wordBits k9
    omega
  obtain ⟨hd3, hsb2⟩ := three_words _ _ _ hW k10 hd
  have hpos : out.1.wrapped.readPos = r.wrapped.readPos + 3 * cfg.wordBytes := by
    have e : (r.wrapped.words cfg).length = (out.1.wrapped.words cfg).length + 3 := by omega
    rw [e, Nat.mul_add] at k8
    rw [Nat.mul_comm 3 cfg.wordBytes]
    omega
  have hwr : out.1.wrapped = { r.wrapped with readPos := r.wrapped.readPos + 3 * cfg.wordBytes } :=
    source_eq_of_fields _ _ k5 hpos k6 k4
  have hrest : out.1.wrapped.words cfg = rest := by
    rw [hwr]
    have a1 := words_advance cfg _ _ _ hw
    have a2 := words_advance cfg _ _ _ a1
    have a3 := words_advance cfg _ _ _ a2
    rw [← a3]
    congr 1
    simp only [Source.mk.injEq, true_and, and_true]
    omega
  refine ⟨?_, hwr, hrest, hsb2, ?_⟩
  · rw [k1, hst, hmod, heven, Nat.mod_eq_of_lt]
    · ring
    · have h2 : w2 % 2 < 2 := Nat.mod_lt _ (by decide)
      have h3 : 2 ^ (2 * cfg.wordBits) * (w2 % 2) ≤ 2 ^ (2 * cfg.wordBits) * 1 :=
        Nat.mul_le_mul_left _ (by omega)
      have h4 : 2 ^ (2 * cfg.wordBits + 1) ≤ 2 ^ tw := Nat.pow_le_pow_right (by decide) htw
      rw [Nat.pow_succ] at h4
      omega
  · have e := k2
    rw [hst, hdiv, hhalf] at e
    simp only [stream, hrest, hsb2] at e
    omega

/-- Witness of C11: 17 bits over one-byte words and 65 bits over four-byte words. -/
theorem crossWord_accumulation_witness :
    (BitReader.fresh fiveByteSource).wrapped.words byteWordConfig
        = 0xAB :: 0xCD :: 0xEF :: [0x01, 0x23]
      ∧ (BitReader.readBits byteWordConfig 32 (BitReader.fresh fiveByteSource) 17).2 = 0x1CDAB
      ∧ (BitReader.readBits byteWordConfig 32 (BitReader.fresh fiveByteSource)
          (2 * byteWordConfig.wordBits + 1)).1.m_scratch = 0xEF / 2
      ∧ (BitReader.readBits longWordConfig 128 (BitReader.fresh twelveByteSource)
          (2 * longWordConfig.wordBits + 1)).2
        = 0x01020304 + 0x05060708 * 2 ^ longWordConfig.wordBits
          + (0x090A0B0D % 2) * 2 ^ (2 * longWordConfig.wordBits) :=
  ⟨by decide, by decide,
    (crossWord_accumulation byteWordConfig 32 (BitReader.fresh fiveByteSource)
      0xAB 0xCD 0xEF [0x01, 0x23] (by decide) (by decide) (by decide) (by decide)).2.2.2.2,
    (crossWord_accumulation longWordConfig 128 (BitReader.fresh twelveByteSource)
      0x01020304 0x05060708 0x090A0B0D [] (by decide) (by decide) (by decide)
      (by decide)).1⟩

/-- C12: errors are sticky through the core.  Over the source of the spec, whose
`read` never clears a recorded error: in a sequence of `readBytes`, `readBuffer`,
`readBits`, `align` and `currentReadPos(pos)` calls on the bit-packing reader, and
in a sequence of `readBytes`, `readBuffer`, `align` and `currentReadPos(pos)` calls
on the byte reader, once the recorded error differs from no error it stays what it
is through every further call, so it never becomes no error again and
`isCompletedSuccessfully()` stays false.  One call changes the recorded error only
where none was recorded: through a `read` of the source, which records the
exhausted error, or, in `align` (alone or inside `currentReadPos(pos)`) of the
bit-packing reader, through the one error the core writes, invalid data. -/
theorem errors_sticky (cfg : BitConfig) (r : BitReader) (s : Source)
    (ops ops2 : List Op) (bops bops2 : List ByteOp) (op : Op) (bop : ByteOp) :
    ((r.runAll cfg ops).wrapped.err ≠ ReaderError.NoError →
        (r.runAll cfg (ops ++ ops2)).wrapped.err = (r.runAll cfg ops).wrapped.err
          ∧ (r.runAll cfg (ops ++ ops2)).wrapped.err ≠ ReaderError.NoError
          ∧ (r.runAll cfg (ops ++ ops2)).wrapped.isCompletedSuccessfully = false)
      ∧ ((AdapterReader.runAll cfg.toConfig s bops).err ≠ ReaderError.NoError →
        (AdapterReader.runAll cfg.toConfig s (bops ++ bops2)).err
            = (AdapterReader.runAll cfg.toConfig s bops).err
          ∧ (AdapterReader.runAll cfg.toConfig s (bops ++ bops2)).err ≠ ReaderError.NoError
          ∧ (AdapterReader.runAll cfg.toConfig s (bops ++ bops2)).isCompletedSuccessfully
            = false)
      ∧ (errAfterReads r.wrapped.err (r.run cfg op).wrapped.err
          ∨ (r.wrapped.err = ReaderError.NoError
            ∧ (op = Op.align ∨ ∃ pos, op = Op.currentReadPos pos)
            ∧ (r.run cfg op).wrapped.err = ReaderError.InvalidData))
      ∧ errAfterReads s.err (AdapterReader.run cfg.toConfig s bop).err := by
  refine ⟨fun h => ?_, fun h => ?_, run_err cfg r op, byteRun_err cfg.toConfig s bop⟩
  · have e : (r.runAll cfg (ops ++ ops2)).wrapped.err = (r.runAll cfg ops).wrapped.err := by
      rw [runAll_append]
      exact runAll_sticky cfg ops2 _ h
    refine ⟨e, by rw [e]; exact h, ?_⟩
    simp only [Source.isCompletedSuccessfully, e, decide_eq_false_iff_not]
    exact h
  · have e : (AdapterReader.runAll cfg.toConfig s (bops ++ bops2)).err
        = (AdapterReader.runAll cfg.toConfig s bops).err := by
      rw [byteRunAll_append]
      exact byteRunAll_sticky cfg.toConfig bops2 _ h
    refine ⟨e, by rw [e]; exact h, ?_⟩
    simp only [Source.isCompletedSuccessfully, e, decide_eq_false_iff_not]
    exact h

/-- Witness of C12: an exhausted error survives `align`, a repositioning and a read. -/
theorem errors_sticky_witness :
    ((BitReader.fresh emptySource).runAll byteWordConfig [Op.readBits 8 3]).wrapped.err
        = ReaderError.Exhausted
      ∧ ((BitReader.fresh emptySource).runAll byteWordConfig
          ([Op.readBits 8 3] ++ [Op.align, Op.currentReadPos 0, Op.readBytes 1])).wrapped.err
        = ReaderError.Exhausted :=
  ⟨by decide,
    ((errors_sticky byteWordConfig (BitReader.fresh emptySource) emptySource
      [Op.readBits 8 3] [Op.align, Op.currentReadPos 0, Op.readBytes 1] [] []
      Op.align ByteOp.align).1 (by decide)).1.trans (by decide)⟩

/-- C13: dense packing, splitting a read does not change what is decoded.  For every
state with `m_scratchBits < W` and `m_scratch < 2 ^ m_scratchBits`, every `a` and `b`
with `a + b` at most the bit width of the result type and at most the bits the
scratch and the whole words left can supply, `readBits(x, a)` followed by
`readBits(y, b)` yields `x = z mod 2 ^ a` and `y = z / 2 ^ a`, where `z` is what one
`readBits(z, a + b)` yields from the same state, and both runs end in the same
reader: same scratch, `m_scratchBits`, cursor and error. -/
theorem readBits_split (cfg : BitConfig) (tw : Nat) (r : BitReader) (a b : Nat)
    (hsb : r.m_scratchBits < cfg.wordBits)
    (hs : r.m_scratch < 2 ^ r.m_scratchBits)
    (htw : a + b ≤ tw)
    (hav : a + b ≤ r.m_scratchBits + cfg.wordBits * (r.wrapped.words cfg).length) :
    (BitReader.readBits cfg tw r a).2 = (BitReader.readBits cfg tw r (a + b)).2 % 2 ^ a
      ∧ (BitReader.readBits cfg tw (BitReader.readBits cfg tw r a).1 b).2
        = (BitReader.readBits cfg tw r (a + b)).2 / 2 ^ a
      ∧ (BitReader.readBits cfg tw (BitReader.readBits cfg tw r a).1 b).1
        = (BitReader.readBits cfg tw r (a + b)).1 := by
  obtain ⟨x1, x2, x3, x4, x5, x6, x7, x8, _⟩ := readBits_stream cfg tw r a hs (by omega)
  have x9 := readBits_scratchBits_lt cfg tw r a hsb
  obtain ⟨y1, y2, _, y4, y5, y6, y7, y8, _⟩ :=
    readBits_stream cfg tw (BitReader.readBits cfg tw r a).1 b x3 (by omega)
  have y9 := readBits_scratchBits_lt cfg tw (BitReader.readBits cfg tw r a).1 b x9
  obtain ⟨z1, z2, _, z4, z5, z6, z7, z8, _⟩ := readBits_stream cfg tw r (a + b) hs hav
  have z9 := readBits_scratchBits_lt cfg tw r (a + b) hsb
  refine ⟨?_, ?_, ?_⟩
  · rw [x1, z1, mod_mod_pow_of_le _ _ _ (by omega), mod_mod_pow_of_le _ _ _ htw,
      Nat.pow_add, Nat.mod_mul_right_mod]
  · rw [y1, z1, x2, mod_mod_pow_of_le _ _ _ (by omega), mod_mod_pow_of_le _ _ _ htw,
      Nat.pow_add, Nat.mod_mul_right_div_self]
  · apply reader_eq_of_stream cfg _ _ y9 z9
    · rw [y2, z2, x2, Nat.pow_add, Nat.div_div_eq_div_mul]
    · omega
    · omega
    · rw [y5, x5, z5]
    · rw [y6, x6, z6]
    · rw [y4, x4, z4]

/-- Witness of C13: ten bits read as three and seven. -/
theorem readBits_split_witness :
    (BitReader.readBits byteWordConfig 16 sampleReader 3).2 = 5
      ∧ (BitReader.readBits byteWordConfig 16
          (BitReader.readBits byteWordConfig 16 sampleReader 3).1 7).2 = 0x36
      ∧ (BitReader.readBits byteWordConfig 16 sampleReader (3 + 7)).2 = 0x36 * 2 ^ 3 + 5
      ∧ (BitReader.readBits byteWordConfig 16
          (BitReader.readBits byteWordConfig 16 sampleReader 3).1 7).1
        = (BitReader.readBits byteWordConfig 16 sampleReader (3 + 7)).1 :=
  ⟨by decide, by decide, by decide,
    (readBits_split byteWordConfig 16 sampleReader 3 7 (by decide) (by decide) (by decide)
      (by decide)).2.2⟩

/-- C14: `align` consumes only the pending bits.  In every state with
`m_scratch < 2 ^ m_scratchBits` (and so in every state the claim names), `align()`
issues no read: the source is as it was, or as `error(InvalidData)` leaves it, so
the cursor, the end of valid data and the bytes are unchanged and the recorded
error is the old one or invalid data, never a new exhausted error; it ends with
`m_scratchBits = 0` and `m_scratch = 0`; and a second `align()` right after the
first changes nothing. -/
theorem align_consumes_pending (cfg : BitConfig) (r : BitReader)
    (hs : r.m_scratch < 2 ^ r.m_scratchBits) :
    (BitReader.align cfg r).wrapped
        = (if r.pending cfg ≠ 0 then r.wrapped.error ReaderError.InvalidData else r.wrapped)
      ∧ (BitReader.align cfg r).wrapped.readPos = r.wrapped.readPos
      ∧ (BitReader.align cfg r).wrapped.readEndPos = r.wrapped.readEndPos
      ∧ (BitReader.align cfg r).wrapped.data = r.wrapped.data
      ∧ ((BitReader.align cfg r).wrapped.err = r.wrapped.err
          ∨ (r.wrapped.err = ReaderError.NoError
            ∧ (BitReader.align cfg r).wrapped.err = ReaderError.InvalidData))
      ∧ (BitReader.align cfg r).m_scratchBits = 0
      ∧ (BitReader.align cfg r).m_scratch = 0
      ∧ BitReader.align cfg (BitReader.align cfg r) = BitReader.align cfg r := by
  have hw := align_wrapped cfg r
  have hf := error_fields r.wrapped ReaderError.InvalidData
  refine ⟨hw, ?_, ?_, ?_, align_err cfg r, align_scratchBits cfg r, align_scratch cfg r hs, ?_⟩
  · rw [hw]; split
    · exact hf.2.1
    · rfl
  · rw [hw]; split
    · exact hf.2.2
    · rfl
  · rw [hw]; split
    · exact hf.1
    · rfl
  · rw [align_eq cfg (BitReader.align cfg r), if_neg (by simp [align_scratchBits])]

/-- Witness of C14: five zero bits are dropped, and `align` twice is `align` once. -/
theorem align_consumes_pending_witness :
    BitReader.align byteWordConfig paddedReader
        = { wrapped := sampleSource, m_scratch := 0, m_scratchBits := 0 }
      ∧ BitReader.align byteWordConfig (BitReader.align byteWordConfig sampleReader)
        = BitReader.align byteWordConfig sampleReader :=
  ⟨by decide,
    (align_consumes_pending byteWordConfig sampleReader (by decide)).2.2.2.2.2.2.2⟩

/-- C15: the stronger invariant between calls.  Starting from a freshly constructed
bit-packing reader, after every sequence of completed `readBytes`, `readBuffer`,
`readBits`, `align` and `currentReadPos(pos)` calls, `m_scratchBits < W` and
`m_scratch < 2 ^ m_scratchBits`.  Every iteration of a `readBitsInternal` that
starts there begins in a reader `q` with the same two properties, so that at a
refill the incoming word shifted left by `m_scratchBits` is below `2 ^ (2 * W)`,
the new scratch is the old scratch plus the shifted word (or-ing carries nothing
and the scratch type cuts nothing off), its low bits are the old scratch and the
bits above them are the word; and the iteration ends with the two properties
again. -/
theorem scratch_invariant_between_calls (cfg : BitConfig) (s : Source) (ops : List Op) :
    ((BitReader.fresh s).runAll cfg ops).m_scratchBits < cfg.wordBits
      ∧ ((BitReader.fresh s).runAll cfg ops).m_scratch
        < 2 ^ ((BitReader.fresh s).runAll cfg ops).m_scratchBits
      ∧ ∀ (n : Nat),
          ∀ pt ∈ BitReader.readBitsPoints cfg n ((BitReader.fresh s).runAll cfg ops) n,
            ∃ q : BitReader, pt.1 = q.afterRefill cfg pt.2.1
              ∧ pt.2.2 = pt.1.consume pt.2.1
              ∧ q.m_scratchBits < cfg.wordBits ∧ q.m_scratch < 2 ^ q.m_scratchBits
              ∧ (AdapterReader.readBytes cfg.toConfig cfg.wordBytes q.wrapped).2
                  <<< q.m_scratchBits < 2 ^ (2 * cfg.wordBits)
              ∧ (q.refill cfg).m_scratch
                = q.m_scratch
                  + (AdapterReader.readBytes cfg.toConfig cfg.wordBytes q.wrapped).2
                    <<< q.m_scratchBits
              ∧ (q.refill cfg).m_scratch % 2 ^ q.m_scratchBits = q.m_scratch
              ∧ (q.refill cfg).m_scratch >>> q.m_scratchBits
                = (AdapterReader.readBytes cfg.toConfig cfg.wordBytes q.wrapped).2
              ∧ pt.2.2.m_scratchBits < cfg.wordBits
              ∧ pt.2.2.m_scratch < 2 ^ pt.2.2.m_scratchBits := by
  have hW := wordBits_pos cfg
  obtain ⟨h1, h2⟩ := runAll_invariant cfg ops (BitReader.fresh s)
    (by simp only [BitReader.fresh]; exact hW) (by simp [BitReader.fresh])
  refine ⟨h1, h2, fun n pt hpt => ?_⟩
  obtain ⟨q, q1, q2, q3, q4, q5⟩ := readBitsPoints_heads cfg n _ n h1 h2 pt hpt
  obtain ⟨e1, e2, e3, e4, _⟩ := refill_exact cfg q q1 q2
  obtain ⟨_, _, s3, s4⟩ := step_invariant cfg q pt.2.1 q3 q1 q2
  refine ⟨q, q4, q5, q1, q2, e1, e2, e3, e4, ?_, ?_⟩
  · rw [q5, q4]; exact s3
  · rw [q5, q4]; exact s4

/-- Counterexample to C16 as stated: a reader with five pending bits and two bytes
left in its source is asked for 30 bits.  It asks the wrapped reader for four
words, as the claim says, but only two of the reads are served, and the cursor
advances by two words, not by four. -/
theorem refill_cursor_counterexample :
    sampleReader.m_scratchBits < byteWordConfig.wordBits
      ∧ BitReader.readBitsRefills byteWordConfig 30 sampleReader 30 = 4
      ∧ (30 - sampleReader.m_scratchBits + byteWordConfig.wordBits - 1) / byteWordConfig.wordBits
        = 4
      ∧ (BitReader.readBits byteWordConfig 32 sampleReader 30).1.wrapped.readPos
        = sampleReader.wrapped.readPos + 2 * byteWordConfig.wordBytes
      ∧ (BitReader.readBits byteWordConfig 32 sampleReader 30).1.wrapped.readPos
        ≠ sampleReader.wrapped.readPos + 4 * byteWordConfig.wordBytes := by
  decide

/-- C16, amended: refill is lazy and exact.  For every state with
`m_scratchBits = s < W` and every `n`, `readBits(v, n)` asks the wrapped reader for
no word when `n ≤ s` and for exactly `ceil((n - s) / W)` words when `n > s`, each by
one `readBytes` of one word (`readBitsRefills` counts them).  When
`n ≤ s + W * (whole words remaining)`, every one of these reads is served: there
are at most as many as whole words remain, the cursor advances by exactly that
many words, the source is otherwise as it was and no error is introduced. -/
theorem refill_lazy_exact (cfg : BitConfig) (tw : Nat) (r : BitReader) (n : Nat)
    (hsb : r.m_scratchBits < cfg.wordBits) :
    (n ≤ r.m_scratchBits → BitReader.readBitsRefills cfg n r n = 0)
      ∧ BitReader.readBitsRefills cfg n r n
        = (n - r.m_scratchBits + cfg.wordBits - 1) / cfg.wordBits
      ∧ (n ≤ r.m_scratchBits + cfg.wordBits * (r.wrapped.remaining / cfg.wordBytes) →
          (BitReader.readBits cfg tw r n).1.wrapped
              = { r.wrapped with
                  readPos := r.wrapped.readPos
                    + cfg.wordBytes * BitReader.readBitsRefills cfg n r n }
            ∧ BitReader.readBitsRefills cfg n r n ≤ r.wrapped.remaining / cfg.wordBytes
            ∧ (BitReader.readBits cfg tw r n).1.wrapped.err = r.wrapped.err) := by
  have hW := wordBits_pos cfg
  have he := readBitsRefills_eq cfg r n hsb
  refine ⟨fun hn => ?_, he, fun hav => ?_⟩
  · rw [he, show n - r.m_scratchBits = 0 by omega, Nat.zero_add, Nat.div_eq_of_lt (by omega)]
  · rw [← words_length] at hav ⊢
    have hsv := readBitsLoop_served cfg tw n n r n 0 (le_refl _) hav
    have hacc := readBitsLoop_refills cfg tw n n r n 0 (le_refl _)
    refine ⟨hsv, ?_, ?_⟩
    · by_contra hc
      have : cfg.wordBits * ((r.wrapped.words cfg).length + 1)
          ≤ cfg.wordBits * BitReader.readBitsRefills cfg n r n :=
        Nat.mul_le_mul_left _ (by omega)
      have hlt := readBitsLoop_scratchBits_lt cfg tw n n r n 0 hsb
      rw [Nat.mul_add, Nat.mul_one] at this
      by_cases hn : n ≤ r.m_scratchBits
      · rw [he, show n - r.m_scratchBits = 0 by omega, Nat.zero_add,
          Nat.div_eq_of_lt (by omega)] at hc
        omega
      · omega
    · unfold BitReader.readBits BitReader.readBitsInternal
      rw [hsv]

/-- Witness of C16: ten bits with five pending pull one byte. -/
theorem refill_lazy_exact_witness :
    BitReader.readBitsRefills byteWordConfig 10 sampleReader 10 = 1
      ∧ (BitReader.readBits byteWordConfig 16 sampleReader 10).1.wrapped.readPos = 2 :=
  ⟨(refill_lazy_exact byteWordConfig 16 sampleReader 10 (by decide)).2.1.trans (by decide),
    by decide⟩

/-- C17: unaligned multi-byte reads ignore the configured byte order.  For one-byte
words, `0 < m_scratchBits < 8`, no stray bit in the scratch and at least `size`
valid bytes left, `AdapterReaderBitPackingWrapper::readBytes<SIZE, T>` returns the
next `8 * size` bits of the stream least significant first: the pending bits, then
the bits of the next bytes in the order of the bytes, cut to `8 * size` bits; and
the call, value and final reader, is the same for every network and every system
byte order. -/
theorem unaligned_readBytes_ignores_order (cfg : BitConfig) (hW : cfg.wordBytes = 1)
    (size : Nat) (r : BitReader)
    (hsb0 : 0 < r.m_scratchBits) (hsb : r.m_scratchBits < 8)
    (hs : r.m_scratch < 2 ^ r.m_scratchBits)
    (hdata : size ≤ r.wrapped.remaining) :
    (BitReader.readBytes cfg size r).2
        = (r.m_scratch + 2 ^ r.m_scratchBits
            * fromLE ((r.wrapped.data.drop r.wrapped.readPos).take size)) % 2 ^ (8 * size)
      ∧ ∀ net sys : Endianness,
          BitReader.readBytes (cfg.withOrder net sys) size r = BitReader.readBytes cfg size r := by
  have hne : ¬ r.m_scratchBits = 0 := by omega
  refine ⟨?_, fun net sys => ?_⟩
  · simp only [BitReader.readBytes, if_neg hne]
    exact readBits_bytes_value cfg hW (8 * size) size r hs (le_refl _) hsb hdata
  · simp only [BitReader.readBytes, if_neg hne, BitReader.readBits, BitReader.readBitsInternal]
    exact readBitsLoop_withOrder cfg hW net sys _ _ _ r _ 0

/-- Witness of C17: two bytes read with five bits pending. -/
theorem unaligned_readBytes_ignores_order_witness :
    (BitReader.readBytes byteWordConfig 2 sampleReader).2 = 0xF9B5
      ∧ BitReader.readBytes
          (byteWordConfig.withOrder Endianness.BigEndian Endianness.LittleEndian) 2 sampleReader
        = BitReader.readBytes byteWordConfig 2 sampleReader :=
  ⟨(unaligned_readBytes_ignores_order byteWordConfig (by decide) 2 sampleReader (by decide)
      (by decide) (by decide) (by decide)).1.trans (by decide),
    (unaligned_readBytes_ignores_order byteWordConfig (by decide) 2 sampleReader (by decide)
      (by decide) (by decide) (by decide)).2 Endianness.BigEndian Endianness.LittleEndian⟩

/-- C18: the byte fast path agrees with the bit path on a little-endian wire.  For
one-byte words, `m_scratchBits = 0` with an empty scratch, a little-endian network
order, any system order and at least `size` valid bytes left,
`AdapterReaderBitPackingWrapper::readBytes<SIZE, T>(v)` yields the same value and
the same final reader (scratch, `m_scratchBits`, cursor and error) as
`readBits(v, 8 * size)` from the same state. -/
theorem fastPath_eq_bitPath (cfg : BitConfig) (hW : cfg.wordBytes = 1)
    (hnet : cfg.networkEndianness = Endianness.LittleEndian)
    (size : Nat) (r : BitReader)
    (hsb : r.m_scratchBits = 0) (hscr : r.m_scratch = 0)
    (hdata : size ≤ r.wrapped.remaining) :
    BitReader.readBytes cfg size r = BitReader.readBits cfg (8 * size) r (8 * size) := by
  have h8 : cfg.wordBits = 8 := by unfold BitConfig.wordBits; omega
  have hs : r.m_scratch < 2 ^ r.m_scratchBits := by rw [hscr, hsb]; decide
  have hlt : r.m_scratchBits < cfg.wordBits := by rw [hsb, h8]; decide
  -- the fast path
  have hfast : BitReader.readBytes cfg size r
      = ({ r with wrapped := { r.wrapped with readPos := r.wrapped.readPos + size } },
          fromLE ((r.wrapped.data.drop r.wrapped.readPos).take size)) := by
    simp only [BitReader.readBytes, if_pos hsb, readBytes_eq_load, read_ok _ _ hdata, hnet, load]
  -- the bit path: the value
  have hval := readBits_bytes_value cfg hW (8 * size) size r hs (le_refl _)
    (by rw [hsb]; decide) hdata
  have hfl := fromLE_lt ((r.wrapped.data.drop r.wrapped.readPos).take size)
  have hlen : ((r.wrapped.data.drop r.wrapped.readPos).take size).length ≤ size := by simp
  have hfl2 : fromLE ((r.wrapped.data.drop r.wrapped.readPos).take size) < 2 ^ (8 * size) := by
    rw [← pow_256_eq]
    exact lt_of_lt_of_le hfl (Nat.pow_le_pow_right (by decide) hlen)
  rw [hscr, hsb, Nat.pow_zero, Nat.one_mul, Nat.zero_add, Nat.mod_eq_of_lt hfl2] at hval
  -- the bit path: the reader
  have hav : 8 * size ≤ r.m_scratchBits + cfg.wordBits * (r.wrapped.words cfg).length := by
    rw [h8, words_length_bytes cfg hW]; omega
  have hsv : (BitReader.readBits cfg (8 * size) r (8 * size)).1.wrapped
      = { r.wrapped with readPos := r.wrapped.readPos + size } := by
    have h1 := readBitsLoop_served cfg (8 * size) (8 * size) (8 * size) r (8 * size) 0
      (le_refl _) hav
    have h2 := readBitsRefills_eq cfg r (8 * size) hlt
    rw [hsb, h8, Nat.sub_zero, show 8 * size + 8 - 1 = 7 + 8 * size by omega,
      Nat.add_mul_div_left _ _ (by decide)] at h2
    rw [h2, hW, show 7 / 8 + size = size by omega, Nat.one_mul] at h1
    exact h1
  have hsb2 := readBits_bytes_scratchBits cfg hW (8 * size) size r (by rw [hsb]; decide)
  have hinv := readBits_invariant cfg (8 * size) r (8 * size) hlt hs
  rw [hsb2, hsb] at hinv
  rw [hfast]
  generalize BitReader.readBits cfg (8 * size) r (8 * size) = out at *
  obtain ⟨⟨ow, os, ob⟩, ov⟩ := out
  simp only at hval hsv hsb2 hinv
  subst hval hsv
  have hos : os = 0 := by omega
  cases r
  simp_all

/-- Witness of C18: two bytes read both ways. -/
theorem fastPath_eq_bitPath_witness :
    BitReader.readBytes byteWordConfig 2 (BitReader.fresh fiveByteSource)
        = BitReader.readBits byteWordConfig 16 (BitReader.fresh fiveByteSource) 16
      ∧ (BitReader.readBytes byteWordConfig 2 (BitReader.fresh fiveByteSource)).2 = 0xCDAB :=
  ⟨fastPath_eq_bitPath byteWordConfig (by decide) (by decide) 2
      (BitReader.fresh fiveByteSource) (by decide) (by decide) (by decide),
    by decide⟩

/-- C19: the extraction loop terminates.  For every reader and every `size`, the
`while (bitsLeft > 0)` loop of `readBitsInternal` runs its body (`loopBody`) exactly
`ceil(size / W)` times: before each of these iterations bits are left, the
iteration removes `bits = min(bitsLeft, W)`, at least one, from `bitsLeft`, after
the last of them `bitsLeft` is 0, and what `readBitsInternal` returns is the reader
and the result of the loop state reached by exactly these iterations.  A larger
bound on the iterations changes neither the result nor the iterations listed by
`readBitsPoints`, whose last reader is the one returned; the listed iterations
take between one bit and one word each and `size` bits together.  For `size = 0`
the body never runs, the output is 0, and the reader (scratch, `m_scratchBits`,
cursor and error) is unchanged. -/
theorem readBitsInternal_terminates (cfg : BitConfig) (tw : Nat) (r : BitReader) (size : Nat) :
    (∀ k : Nat, k < (size + cfg.wordBits - 1) / cfg.wordBits →
        0 < (Nat.iterate (BitReader.loopBody cfg tw size) k (r, size, 0)).2.1
          ∧ 1 ≤ min (Nat.iterate (BitReader.loopBody cfg tw size) k (r, size, 0)).2.1
              cfg.wordBits
          ∧ (Nat.iterate (BitReader.loopBody cfg tw size) (k + 1) (r, size, 0)).2.1
            = (Nat.iterate (BitReader.loopBody cfg tw size) k (r, size, 0)).2.1
              - min (Nat.iterate (BitReader.loopBody cfg tw size) k (r, size, 0)).2.1
                  cfg.wordBits)
      ∧ (Nat.iterate (BitReader.loopBody cfg tw size)
          ((size + cfg.wordBits - 1) / cfg.wordBits) (r, size, 0)).2.1 = 0
      ∧ BitReader.readBitsInternal cfg tw r size
        = ((Nat.iterate (BitReader.loopBody cfg tw size)
              ((size + cfg.wordBits - 1) / cfg.wordBits) (r, size, 0)).1,
            (Nat.iterate (BitReader.loopBody cfg tw size)
              ((size + cfg.wordBits - 1) / cfg.wordBits) (r, size, 0)).2.2)
      ∧ (∀ extra : Nat, BitReader.readBitsLoop cfg tw size (size + extra) r size 0
          = BitReader.readBitsInternal cfg tw r size)
      ∧ (BitReader.readBitsInternal cfg tw r size).1
        = ((BitReader.readBitsPoints cfg size r size).map (fun pt => pt.2.2)).getLastD r
      ∧ (∀ extra : Nat, (BitReader.readBitsPoints cfg (size + extra) r size).length
          = (size + cfg.wordBits - 1) / cfg.wordBits)
      ∧ ((BitReader.readBitsPoints cfg size r size).map (fun pt => pt.2.1)).sum = size
      ∧ (∀ pt ∈ BitReader.readBitsPoints cfg size r size, 1 ≤ pt.2.1 ∧ pt.2.1 ≤ cfg.wordBits)
      ∧ BitReader.readBitsInternal cfg tw r 0 = (r, 0)
      ∧ ∀ fuel : Nat, BitReader.readBitsPoints cfg fuel r 0 = [] := by
  have hW := wordBits_pos cfg
  obtain ⟨h1, h2, h3⟩ := readBitsPoints_length cfg size r size (le_refl _)
  obtain ⟨e1, e2⟩ := readBitsLoop_eq_iterate cfg tw size size (r, size, 0) (le_refl _)
  refine ⟨fun k hk => ?_, e2, e1,
    fun extra => readBitsLoop_fuel cfg tw size size extra r size 0 (le_refl _),
    readBitsLoop_reader_eq_last cfg tw size size r size 0,
    fun extra => ?_, h2, h3, rfl, fun fuel => readBitsPoints_done cfg fuel r⟩
  · have hp := iterate_bitsLeft_pos cfg tw size k (r, size, 0) hk
    refine ⟨hp, by omega, ?_⟩
    rw [Nat.add_comm k 1, Function.iterate_add_apply]
    rfl
  · rw [readBitsPoints_fuel cfg size extra r size (le_refl _), h1]

/-- Witness of C19: 17 bits over one-byte words take three iterations; one bit is
left after two of them, and the third yields the value and the final reader. -/
theorem readBitsInternal_terminates_witness :
    (17 + byteWordConfig.wordBits - 1) / byteWordConfig.wordBits = 3
      ∧ (Nat.iterate (BitReader.loopBody byteWordConfig 32 17) 2
          (BitReader.fresh fiveByteSource, 17, 0)).2.1 = 1
      ∧ BitReader.readBitsInternal byteWordConfig 32 (BitReader.fresh fiveByteSource) 17
        = ((Nat.iterate (BitReader.loopBody byteWordConfig 32 17) 3
              (BitReader.fresh fiveByteSource, 17, 0)).1, 0x1CDAB) :=
  ⟨by decide, by decide,
    (readBitsInternal_terminates byteWordConfig 32 (BitReader.fresh fiveByteSource)
      17).2.2.1.trans (by decide)⟩

end Claims

end Bitsery
